import Mathlib

/-!
Verification development for the `glade` orthtree
(`src/include/glade/orthtree.h` together with the template implementation
`orthtree.tpp` and the iterator/range layers).

The orthtree stores its nodes and leaves in two flat growable arrays, linked
only by relative integer offsets.  We embed those arrays as Lean lists and
translate each member function of `glade::Orthtree` into an executable Lean
function over an `Orthtree` record.

Conventions of the embedding:

* The coordinate scalar (`double` in the default instantiation) is modelled by
  `FScalar`: rationals extended with two infinities and a NaN.  The IEEE
  behaviour of the comparison operators and of `-`, `+`, `/ 2` on the special
  values is modelled exactly; finite arithmetic is exact rational arithmetic
  (the predicates the algorithms use are order comparisons, which is what the
  claims under study exercise).
* `Vector` (`std::array<Scalar, Dim>`) becomes a length-`Dim` list of
  `FScalar`; `operator[]` is `List.getD` (out-of-range access is undefined
  behaviour in C++ and is given the harmless default `.nan` here).
* The unsigned `SizeType` fields (`std::vector::size_type`, 64 bits) are
  `Nat`s; arithmetic that C++ performs in the unsigned type is wrapped through
  `wrap64`, making the mod-2^64 semantics explicit.  The signed
  `DifferenceType` (`ptrdiff_t`) is `Int`.
* Node handles (`NodeIterator`) are plain array indices (`Nat`).  The "end"
  sentinel handle `nodes().end()` is the index `t.nodes.length`, exactly as in
  the C++ iterator representation; likewise for leaves.
* `while` loops whose termination depends on data invariants are given an
  explicit fuel parameter; every caller passes the fuel the corresponding
  C++ loop bound is proved (under `Valid`) to respect.
* The user payloads are opaque to the core: the leaf payload is a type
  parameter `α`; the node payload (`NodeValue`, equally opaque and touched by
  no studied claim) is omitted from the record.
-/

namespace Glade

/-- Scalar model for `double`: dyadic rationals (`fin m e` stands for
`m / 2^e`; every finite `double` is of this form) plus `+∞`, `-∞` (as
`inf true`, `inf false`) and `NaN`.  The arithmetic the orthtree performs —
subtraction, addition and halving — is exact on dyadics. -/
inductive FScalar : Type where
  | nan : FScalar
  | inf : Bool → FScalar
  | fin : Int → Nat → FScalar
deriving DecidableEq

/-- IEEE `<=`: any comparison involving NaN is false; finite values compare
by cross-multiplying the dyadic denominators. -/
def FScalar.le : FScalar → FScalar → Bool
  | .nan, _ => false
  | _, .nan => false
  | .inf b, .inf c => !b || c
  | .inf b, .fin _ _ => !b
  | .fin _ _, .inf c => c
  | .fin m1 e1, .fin m2 e2 => m1 * 2 ^ e2 ≤ m2 * 2 ^ e1

/-- IEEE `<`: any comparison involving NaN is false. -/
def FScalar.lt : FScalar → FScalar → Bool
  | .nan, _ => false
  | _, .nan => false
  | .inf b, .inf c => !b && c
  | .inf b, .fin _ _ => !b
  | .fin _ _, .inf c => c
  | .fin m1 e1, .fin m2 e2 => m1 * 2 ^ e2 < m2 * 2 ^ e1

/-- IEEE `>=` (used by `contains` and `findChild`). -/
def FScalar.ge (a b : FScalar) : Bool := FScalar.le b a

/-- IEEE subtraction on the extended scalars (`∞ - ∞ = NaN`). -/
def FScalar.sub : FScalar → FScalar → FScalar
  | .nan, _ => .nan
  | _, .nan => .nan
  | .inf b, .inf c => if b = c then .nan else .inf b
  | .inf b, .fin _ _ => .inf b
  | .fin _ _, .inf c => .inf (!c)
  | .fin m1 e1, .fin m2 e2 =>
    .fin (m1 * 2 ^ (max e1 e2 - e1) - m2 * 2 ^ (max e1 e2 - e2)) (max e1 e2)

/-- IEEE addition on the extended scalars (`∞ + (-∞) = NaN`). -/
def FScalar.add : FScalar → FScalar → FScalar
  | .nan, _ => .nan
  | _, .nan => .nan
  | .inf b, .inf c => if b = c then .inf b else .nan
  | .inf b, .fin _ _ => .inf b
  | .fin _ _, .inf c => .inf c
  | .fin m1 e1, .fin m2 e2 =>
    .fin (m1 * 2 ^ (max e1 e2 - e1) + m2 * 2 ^ (max e1 e2 - e2)) (max e1 e2)

/-- Division by two (`dimensions[dim] / 2` in `allocChildren`/`findChild`):
exact on dyadics, as on binary floating point. -/
def FScalar.half : FScalar → FScalar
  | .nan => .nan
  | .inf b => .inf b
  | .fin m e => .fin m (e + 1)

/-- Rational value denoted by the finite dyadic scalar `fin m e`. -/
def dval (m : Int) (e : Nat) : ℚ := (m : ℚ) / 2 ^ e

/-- The per-axis containment test of `contains`:
`x >= pos && x - pos < dim`. -/
def axisOk (x pos dim : FScalar) : Bool :=
  FScalar.ge x pos && FScalar.lt (FScalar.sub x pos) dim

/-- `Vector`: a `Dim`-component coordinate vector. -/
abbrev Vec := List FScalar

/-- Unsigned 64-bit wrap-around used whenever C++ adds a signed offset to a
`size_type` value. -/
def wrap64 (x : Int) : Nat := (x.emod (2 ^ 64)).toNat

/-- `Orthtree::LeafInternal`: a stored position together with user data. -/
structure LeafInternal (α : Type) where
  position : Vec
  value : α
deriving DecidableEq

/-- `Orthtree::NodeInternal`.  The `childIndices` array has `2^Dim + 1`
entries, the last one pointing to the node's next sibling.  The opaque
`NodeValue` payload is omitted. -/
structure NodeInternal where
  position : Vec
  dimensions : Vec
  depth : Nat
  childIndices : List Nat
  parentIndex : Int
  siblingIndex : Nat
  leafCount : Nat
  leafIndex : Nat
  hasChildren : Bool
deriving DecidableEq

/-- The `NodeInternal(position, dimensions)` constructor: a fresh node set up
as an empty root, all child indices collapsed to `1`. -/
def NodeInternal.mkNew (Dim : Nat) (position dimensions : Vec) : NodeInternal :=
  { position := position
    dimensions := dimensions
    depth := 0
    childIndices := List.replicate (2 ^ Dim + 1) 1
    parentIndex := 0
    siblingIndex := 0
    leafCount := 0
    leafIndex := 0
    hasChildren := false }

/-- Value returned for an out-of-range node access (undefined behaviour in
C++). -/
def NodeInternal.dummy : NodeInternal :=
  { position := []
    dimensions := []
    depth := 0
    childIndices := []
    parentIndex := 0
    siblingIndex := 0
    leafCount := 0
    leafIndex := 0
    hasChildren := false }

/-- Value returned for an out-of-range leaf access. -/
def LeafInternal.dummy (a : α) : LeafInternal α :=
  { position := [], value := a }

/-- The `glade::Orthtree` state: the two flat stores plus configuration. -/
structure Orthtree (α : Type) where
  leafs : List (LeafInternal α)
  nodes : List NodeInternal
  nodeCapacity : Nat
  maxDepth : Nat
  autoAdjust : Bool
deriving DecidableEq

/-- The `Orthtree(position, dimensions, nodeCapacity, maxDepth, autoAdjust)`
constructor: a single root node covering the given box. -/
def Orthtree.mk0 (Dim : Nat) (position dimensions : Vec)
    (nodeCapacity maxDepth : Nat) (autoAdjust : Bool) : Orthtree α :=
  { leafs := []
    nodes := [NodeInternal.mkNew Dim position dimensions]
    nodeCapacity := nodeCapacity
    maxDepth := maxDepth
    autoAdjust := autoAdjust }

variable {α : Type}

/-- Read the node stored at array index `i`. -/
def getNode (t : Orthtree α) (i : Nat) : NodeInternal :=
  t.nodes.getD i NodeInternal.dummy

/-- Apply an in-place update to the node at index `i` (writing through a
`NodeIterator`). -/
def setNode (t : Orthtree α) (i : Nat) (f : NodeInternal → NodeInternal) :
    Orthtree α :=
  { t with nodes := t.nodes.set i (f (getNode t i)) }

/-- `node->hasParent`: the node reference proxy reports `_index != 0`. -/
def hasParentB (i : Nat) : Bool := i ≠ 0

/-- `node->parent`: the index `_index + parentIndex` (a negative relative
offset). -/
def parentIdx (t : Orthtree α) (i : Nat) : Nat :=
  ((i : Int) + (getNode t i).parentIndex).toNat

/-- `node->children[k]`: the index `_index + childIndices[k]`. -/
def childPtr (t : Orthtree α) (i : Nat) (k : Nat) : Nat :=
  i + (getNode t i).childIndices.getD k 0

/-- `Orthtree::canHoldLeafs(node, n)`: unsigned comparison
`node->leafs.size() + n <= _nodeCapacity || node->depth >= _maxDepth`. -/
def canHoldLeafs (t : Orthtree α) (i : Nat) (n : Int) : Bool :=
  wrap64 ((getNode t i).leafCount + n) ≤ t.nodeCapacity ||
  (getNode t i).depth ≥ t.maxDepth

/-- `Orthtree::contains(node, point)`: per-axis half-open interval test
`point[dim] >= position[dim] && point[dim] - position[dim] < dimensions[dim]`. -/
def containsPoint (Dim : Nat) (node : NodeInternal) (point : Vec) : Bool :=
  (List.range Dim).all fun dim =>
    FScalar.ge (point.getD dim .nan) (node.position.getD dim .nan) &&
    FScalar.lt
      (FScalar.sub (point.getD dim .nan) (node.position.getD dim .nan))
      (node.dimensions.getD dim .nan)

/-- `Orthtree::contains(node, leaf)`: the leaf's array index lies in the
node's leaf range. -/
def containsLeaf (t : Orthtree α) (i : Nat) (leaf : Nat) : Bool :=
  (getNode t i).leafIndex ≤ leaf &&
  leaf < (getNode t i).leafIndex + (getNode t i).leafCount

/-- The upward walk of `Orthtree::contains(parent, node)`: follow parent
links while the current node is deeper than `parentDepth`.  `fuel` bounds the
loop; the callers use the walker's own depth, which suffices on valid trees. -/
def ancestorAtDepth (t : Orthtree α) (parentDepth : Nat) :
    Nat → Nat → Nat
  | 0, j => j
  | fuel + 1, j =>
    if (getNode t j).depth > parentDepth then
      ancestorAtDepth t parentDepth fuel (parentIdx t j)
    else j

/-- `Orthtree::contains(parent, node)`: walk up from `node` to `parent`'s
depth and compare. -/
def containsNode (t : Orthtree α) (i j : Nat) : Bool :=
  ancestorAtDepth t (getNode t i).depth (getNode t j).depth j = i

/-- The child-index computation of `Orthtree::findChild(node, point)`: one bit
per axis, set iff `point[dim] - position[dim] >= dimensions[dim] / 2`. -/
def childIndexOfPoint (Dim : Nat) (node : NodeInternal) (point : Vec) : Nat :=
  (List.range Dim).foldl
    (fun childIndex dim =>
      if FScalar.ge
          (FScalar.sub (point.getD dim .nan) (node.position.getD dim .nan))
          (FScalar.half (node.dimensions.getD dim .nan)) then
        childIndex + 2 ^ dim
      else childIndex)
    0

/-- `Orthtree::findChild(node, point)`: the child picked by
`childIndexOfPoint`. -/
def findChildPoint (Dim : Nat) (t : Orthtree α) (i : Nat) (point : Vec) :
    Nat :=
  childPtr t i (childIndexOfPoint Dim (getNode t i) point)

/-- `Orthtree::findChild(node, leaf)`: scan the `2^Dim` children in order for
one whose leaf range contains the leaf; `nodes().end()` when none does. -/
def findChildLeaf (Dim : Nat) (t : Orthtree α) (i : Nat) (leaf : Nat) : Nat :=
  match (List.range (2 ^ Dim)).find?
      (fun k => containsLeaf t (childPtr t i k) leaf) with
  | some k => childPtr t i k
  | none => t.nodes.length

/-- The upward phase of `Orthtree::find`: climb while the current node fails
the containment test `ok`; answer `none` for the `nodes().end()` return. -/
def findUp (t : Orthtree α) (ok : Nat → Bool) : Nat → Nat → Option Nat
  | 0, _ => none
  | fuel + 1, i =>
    if ok i then some i
    else if hasParentB i then findUp t ok fuel (parentIdx t i)
    else none

/-- The downward phase of `Orthtree::find`: descend through `next` while the
current node has children. -/
def findDown (t : Orthtree α) (next : Nat → Nat) : Nat → Nat → Nat
  | 0, i => i
  | fuel + 1, i =>
    if (getNode t i).hasChildren then findDown t next fuel (next i)
    else i

/-- `Orthtree::find(hint, point)` as an array index; `t.nodes.length` is the
`nodes().end()` sentinel. -/
def findPoint (Dim : Nat) (t : Orthtree α) (hint : Nat) (point : Vec) : Nat :=
  match findUp t (fun i => containsPoint Dim (getNode t i) point)
      (t.nodes.length + 1) hint with
  | none => t.nodes.length
  | some i =>
    findDown t (fun i => findChildPoint Dim t i point) (t.maxDepth + 1) i

/-- `Orthtree::find(hint, leaf)` as an array index; `t.nodes.length` is the
`nodes().end()` sentinel. -/
def findLeaf (Dim : Nat) (t : Orthtree α) (hint : Nat) (leaf : Nat) : Nat :=
  match findUp t (fun i => containsLeaf t i leaf) (t.nodes.length + 1) hint with
  | none => t.nodes.length
  | some i =>
    findDown t (fun i => findChildLeaf Dim t i leaf) (t.maxDepth + 1) i

/-- Position of the leaf stored at array index `leaf` (out-of-range access is
undefined behaviour in C++; here it yields the empty vector). -/
def leafPosAt (t : Orthtree α) (leaf : Nat) : Vec :=
  match t.leafs.get? leaf with
  | some l => l.position
  | none => []

/-- Overwrite the stored position of leaf `leaf`
(`leaf.internalIt()->position = position`). -/
def setLeafPosition (t : Orthtree α) (leaf : Nat) (position : Vec) :
    Orthtree α :=
  match t.leafs.get? leaf with
  | some l => { t with leafs := t.leafs.set leaf { l with position := position } }
  | none => t

/-- `Orthtree::allocChildren(node)`: insert `2^Dim` fresh nodes directly after
`node`, then assign each child its depth, relative parent index, sibling
index, leaf index, and its half-sized box (axis `dim` of child `index` is
shifted by half the parent dimension iff bit `dim` of `index` is set). -/
def allocChildren (Dim : Nat) (t : Orthtree α) (i : Nat) : Orthtree α :=
  let node := getNode t i
  let base := NodeInternal.mkNew Dim node.position node.dimensions
  let t1 : Orthtree α :=
    { t with nodes :=
        t.nodes.take (i + 1) ++ List.replicate (2 ^ Dim) base ++
          t.nodes.drop (i + 1) }
  (List.range (2 ^ Dim)).foldl
    (fun t idx =>
      setNode t (i + idx + 1) fun child =>
        { child with
          depth := node.depth + 1
          parentIndex := -((idx : Int) + 1)
          siblingIndex := idx
          leafIndex := node.leafIndex + node.leafCount
          dimensions :=
            (List.range Dim).map fun dim =>
              FScalar.half (child.dimensions.getD dim .nan)
          position :=
            (List.range Dim).map fun dim =>
              if (2 ^ dim).land idx ≠ 0 then
                FScalar.add (child.position.getD dim .nan)
                  (FScalar.half (node.dimensions.getD dim .nan))
              else child.position.getD dim .nan })
    t1

/-- `Orthtree::freeChildren(node)`: erase the node slots from `children[0]` up
to (excluding) `children[2^Dim]`. -/
def freeChildren (Dim : Nat) (t : Orthtree α) (i : Nat) : Orthtree α :=
  { t with nodes :=
      t.nodes.take (childPtr t i 0) ++ t.nodes.drop (childPtr t i (2 ^ Dim)) }

/-- One step of the inner loop of `Orthtree::updateAncestorChildData`: bump
`parent.childIndices[s]` by the (signed) change and, if requested, repair the
`parentIndex` of the child now designated by the updated entry. -/
def bumpChildEntry (t : Orthtree α) (p s : Nat) (change : Int)
    (updateParentIndices : Bool) : Orthtree α :=
  let t1 := setNode t p fun n =>
    { n with childIndices :=
        n.childIndices.set s (wrap64 (n.childIndices.getD s 0 + change)) }
  if updateParentIndices then
    setNode t1 (childPtr t1 p s) fun n =>
      { n with parentIndex := n.parentIndex - change }
  else t1

/-- `Orthtree::updateAncestorChildData(node, childCountChange,
updateParentIndices)`: walk the ancestor chain; at each ancestor bump the
child entries of the siblings after the mutated child, then the sentinel
entry.  `fuel` bounds the ancestor walk (callers pass the node count). -/
def updateAncestorChildData (Dim : Nat) (t : Orthtree α)
    (change : Int) (updateParentIndices : Bool) : Nat → Nat → Orthtree α
  | 0, _ => t
  | fuel + 1, j =>
    if hasParentB j then
      let sib := (getNode t j).siblingIndex
      let p := parentIdx t j
      let t1 := ((List.range (2 ^ Dim)).drop (sib + 1)).foldl
        (fun t s => bumpChildEntry t p s change updateParentIndices) t
      let t2 := setNode t1 p fun n =>
        { n with childIndices :=
            (n.childIndices.set (2 ^ Dim)
              (wrap64 (n.childIndices.getD (2 ^ Dim) 0 + change))) }
      updateAncestorChildData Dim t2 change updateParentIndices fuel p
    else t

/-- `Orthtree::updateNodeChildData(node, childrenCreated,
updateParentIndices)`: set `hasChildren`, rewrite the node's own child
indices (`iota` from 1 on creation, all-`1` on destruction), and propagate
the sentinel delta to the ancestors.  Returns the new state together with the
returned `childCountChange`. -/
def updateNodeChildData (Dim : Nat) (t : Orthtree α) (i : Nat)
    (childrenCreated : Bool) (updateParentIndices : Bool) :
    Orthtree α × Int :=
  let oldSentinel : Int := (getNode t i).childIndices.getD (2 ^ Dim) 0
  let newIndices : List Nat :=
    if childrenCreated then (List.range (2 ^ Dim + 1)).map (· + 1)
    else List.replicate (2 ^ Dim + 1) 1
  let newSentinel : Int := newIndices.getD (2 ^ Dim) 0
  let change : Int := newSentinel - oldSentinel
  let t1 := setNode t i fun n =>
    { n with hasChildren := childrenCreated, childIndices := newIndices }
  (updateAncestorChildData Dim t1 change updateParentIndices
    t1.nodes.length i, change)

/-- Increment (`delta = 1`) or decrement (`delta = -1`) the `leafCount` of the
node at `j`. -/
def bumpCount (t : Orthtree α) (j : Nat) (delta : Int) : Orthtree α :=
  setNode t j fun n => { n with leafCount := wrap64 (n.leafCount + delta) }

/-- The ancestor walk of `moveAt`/`insertAt`/`eraseAt` that bumps `leafCount`
along the parent chain of (but excluding) node `j`. -/
def bumpAncestorCounts (t : Orthtree α) (delta : Int) :
    Nat → Nat → Orthtree α
  | 0, _ => t
  | fuel + 1, j =>
    if hasParentB j then
      let p := parentIdx t j
      bumpAncestorCounts (bumpCount t p delta) delta fuel p
    else t

/-- Left rotation of `_leafs` performed by `moveAt` when the destination slot
comes after the source slot: the leaf at `s` moves to slot `dl - 1` and the
block in between shifts down by one. -/
def rotateLeft (l : List β) (s dl : Nat) : List β :=
  l.take s ++ (l.drop (s + 1)).take (dl - (s + 1)) ++ (l.drop s).take 1 ++
    l.drop dl

/-- Right rotation of `_leafs` performed by `moveAt` when the destination slot
comes before the source slot: the leaf at `s` moves to slot `dl` and the block
in between shifts up by one. -/
def rotateRight (l : List β) (dl s : Nat) : List β :=
  l.take dl ++ (l.drop s).take 1 ++ (l.drop dl).take (s - dl) ++
    l.drop (s + 1)

/-- `Orthtree::moveAt(sourceNode, destNode, sourceLeaf)`: rotate the leaf
array to carry the leaf to the open boundary slot of the destination node,
bump the `leafCount` of the destination chain up and the source chain down,
and shift the `leafIndex` of every node strictly between the two nodes.
Returns the new state and the leaf's new array index.  `fuel` bounds the two
ancestor walks. -/
def moveAt (t : Orthtree α) (sourceNode destNode sourceLeaf : Nat)
    (fuel : Nat) : Orthtree α × Nat :=
  let destLeaf := (getNode t destNode).leafIndex + (getNode t destNode).leafCount
  let rotated : List (LeafInternal α) × Nat :=
    if sourceLeaf < destLeaf then
      (rotateLeft t.leafs sourceLeaf destLeaf, destLeaf - 1)
    else if destLeaf < sourceLeaf then
      (rotateRight t.leafs destLeaf sourceLeaf, destLeaf)
    else (t.leafs, sourceLeaf)
  let t1 : Orthtree α := { t with leafs := rotated.1 }
  let t2 := bumpAncestorCounts (bumpCount t1 destNode 1) 1 fuel destNode
  let t3 := bumpAncestorCounts (bumpCount t2 sourceNode (-1)) (-1) fuel
    sourceNode
  let nodeInverted := sourceNode ≥ destNode
  let leafIndexOffset : Int := if nodeInverted then 1 else -1
  let firstNode := (if nodeInverted then destNode else sourceNode) + 1
  let lastNode := (if nodeInverted then sourceNode else destNode) + 1
  let t4 := (List.range' firstNode (lastNode - firstNode)).foldl
    (fun t j => setNode t j fun n =>
      { n with leafIndex := wrap64 (n.leafIndex + leafIndexOffset) })
    t3
  (t4, rotated.2)

/-- `Orthtree::insertAt(node, value, position)`: insert the new leaf at the
end of the node's slice, bump the `leafIndex` of every later node, and bump
`leafCount` along the ancestor chain.  Returns the new state and the new
leaf's index. -/
def insertAt (t : Orthtree α) (i : Nat) (value : α) (position : Vec)
    (fuel : Nat) : Orthtree α × Nat :=
  let pos := (getNode t i).leafIndex + (getNode t i).leafCount
  let t1 : Orthtree α :=
    { t with leafs :=
        t.leafs.take pos ++ [⟨position, value⟩] ++ t.leafs.drop pos }
  let t2 := (List.range' (i + 1) (t1.nodes.length - (i + 1))).foldl
    (fun t j => setNode t j fun n =>
      { n with leafIndex := wrap64 (n.leafIndex + 1) })
    t1
  let t3 := bumpAncestorCounts (bumpCount t2 i 1) 1 fuel i
  (t3, (getNode t3 i).leafIndex + (getNode t3 i).leafCount - 1)

/-- `Orthtree::eraseAt(node, leaf)`: remove the leaf from the leaf array,
decrement the `leafIndex` of every later node, and decrement `leafCount`
along the ancestor chain.  Returns the new state and the iterator to the slot
after the removed leaf (the same index). -/
def eraseAt (t : Orthtree α) (i : Nat) (leaf : Nat) (fuel : Nat) :
    Orthtree α × Nat :=
  let t1 : Orthtree α :=
    { t with leafs := t.leafs.take leaf ++ t.leafs.drop (leaf + 1) }
  let t2 := (List.range' (i + 1) (t1.nodes.length - (i + 1))).foldl
    (fun t j => setNode t j fun n =>
      { n with leafIndex := wrap64 (n.leafIndex - 1) })
    t1
  let t3 := bumpAncestorCounts (bumpCount t2 i (-1)) (-1) fuel i
  (t3, leaf)

/-- The loop of `Orthtree::distributeLeafs(node)`: repeatedly take the first
leaf of the node's slice, find the child selected by its position, and
`moveAt` it there.  The loop condition `index < node->leafs.size()` is
re-read from the evolving state. -/
def distributeLeafsGo (Dim : Nat) (i walkFuel : Nat) :
    Nat → Nat → Orthtree α → Orthtree α
  | 0, _, t => t
  | fuel + 1, index, t =>
    if index < (getNode t i).leafCount then
      let leaf := (getNode t i).leafIndex
      let child := findChildPoint Dim t i (leafPosAt t leaf)
      distributeLeafsGo Dim i walkFuel fuel (index + 1)
        (moveAt t i child leaf walkFuel).1
    else t

/-- `Orthtree::distributeLeafs(node)`. -/
def distributeLeafs (Dim : Nat) (t : Orthtree α) (i : Nat) : Orthtree α :=
  distributeLeafsGo Dim i t.nodes.length (t.leafs.length + 1) 0 t

/-- `Orthtree::createChildren(node)`: allocate, renumber, redistribute. -/
def createChildren (Dim : Nat) (t : Orthtree α) (i : Nat) : Orthtree α :=
  distributeLeafs Dim
    (updateNodeChildData Dim (allocChildren Dim t i) i true true).1 i

/-- `Orthtree::destroyChildren(node)`: free the descendant slots, then
renumber. -/
def destroyChildren (Dim : Nat) (t : Orthtree α) (i : Nat) : Orthtree α :=
  (updateNodeChildData Dim (freeChildren Dim t i) i false true).1

/-- The splitting loop of `Orthtree::insert`: while rebalancing is on and the
node cannot hold one more leaf, create children and re-locate. -/
def insertLoop (Dim : Nat) (position : Vec) :
    Nat → Orthtree α → Nat → Orthtree α × Nat
  | 0, t, node => (t, node)
  | fuel + 1, t, node =>
    if t.autoAdjust && !canHoldLeafs t node 1 then
      let t1 := createChildren Dim t node
      insertLoop Dim position fuel t1 (findPoint Dim t1 node position)
    else (t, node)

/-- `Orthtree::insert(hint, value, position)`: locate, split while needed,
then `insertAt`.  Returns the new state, the owner node index, and the new
leaf index (`nodes.length`/`leafs.length` are the end sentinels of the
unchanged state on failure). -/
def insert (Dim : Nat) (t : Orthtree α) (hint : Nat) (value : α)
    (position : Vec) : Orthtree α × Nat × Nat :=
  let node := findPoint Dim t hint position
  if node = t.nodes.length then (t, t.nodes.length, t.leafs.length)
  else
    let r1 := insertLoop Dim position (t.maxDepth + 1) t node
    let r2 := insertAt r1.1 r1.2 value position r1.1.nodes.length
    (r2.1, r1.2, r2.2)

/-- The merging loop of `Orthtree::erase`: while rebalancing is on, the node
has a parent and that parent could hold one fewer leaf, move up and destroy
the children there. -/
def eraseLoop (Dim : Nat) : Nat → Orthtree α → Nat → Orthtree α × Nat
  | 0, t, node => (t, node)
  | fuel + 1, t, node =>
    if t.autoAdjust && hasParentB node &&
        canHoldLeafs t (parentIdx t node) (-1) then
      let p := parentIdx t node
      eraseLoop Dim fuel (destroyChildren Dim t p) p
    else (t, node)

/-- `Orthtree::erase(hint, leaf)`: locate the owner, merge upward while
possible, then `eraseAt`. -/
def erase (Dim : Nat) (t : Orthtree α) (hint : Nat) (leaf : Nat) :
    Orthtree α × Nat × Nat :=
  let node := findLeaf Dim t hint leaf
  if node = t.nodes.length then (t, t.nodes.length, t.leafs.length)
  else
    let r1 := eraseLoop Dim t.nodes.length t node
    let r2 := eraseAt r1.1 r1.2 leaf r1.1.nodes.length
    (r2.1, r1.2, r2.2)

/-- The merging loop of `Orthtree::move`: merge upward from the source while
the parent can absorb the change and does not contain the destination,
sliding the destination index past the removed block. -/
def moveMergeLoop (Dim : Nat) :
    Nat → Orthtree α → Nat → Nat → Orthtree α × Nat × Nat
  | 0, t, source, dest => (t, source, dest)
  | fuel + 1, t, source, dest =>
    if hasParentB source && canHoldLeafs t (parentIdx t source) (-1) &&
        !containsNode t (parentIdx t source) dest then
      let dest1 := if dest > source then dest - 2 ^ Dim else dest
      let source1 := parentIdx t source
      moveMergeLoop Dim fuel (destroyChildren Dim t source1) source1 dest1
    else (t, source, dest)

/-- The splitting loop of `Orthtree::move`: split the destination while it
cannot hold one more leaf, sliding the source index past the inserted
block. -/
def moveSplitLoop (Dim : Nat) (position : Vec) :
    Nat → Orthtree α → Nat → Nat → Orthtree α × Nat × Nat
  | 0, t, source, dest => (t, source, dest)
  | fuel + 1, t, source, dest =>
    if !canHoldLeafs t dest 1 && dest ≠ source then
      let source1 := if source > dest then source + 2 ^ Dim else source
      let t1 := createChildren Dim t dest
      moveSplitLoop Dim position fuel t1 source1
        (findChildPoint Dim t1 dest position)
    else (t, source, dest)

/-- `Orthtree::move(hint, leaf, position)`: locate source and destination,
rebalance both sides if `_autoAdjust`, update the leaf's stored position and
`moveAt` it.  Returns the new state, source node, destination node, and the
leaf's new index. -/
def move (Dim : Nat) (t : Orthtree α) (hint : Nat) (leaf : Nat)
    (position : Vec) : Orthtree α × Nat × Nat × Nat :=
  let source := findLeaf Dim t hint leaf
  let dest := findPoint Dim t hint position
  if source = t.nodes.length ∨ dest = t.nodes.length then
    (t, t.nodes.length, t.nodes.length, t.leafs.length)
  else
    let r1 :=
      if t.autoAdjust then
        let m := moveMergeLoop Dim (t.maxDepth + 1) t source dest
        moveSplitLoop Dim position (t.maxDepth + 1) m.1 m.2.1 m.2.2
      else (t, source, dest)
    let t2 := setLeafPosition r1.1 leaf position
    let r3 := moveAt t2 r1.2.1 r1.2.2 leaf t2.nodes.length
    (r3.1, r1.2.1, r1.2.2, r3.2)

/-- Loop state of `Orthtree::adjust`: the scratch orthtree being built, the
cursor into it, the cursor into the old subtree, the current depth, the stack
of accumulated parent-offset corrections, and the change flag. -/
structure AdjustState (α : Type) where
  newT : Orthtree α
  newNode : Nat
  oldNode : Nat
  depth : Nat
  stack : List Int
  result : Bool

/-- The `while (newNode->depth < depth)` stack unwinding of `adjust`: pop the
top correction and fold it into the entry below. -/
def adjustStackPop : List Int → Nat → List Int
  | stack, 0 => stack
  | a :: b :: rest, k + 1 => adjustStackPop ((b + a) :: rest) k
  | stack, _ + 1 => stack

/-- The main loop of `Orthtree::adjust` (fuelled).  `t` is the outer tree
(read-only during the loop), `i` the subtree root in it, `leafOffset` its
original leaf index. -/
def adjustGo (Dim : Nat) (t : Orthtree α) (i : Nat) (leafOffset : Nat) :
    Nat → AdjustState α → AdjustState α
  | 0, s => s
  | fuel + 1, s =>
    if s.newNode = s.newT.nodes.length then s
    else
      let nd := (getNode s.newT s.newNode).depth
      let stack1 :=
        if s.depth < nd then List.replicate (nd - s.depth) 0 ++ s.stack
        else adjustStackPop s.stack (s.depth - nd)
      let t1 := setNode s.newT s.newNode fun n =>
        { n with parentIndex := n.parentIndex + stack1.headD 0 }
      let n1 := getNode t1 s.newNode
      let step :
          Orthtree α × List Int × Nat × Bool :=
        if !n1.hasChildren && !canHoldLeafs t1 s.newNode 0 then
          let t2 := allocChildren Dim t1 s.newNode
          let r := updateNodeChildData Dim t2 s.newNode true false
          let stack2 := (stack1.headD 0 - r.2) :: stack1.tail
          (distributeLeafs Dim r.1 s.newNode, stack2, s.oldNode, true)
        else if n1.hasChildren && canHoldLeafs t1 s.newNode 0 then
          let r := updateNodeChildData Dim t1 s.newNode false false
          let stack2 := (stack1.headD 0 - r.2) :: stack1.tail
          (r.1, stack2,
            s.oldNode + (getNode t s.oldNode).childIndices.getD (2 ^ Dim) 0 - 1,
            true)
        else (t1, stack1, s.oldNode, s.result)
      let newNode1 := s.newNode + 1
      let oldEnd := i + (getNode t i).childIndices.getD (2 ^ Dim) 0
      let refill :=
        newNode1 = step.1.nodes.length && step.2.2.1 + 1 ≠ oldEnd
      let t3 :=
        if refill then
          { step.1 with nodes :=
              (step.1.nodes ++
                [{ getNode t (step.2.2.1 + 1) with
                    leafIndex :=
                      (wrap64 ((getNode t (step.2.2.1 + 1)).leafIndex -
                        leafOffset)) }]) }
        else step.1
      adjustGo Dim t i leafOffset fuel
        { newT := t3
          newNode := newNode1
          oldNode := if refill then step.2.2.1 + 1 else step.2.2.1
          depth := nd
          stack := step.2.1
          result := step.2.2.2 }

/-- `Orthtree::adjust(node)`: rebuild the subtree rooted at `i` in a scratch
orthtree, splice the result back over the old subtree, and propagate the
ancestor child data (the implementation passes `change + 1`).  Returns the
new state and whether any change was made. -/
def adjust (Dim : Nat) (t : Orthtree α) (i : Nat) : Orthtree α × Bool :=
  let zeroVec : Vec := List.replicate Dim (.fin 0 0)
  let newT0 : Orthtree α :=
    Orthtree.mk0 Dim zeroVec zeroVec t.nodeCapacity t.maxDepth false
  let node := getNode t i
  let leafOffset := node.leafIndex
  let newT1 : Orthtree α :=
    { newT0 with
      leafs := (t.leafs.drop node.leafIndex).take node.leafCount
      nodes := [{ node with leafIndex := wrap64 (node.leafIndex - leafOffset) }] }
  let fuel :=
    2 + 2 ^ Dim * ((node.leafCount + 1) * (t.maxDepth + 1) + 1) +
      node.childIndices.getD (2 ^ Dim) 0
  let s1 := adjustGo Dim t i leafOffset fuel
    { newT := newT1
      newNode := 0
      oldNode := i
      depth := (getNode newT1 0).depth
      stack := [0]
      result := false }
  let descSize :=
    node.childIndices.getD (2 ^ Dim) 0 - node.childIndices.getD 0 0
  let change : Int := (s1.newT.nodes.length : Int) - (1 + descSize)
  let nodes1 :=
    if change < 0 then t.nodes.take i ++ t.nodes.drop (i + change.natAbs)
    else if change > 0 then
      t.nodes.take i ++
        List.replicate change.natAbs (NodeInternal.mkNew Dim [] []) ++
        t.nodes.drop i
    else t.nodes
  let newNodes :=
    if leafOffset ≠ 0 then
      s1.newT.nodes.map fun n =>
        { n with leafIndex := wrap64 (n.leafIndex + leafOffset) }
    else s1.newT.nodes
  let nodes2 :=
    nodes1.take i ++ newNodes ++ nodes1.drop (i + newNodes.length)
  let t2 : Orthtree α := { t with nodes := nodes2 }
  let leafStart := (getNode t2 i).leafIndex
  let t3 : Orthtree α :=
    { t2 with leafs :=
        (t2.leafs.take leafStart ++ s1.newT.leafs ++
          t2.leafs.drop (leafStart + s1.newT.leafs.length)) }
  (updateAncestorChildData Dim t3 (change + 1) true t3.nodes.length i,
    s1.result)

/-- The range insert `Orthtree::insert(hint, leafBegin, leafEnd,
positionBegin, positionEnd)`: suppress rebalancing, insert one by one,
adjust the root, re-enable rebalancing. -/
def rangeInsert (Dim : Nat) (t : Orthtree α) (hint : Nat)
    (pairs : List (α × Vec)) : Orthtree α :=
  let t1 : Orthtree α := { t with autoAdjust := false }
  let t2 := pairs.foldl (fun t p => (insert Dim t hint p.1 p.2).1) t1
  let t3 := (adjust Dim t2 0).1
  { t3 with autoAdjust := true }

/-- The range erase `Orthtree::erase(hint, leafBegin, leafEnd)`: suppress
rebalancing, erase in reverse index order, adjust the root, re-enable
rebalancing. -/
def rangeErase (Dim : Nat) (t : Orthtree α) (hint : Nat) (b e : Nat) :
    Orthtree α :=
  let t1 : Orthtree α := { t with autoAdjust := false }
  let t2 := (List.range (e - b)).foldl
    (fun t k => (erase Dim t hint (e - 1 - k)).1) t1
  let t3 := (adjust Dim t2 0).1
  { t3 with autoAdjust := true }

/-- The `while (processed[processedIndex]) { ++processedIndex; ++leafIt; }`
scan of the range move. -/
def advanceProcessed (processed : List Bool) :
    Nat → Nat × Nat → Nat × Nat
  | 0, s => s
  | fuel + 1, s =>
    if processed.getD s.1 false then
      advanceProcessed processed fuel (s.1 + 1, s.2 + 1)
    else s

/-- The main loop of the range move `Orthtree::move(hint, leafBegin, leafEnd,
positionBegin, positionEnd)`, driven by the leaf count; `processed` is the
flag vector guarding against double-processing. -/
def rangeMoveGo (Dim : Nat) (hint leafBegin : Nat) (positions : List Vec) :
    Nat → Orthtree α → List Bool → Nat → Nat → Nat → Orthtree α
  | 0, t, _, _, _, _ => t
  | fuel + 1, t, processed, pi, li, posIdx =>
    let r := move Dim t hint li (positions.getD posIdx [])
    let npi : Int := (r.2.2.2 : Int) - leafBegin
    let n := processed.length
    let processed1 :=
      if npi ≤ (pi : Int) then processed.set pi true
      else if npi < (n : Int) then
        processed.take pi ++ (processed.drop (pi + 1)).take (npi.toNat - pi) ++
          [true] ++ processed.drop (npi.toNat + 1)
      else processed.take pi ++ processed.drop (pi + 1) ++
        processed.drop (n - 1)
    let s := advanceProcessed processed1 (processed1.length + 1) (pi, li)
    rangeMoveGo Dim hint leafBegin positions fuel r.1 processed1 s.1 s.2
      (posIdx + 1)

/-- The range move `Orthtree::move(hint, leafBegin, leafEnd, positionBegin,
positionEnd)`. -/
def rangeMove (Dim : Nat) (t : Orthtree α) (hint b e : Nat)
    (positions : List Vec) : Orthtree α :=
  let t1 : Orthtree α := { t with autoAdjust := false }
  let numLeafs := e - b
  let t2 := rangeMoveGo Dim hint b positions numLeafs t1
    (List.replicate numLeafs false) 0 b 0
  let t3 := (adjust Dim t2 0).1
  { t3 with autoAdjust := true }

/-- The split step of the bulk constructor: allocate children, renumber,
bucket the node's leaf slice by `findChild`, write the buckets back into the
leaf array in child order and assign each child its slice. -/
def bulkSplitNode (Dim : Nat) (t : Orthtree α) (i : Nat) : Orthtree α :=
  let t1 := allocChildren Dim t i
  let t2 := (updateNodeChildData Dim t1 i true true).1
  let node := getNode t2 i
  let slice := (t2.leafs.drop node.leafIndex).take node.leafCount
  let buckets := (List.range (2 ^ Dim)).map fun k =>
    slice.filter fun l =>
      (getNode t2 (findChildPoint Dim t2 i l.position)).siblingIndex = k
  let t3 : Orthtree α :=
    { t2 with leafs :=
        (t2.leafs.take node.leafIndex ++ buckets.flatten ++
          t2.leafs.drop (node.leafIndex + buckets.flatten.length)) }
  ((List.range (2 ^ Dim)).foldl
    (fun acc k =>
      let cnt := (buckets.getD k []).length
      (setNode acc.1 (childPtr acc.1 i k)
          (fun n => { n with leafIndex := acc.2, leafCount := cnt }),
        acc.2 + cnt))
    (t3, node.leafIndex)).1

/-- The node sweep of the bulk constructor: split every node that cannot hold
its leaves, advancing over newly created children as well. -/
def bulkLoop (Dim : Nat) : Nat → Orthtree α → Nat → Orthtree α
  | 0, t, _ => t
  | fuel + 1, t, i =>
    if i = t.nodes.length then t
    else
      bulkLoop Dim fuel
        (if !canHoldLeafs t i 0 then bulkSplitNode Dim t i else t) (i + 1)

/-- The bulk constructor `Orthtree(position, dimensions, leafBegin, leafEnd,
positionBegin, positionEnd, nodeCapacity, maxDepth, autoAdjust)`. -/
def bulkConstruct (Dim : Nat) (position dimensions : Vec)
    (pairs : List (α × Vec)) (nodeCapacity maxDepth : Nat)
    (autoAdjust : Bool) : Orthtree α :=
  let t0 : Orthtree α :=
    Orthtree.mk0 Dim position dimensions nodeCapacity maxDepth autoAdjust
  let t1 : Orthtree α :=
    { t0 with leafs := pairs.map fun p => ⟨p.2, p.1⟩ }
  let t2 := setNode t1 0 fun n =>
    { n with leafIndex := 0, leafCount := t1.leafs.length }
  bulkLoop Dim (2 + 2 ^ Dim * ((pairs.length + 1) * (maxDepth + 1) + 1)) t2 0

/-- The dimensions every child created by `allocChildren` receives: half the
parent's dimension along every axis. -/
def childDims (Dim : Nat) (parent : NodeInternal) : Vec :=
  (List.range Dim).map fun dim =>
    FScalar.half (parent.dimensions.getD dim .nan)

/-- The position child `k` receives from `allocChildren`: the parent's corner,
shifted by half the parent dimension along axis `dim` iff bit `dim` of `k` is
set. -/
def childPos (Dim : Nat) (parent : NodeInternal) (k : Nat) : Vec :=
  (List.range Dim).map fun dim =>
    if (2 ^ dim).land k ≠ 0 then
      FScalar.add (parent.position.getD dim .nan)
        (FScalar.half (parent.dimensions.getD dim .nan))
    else parent.position.getD dim .nan

/-- The node that slot `idx` of the block inserted by `allocChildren`
holds once the setup loop has run: a fresh childless node with the parent's
box halved according to the sibling index bit pattern. -/
def allocChild (Dim : Nat) (parent : NodeInternal) (idx : Nat) : NodeInternal :=
  { NodeInternal.mkNew Dim parent.position parent.dimensions with
    depth := parent.depth + 1
    parentIndex := -((idx : Int) + 1)
    siblingIndex := idx
    leafIndex := parent.leafIndex + parent.leafCount
    dimensions := childDims Dim parent
    position := childPos Dim parent idx }

/-- The sentinel child entry of node `i`: the offset of its next sibling,
i.e. the number of array slots the node's subtree occupies. -/
def sentinel (Dim : Nat) (t : Orthtree α) (i : Nat) : Nat :=
  (getNode t i).childIndices.getD (2 ^ Dim) 0

/-- Invariants 4 and 5 of the specification: a terminal node holds at most
`nodeCapacity` leaves unless its depth equals `maxDepth`, and a node with
children holds strictly more than `nodeCapacity`. -/
def CapacityInvariant (t : Orthtree α) : Prop :=
  ∀ i, i < t.nodes.length →
    ((getNode t i).hasChildren = false →
      (getNode t i).leafCount ≤ t.nodeCapacity ∨
      (getNode t i).depth = t.maxDepth) ∧
    ((getNode t i).hasChildren = true →
      t.nodeCapacity < (getNode t i).leafCount)

/-- Structural validity of the flat representation: the well-formedness facts
(§3 of the specification) that every public operation preserves and that the
location/mutation algorithms rely upon. -/
structure Valid (Dim : Nat) (t : Orthtree α) : Prop where
  dim_pos : 0 < Dim
  len_pos : 0 < t.nodes.length
  nodes_lt : t.nodes.length < 2 ^ 64
  leafs_lt : t.leafs.length < 2 ^ 64
  root_depth : (getNode t 0).depth = 0
  root_leafIndex : (getNode t 0).leafIndex = 0
  root_leafCount : (getNode t 0).leafCount = t.leafs.length
  pos_len : ∀ i, i < t.nodes.length →
    (getNode t i).position.length = Dim ∧
    (getNode t i).dimensions.length = Dim
  leaf_pos_len : ∀ l ∈ t.leafs, l.position.length = Dim
  ci_len : ∀ i, i < t.nodes.length →
    (getNode t i).childIndices.length = 2 ^ Dim + 1
  depth_le : ∀ i, i < t.nodes.length → (getNode t i).depth ≤ t.maxDepth
  no_children : ∀ i, i < t.nodes.length →
    (getNode t i).hasChildren = false →
    (getNode t i).childIndices = List.replicate (2 ^ Dim + 1) 1
  ci_zero : ∀ i, i < t.nodes.length → (getNode t i).hasChildren = true →
    (getNode t i).childIndices.getD 0 0 = 1
  ci_step : ∀ i, i < t.nodes.length → (getNode t i).hasChildren = true →
    ∀ k, k < 2 ^ Dim →
    (getNode t i).childIndices.getD (k + 1) 0 =
      (getNode t i).childIndices.getD k 0 + sentinel Dim t (childPtr t i k)
  ci_lt : ∀ i, i < t.nodes.length → (getNode t i).hasChildren = true →
    ∀ k, k < 2 ^ Dim →
    (getNode t i).childIndices.getD k 0 <
      (getNode t i).childIndices.getD (k + 1) 0
  sub_le : ∀ i, i < t.nodes.length → (getNode t i).hasChildren = true →
    i + sentinel Dim t i ≤ t.nodes.length
  child_parentIndex : ∀ i, i < t.nodes.length →
    (getNode t i).hasChildren = true → ∀ k, k < 2 ^ Dim →
    (getNode t (childPtr t i k)).parentIndex =
      -((getNode t i).childIndices.getD k 0 : Int)
  child_sibling : ∀ i, i < t.nodes.length →
    (getNode t i).hasChildren = true → ∀ k, k < 2 ^ Dim →
    (getNode t (childPtr t i k)).siblingIndex = k
  child_depth : ∀ i, i < t.nodes.length →
    (getNode t i).hasChildren = true → ∀ k, k < 2 ^ Dim →
    (getNode t (childPtr t i k)).depth = (getNode t i).depth + 1
  child_box : ∀ i, i < t.nodes.length →
    (getNode t i).hasChildren = true → ∀ k, k < 2 ^ Dim →
    (getNode t (childPtr t i k)).position = childPos Dim (getNode t i) k ∧
    (getNode t (childPtr t i k)).dimensions = childDims Dim (getNode t i)
  parent_ex : ∀ j, j < t.nodes.length → j ≠ 0 →
    ∃ p, p < t.nodes.length ∧ ∃ k, k < 2 ^ Dim ∧
      (getNode t p).hasChildren = true ∧ j = childPtr t p k
  leaf_range_le : ∀ i, i < t.nodes.length →
    (getNode t i).leafIndex + (getNode t i).leafCount ≤ t.leafs.length
  child_leafIndex0 : ∀ i, i < t.nodes.length →
    (getNode t i).hasChildren = true →
    (getNode t (childPtr t i 0)).leafIndex = (getNode t i).leafIndex
  child_leaf_step : ∀ i, i < t.nodes.length →
    (getNode t i).hasChildren = true → ∀ k, k < 2 ^ Dim →
    (getNode t (childPtr t i k)).leafIndex +
        (getNode t (childPtr t i k)).leafCount =
      (if k + 1 < 2 ^ Dim then (getNode t (childPtr t i (k + 1))).leafIndex
       else (getNode t i).leafIndex + (getNode t i).leafCount)
  leaf_in_box : ∀ i, i < t.nodes.length →
    (getNode t i).hasChildren = false →
    ∀ l, l < (getNode t i).leafIndex + (getNode t i).leafCount →
    (getNode t i).leafIndex ≤ l →
    containsPoint Dim (getNode t i) (leafPosAt t l) = true

/-- The skeleton part of structural validity: the facts about the node
array (child offsets, parent offsets, sibling indices, depths) that do not
mention the leaf store.  The leaf-redistribution passes of the mutators
never touch these fields, so this fragment is preserved by every operation
that only rewrites `leafIndex`/`leafCount`/`leafs`. -/
structure SkeletonValid (Dim : Nat) (t : Orthtree α) : Prop where
  dim_pos : 0 < Dim
  len_pos : 0 < t.nodes.length
  nodes_lt : t.nodes.length < 2 ^ 64
  ci_len : ∀ i, i < t.nodes.length →
    (getNode t i).childIndices.length = 2 ^ Dim + 1
  depth_le : ∀ i, i < t.nodes.length → (getNode t i).depth ≤ t.maxDepth
  no_children : ∀ i, i < t.nodes.length →
    (getNode t i).hasChildren = false →
    (getNode t i).childIndices = List.replicate (2 ^ Dim + 1) 1
  ci_zero : ∀ i, i < t.nodes.length → (getNode t i).hasChildren = true →
    (getNode t i).childIndices.getD 0 0 = 1
  ci_step : ∀ i, i < t.nodes.length → (getNode t i).hasChildren = true →
    ∀ k, k < 2 ^ Dim →
    (getNode t i).childIndices.getD (k + 1) 0 =
      (getNode t i).childIndices.getD k 0 + sentinel Dim t (childPtr t i k)
  ci_lt : ∀ i, i < t.nodes.length → (getNode t i).hasChildren = true →
    ∀ k, k < 2 ^ Dim →
    (getNode t i).childIndices.getD k 0 <
      (getNode t i).childIndices.getD (k + 1) 0
  sub_le : ∀ i, i < t.nodes.length → (getNode t i).hasChildren = true →
    i + sentinel Dim t i ≤ t.nodes.length
  child_parentIndex : ∀ i, i < t.nodes.length →
    (getNode t i).hasChildren = true → ∀ k, k < 2 ^ Dim →
    (getNode t (childPtr t i k)).parentIndex =
      -((getNode t i).childIndices.getD k 0 : Int)
  child_sibling : ∀ i, i < t.nodes.length →
    (getNode t i).hasChildren = true → ∀ k, k < 2 ^ Dim →
    (getNode t (childPtr t i k)).siblingIndex = k
  child_depth : ∀ i, i < t.nodes.length →
    (getNode t i).hasChildren = true → ∀ k, k < 2 ^ Dim →
    (getNode t (childPtr t i k)).depth = (getNode t i).depth + 1
  parent_ex : ∀ j, j < t.nodes.length → j ≠ 0 →
    ∃ p, p < t.nodes.length ∧ ∃ k, k < 2 ^ Dim ∧
      (getNode t p).hasChildren = true ∧ j = childPtr t p k

/-- The node that index `j'` of
`(updateNodeChildData Dim (allocChildren Dim t i) i true true).1` holds,
with repair boundary `c` (the cursor of the `updateAncestorChildData`
ancestor walk; `c = 0` once the walk has finished): nodes before `i` have
each child entry that points past `i` bumped by `2^Dim` once the cursor has
passed them, node `i` gets the iota child indices, the fresh children
follow, and shifted nodes whose parent is an already-processed ancestor of
`i` have their parent offset widened. -/
def csNodeF (Dim : Nat) (t : Orthtree α) (i c j' : Nat) : NodeInternal :=
  if j' < i then
    { getNode t j' with childIndices :=
        ((List.range (2 ^ Dim + 1)).map (fun s =>
          if c ≤ j' ∧ i < j' + (getNode t j').childIndices.getD s 0 then
            (getNode t j').childIndices.getD s 0 + 2 ^ Dim
          else (getNode t j').childIndices.getD s 0)) }
  else if j' = i then
    { getNode t i with
      hasChildren := true
      childIndices := ((List.range (2 ^ Dim + 1)).map (· + 1)) }
  else if j' < i + 1 + 2 ^ Dim then allocChild Dim (getNode t i) (j' - (i + 1))
  else if c ≤ parentIdx t (j' - 2 ^ Dim) ∧ parentIdx t (j' - 2 ^ Dim) ≤ i ∧
      i < parentIdx t (j' - 2 ^ Dim) +
        sentinel Dim t (parentIdx t (j' - 2 ^ Dim)) then
    { getNode t (j' - 2 ^ Dim) with parentIndex :=
        ((getNode t (j' - 2 ^ Dim)).parentIndex - ((2 ^ Dim : Nat) : Int)) }
  else getNode t (j' - 2 ^ Dim)

/-- The state of the tree during the `createSkeleton` ancestor walk with
cursor `c`: the nodes are described pointwise by `csNodeF`, the leaf store
and the configuration are untouched, and the node array has grown by
`2^Dim` slots. -/
def csState (Dim : Nat) (t : Orthtree α) (i c : Nat) (u : Orthtree α) :
    Prop :=
  u.nodes.length = t.nodes.length + 2 ^ Dim ∧
  u.leafs = t.leafs ∧
  u.nodeCapacity = t.nodeCapacity ∧
  u.maxDepth = t.maxDepth ∧
  u.autoAdjust = t.autoAdjust ∧
  ∀ j', getNode u j' = csNodeF Dim t i c j'

/-- The child this leaf belongs to when node `i` of `t` is split: the
`childIndexOfPoint` bitmask of the leaf's position against node `i`'s
box. -/
def bsMask (Dim : Nat) (t : Orthtree α) (i : Nat) (l : LeafInternal α) :
    Nat :=
  childIndexOfPoint Dim (getNode t i) l.position

/-- The leaf slice of node `i`. -/
def bsSlice (t : Orthtree α) (i : Nat) : List (LeafInternal α) :=
  (t.leafs.drop (getNode t i).leafIndex).take (getNode t i).leafCount

/-- Bucket `k` of the bulk split of node `i`: the leaves of its slice that
`findChild` sends to child `k`. -/
def bsBucket (Dim : Nat) (t : Orthtree α) (i k : Nat) :
    List (LeafInternal α) :=
  (bsSlice t i).filter (fun l => decide (bsMask Dim t i l = k))

/-- Number of slice leaves assigned to buckets before bucket `k`. -/
def bsPsum (Dim : Nat) (t : Orthtree α) (i k : Nat) : Nat :=
  ((List.range k).map (fun m => (bsBucket Dim t i m).length)).sum

/-- Full pointwise description of the result of `bulkSplitNode Dim t i`:
the leaf window of node `i` is replaced by the flattened buckets; each
fresh child holds its bucket as its leaf slice; everything else is the
skeleton-creation state. -/
def bsDescr (Dim : Nat) (t : Orthtree α) (i : Nat) (B : Orthtree α) :
    Prop :=
  B.nodes.length = t.nodes.length + 2 ^ Dim ∧
  B.nodeCapacity = t.nodeCapacity ∧
  B.maxDepth = t.maxDepth ∧
  B.autoAdjust = t.autoAdjust ∧
  B.leafs = (t.leafs.take (getNode t i).leafIndex ++
      ((List.range (2 ^ Dim)).map (bsBucket Dim t i)).flatten ++
      t.leafs.drop ((getNode t i).leafIndex + (getNode t i).leafCount)) ∧
  ∀ j, getNode B j =
    if i + 1 ≤ j ∧ j < i + 1 + 2 ^ Dim then
      { allocChild Dim (getNode t i) (j - (i + 1)) with
        leafIndex := (getNode t i).leafIndex + bsPsum Dim t i (j - (i + 1))
        leafCount := (bsBucket Dim t i (j - (i + 1))).length }
    else csNodeF Dim t i 0 j

/-- The tail of `bulkSplitNode` after the skeleton has been created:
bucket the slice, write the buckets back, and assign each child its
sub-slice. -/
def bulkSplitBody (Dim : Nat) (t2 : Orthtree α) (i : Nat) : Orthtree α :=
  let node := getNode t2 i
  let slice := (t2.leafs.drop node.leafIndex).take node.leafCount
  let buckets := (List.range (2 ^ Dim)).map fun k =>
    slice.filter fun l =>
      (getNode t2 (findChildPoint Dim t2 i l.position)).siblingIndex = k
  let t3 : Orthtree α :=
    { t2 with leafs :=
        (t2.leafs.take node.leafIndex ++ buckets.flatten ++
          t2.leafs.drop (node.leafIndex + buckets.flatten.length)) }
  ((List.range (2 ^ Dim)).foldl
    (fun acc k =>
      let cnt := (buckets.getD k []).length
      (setNode acc.1 (childPtr acc.1 i k)
          (fun n => { n with leafIndex := acc.2, leafCount := cnt }),
        acc.2 + cnt))
    (t3, node.leafIndex)).1

/-- A concrete one-dimensional orthtree (box `[0,4)`, capacity 1, max depth
8): the root has two terminal children, each holding one leaf.  This is the
state the incremental mutators produce for the two insertions at `1` and
`3`. -/
def adjustBugTree : Orthtree Int :=
  { leafs := [⟨[.fin 1 0], 10⟩, ⟨[.fin 3 0], 20⟩]
    nodes := [
      { position := [.fin 0 0], dimensions := [.fin 4 0], depth := 0,
        childIndices := [1, 2, 3], parentIndex := 0, siblingIndex := 0,
        leafCount := 2, leafIndex := 0, hasChildren := true },
      { position := [.fin 0 0], dimensions := [.fin 4 1], depth := 1,
        childIndices := [1, 1, 1], parentIndex := -1, siblingIndex := 0,
        leafCount := 1, leafIndex := 0, hasChildren := false },
      { position := [.fin 4 1], dimensions := [.fin 4 1], depth := 1,
        childIndices := [1, 1, 1], parentIndex := -2, siblingIndex := 1,
        leafCount := 1, leafIndex := 1, hasChildren := false }]
    nodeCapacity := 1
    maxDepth := 8
    autoAdjust := true }

/-! Basic lemmas about the flat store accessors. -/

theorem getNode_eq_getElem (t : Orthtree α) (i : Nat) :
    getNode t i = (t.nodes[i]?).getD NodeInternal.dummy := by
  simp [getNode, List.getD_eq_getElem?_getD]

theorem getNode_of_le {t : Orthtree α} {i : Nat} (h : t.nodes.length ≤ i) :
    getNode t i = NodeInternal.dummy := by
  simp [getNode_eq_getElem, List.getElem?_eq_none h]

theorem setNode_length (t : Orthtree α) (i : Nat) (f : NodeInternal → NodeInternal) :
    (setNode t i f).nodes.length = t.nodes.length := by
  simp [setNode]

theorem getNode_setNode_self {t : Orthtree α} {i : Nat}
    (f : NodeInternal → NodeInternal) (h : i < t.nodes.length) :
    getNode (setNode t i f) i = f (getNode t i) := by
  simp [getNode_eq_getElem, setNode, List.getElem?_set_self h]

theorem getNode_setNode_ne {t : Orthtree α} {i j : Nat}
    (f : NodeInternal → NodeInternal) (h : j ≠ i) :
    getNode (setNode t i f) j = getNode t j := by
  simp [getNode_eq_getElem, setNode, List.getElem?_set_ne (Ne.symm h)]

theorem setNode_leafs (t : Orthtree α) (i : Nat) (f : NodeInternal → NodeInternal) :
    (setNode t i f).leafs = t.leafs := rfl

theorem setNode_config (t : Orthtree α) (i : Nat) (f : NodeInternal → NodeInternal) :
    (setNode t i f).nodeCapacity = t.nodeCapacity ∧
    (setNode t i f).maxDepth = t.maxDepth ∧
    (setNode t i f).autoAdjust = t.autoAdjust := ⟨rfl, rfl, rfl⟩

/-! Lemmas about the IEEE comparison model. -/

theorem FScalar.le_nan (a : FScalar) : FScalar.le a .nan = false := by
  cases a <;> rfl

theorem FScalar.lt_nan (a : FScalar) : FScalar.lt a .nan = false := by
  cases a <;> rfl

/-- A coordinate that is NaN or infinite fails the per-axis containment
test whatever the box is. -/
theorem axisTest_special (x pos dims : FScalar)
    (hx : x = .nan ∨ ∃ b, x = .inf b) :
    (FScalar.ge x pos && FScalar.lt (FScalar.sub x pos) dims) = false := by
  rcases hx with h | ⟨b, h⟩ <;> subst h
  · cases pos <;> simp [FScalar.ge, FScalar.le]
  · rcases pos with _ | c | p
    · cases b <;> simp [FScalar.ge, FScalar.le]
    · cases b <;> cases c <;> cases dims <;>
        simp [FScalar.ge, FScalar.le, FScalar.lt, FScalar.sub]
    · cases b <;> cases dims <;>
        simp [FScalar.ge, FScalar.le, FScalar.lt, FScalar.sub]

/-- C6.  `contains(node, point)` holds iff every axis passes both the
`point[d] >= position[d]` and the `point[d] - position[d] < dimensions[d]`
comparison, and a point with a NaN or infinite coordinate is contained in no
node. -/
theorem C6_contains_iff_axis_tests (Dim : Nat) (node : NodeInternal)
    (point : Vec) :
    (containsPoint Dim node point = true ↔
      ∀ d, d < Dim →
        FScalar.ge (point.getD d .nan) (node.position.getD d .nan) = true ∧
        FScalar.lt
          (FScalar.sub (point.getD d .nan) (node.position.getD d .nan))
          (node.dimensions.getD d .nan) = true) ∧
    ((∃ d, d < Dim ∧
        (point.getD d .nan = .nan ∨ ∃ b, point.getD d .nan = .inf b)) →
      containsPoint Dim node point = false) := by
  have hiff : containsPoint Dim node point = true ↔
      ∀ d, d < Dim →
        FScalar.ge (point.getD d .nan) (node.position.getD d .nan) = true ∧
        FScalar.lt
          (FScalar.sub (point.getD d .nan) (node.position.getD d .nan))
          (node.dimensions.getD d .nan) = true := by
    simp [containsPoint, List.all_eq_true, List.mem_range, Bool.and_eq_true,
      List.getD_eq_getElem?_getD]
  refine ⟨hiff, ?_⟩
  rintro ⟨d, hd, hspec⟩
  have h := axisTest_special (point.getD d .nan) (node.position.getD d .nan)
    (node.dimensions.getD d .nan) hspec
  apply Bool.eq_false_iff.mpr
  intro hc
  obtain ⟨hge, hlt⟩ := hiff.mp hc d hd
  rw [hge, hlt] at h
  simp at h

/-- Concrete instantiation of `C6_contains_iff_axis_tests`: a NaN coordinate
is rejected. -/
theorem C6_contains_iff_axis_tests_witness :
    containsPoint 1
      (NodeInternal.mkNew 1 [.fin 0 0] [.fin 1 0]) [.nan] = false :=
  (C6_contains_iff_axis_tests 1
    (NodeInternal.mkNew 1 [.fin 0 0] [.fin 1 0]) [.nan]).2
    ⟨0, by decide, Or.inl rfl⟩

/-! Folds of `setNode` over a contiguous index block. -/

theorem foldl_setNode_length (l : List γ) (g : γ → Nat)
    (F : γ → NodeInternal → NodeInternal) (t : Orthtree α) :
    (l.foldl (fun t x => setNode t (g x) (F x)) t).nodes.length =
      t.nodes.length := by
  induction l generalizing t with
  | nil => rfl
  | cons a l ih => simp [List.foldl_cons, ih, setNode_length]

theorem getNode_foldl_setNode_range (n off : Nat)
    (F : Nat → NodeInternal → NodeInternal) (t : Orthtree α) (j : Nat) :
    getNode ((List.range n).foldl
        (fun t idx => setNode t (off + idx) (F idx)) t) j =
      if off ≤ j ∧ j < off + n ∧ j < t.nodes.length then
        F (j - off) (getNode t j)
      else getNode t j := by
  induction n with
  | zero =>
    simp only [List.range_zero, List.foldl_nil]
    rw [if_neg (by omega)]
  | succ n ih =>
    rw [List.range_succ, List.foldl_append, List.foldl_cons, List.foldl_nil]
    by_cases hj : j = off + n
    · subst hj
      by_cases hlen : off + n < t.nodes.length
      · have hlen' : off + n <
            ((List.range n).foldl
              (fun t idx => setNode t (off + idx) (F idx)) t).nodes.length := by
          rw [foldl_setNode_length]; exact hlen
        rw [getNode_setNode_self _ hlen', ih, if_neg (by omega),
          if_pos (show off ≤ off + n ∧ off + n < off + (n + 1) ∧
            off + n < t.nodes.length by omega)]
        congr 1
        omega
      · have hlen3 : (setNode ((List.range n).foldl
            (fun t idx => setNode t (off + idx) (F idx)) t) (off + n)
              (F n)).nodes.length ≤ off + n := by
          rw [setNode_length, foldl_setNode_length]; omega
        rw [getNode_of_le hlen3, if_neg (by omega), getNode_of_le (by omega)]
    · rw [getNode_setNode_ne _ hj, ih]
      by_cases hc : off ≤ j ∧ j < off + n ∧ j < t.nodes.length
      · rw [if_pos hc, if_pos ⟨hc.1, by omega, hc.2.2⟩]
      · rw [if_neg hc, if_neg (by omega)]

/-! Characterization of `allocChildren`. -/

theorem allocChildren_length (Dim : Nat) (t : Orthtree α) (i : Nat)
    (hi : i < t.nodes.length) :
    (allocChildren Dim t i).nodes.length = t.nodes.length + 2 ^ Dim := by
  unfold allocChildren
  rw [foldl_setNode_length]
  simp
  omega

theorem getD_splice (A B C : List γ) (d : γ) (j : Nat) :
    (A ++ B ++ C).getD j d =
      if j < A.length then A.getD j d
      else if j < A.length + B.length then B.getD (j - A.length) d
      else C.getD (j - A.length - B.length) d := by
  simp only [List.getD_eq_getElem?_getD, List.getElem?_append,
    List.length_append]
  rcases Nat.lt_or_ge j A.length with h1 | h1
  · rw [if_pos (by omega), if_pos h1, if_pos h1]
  · rcases Nat.lt_or_ge j (A.length + B.length) with h2 | h2
    · rw [if_pos h2, if_neg (by omega), if_neg (by omega), if_pos h2]
    · rw [if_neg (by omega), if_neg (by omega), if_neg (by omega)]
      congr 2
      omega

theorem getNode_foldl_setNode_in (off n j : Nat)
    (F : Nat → NodeInternal → NodeInternal) (t : Orthtree α)
    (h1 : off ≤ j) (h2 : j < off + n) (h3 : j < t.nodes.length) :
    getNode ((List.range n).foldl
        (fun t idx => setNode t (off + idx) (F idx)) t) j =
      F (j - off) (getNode t j) := by
  rw [getNode_foldl_setNode_range, if_pos ⟨h1, h2, h3⟩]

theorem getNode_foldl_setNode_out (off n j : Nat)
    (F : Nat → NodeInternal → NodeInternal) (t : Orthtree α)
    (h : j < off ∨ off + n ≤ j ∨ t.nodes.length ≤ j) :
    getNode ((List.range n).foldl
        (fun t idx => setNode t (off + idx) (F idx)) t) j = getNode t j := by
  rw [getNode_foldl_setNode_range, if_neg (by omega)]

theorem getNode_allocChildren (Dim : Nat) (t : Orthtree α) (i j : Nat)
    (hi : i < t.nodes.length) :
    getNode (allocChildren Dim t i) j =
      if j ≤ i then getNode t j
      else if j < i + 1 + 2 ^ Dim then allocChild Dim (getNode t i) (j - (i + 1))
      else getNode t (j - 2 ^ Dim) := by
  have hA : (t.nodes.take (i + 1)).length = i + 1 := by
    simp [List.length_take]; omega
  have ht1 : ∀ j' : Nat,
      getNode
        { t with nodes :=
            (t.nodes.take (i + 1) ++
              List.replicate (2 ^ Dim)
                (NodeInternal.mkNew Dim (getNode t i).position
                  (getNode t i).dimensions) ++
              t.nodes.drop (i + 1)) } j' =
        if j' < i + 1 then getNode t j'
        else if j' < i + 1 + 2 ^ Dim then
          NodeInternal.mkNew Dim (getNode t i).position (getNode t i).dimensions
        else getNode t (j' - 2 ^ Dim) := by
    intro j'
    simp only [getNode]
    rw [getD_splice, hA, List.length_replicate]
    rcases Nat.lt_or_ge j' (i + 1) with h1 | h1
    · rw [if_pos h1, if_pos h1]
      simp [List.getD_eq_getElem?_getD, List.getElem?_take, h1]
    · rw [if_neg (Nat.not_lt.mpr h1), if_neg (Nat.not_lt.mpr h1)]
      rcases Nat.lt_or_ge j' (i + 1 + 2 ^ Dim) with h2 | h2
      · rw [if_pos h2, if_pos h2]
        simp [List.getD_eq_getElem?_getD,
          List.getElem?_replicate_of_lt (by omega : j' - (i + 1) < 2 ^ Dim)]
      · rw [if_neg (Nat.not_lt.mpr h2), if_neg (Nat.not_lt.mpr h2)]
        simp only [List.getD_eq_getElem?_getD, List.getElem?_drop]
        have heq : i + 1 + (j' - (i + 1) - 2 ^ Dim) = j' - 2 ^ Dim := by omega
        rw [heq]
  have ht1len :
      ({ t with nodes :=
          (t.nodes.take (i + 1) ++
            List.replicate (2 ^ Dim)
              (NodeInternal.mkNew Dim (getNode t i).position
                (getNode t i).dimensions) ++
            t.nodes.drop (i + 1)) } : Orthtree α).nodes.length =
        t.nodes.length + 2 ^ Dim := by
    simp [hA]
    omega
  have harith : ∀ idx : Nat, i + idx + 1 = (i + 1) + idx := fun idx => by omega
  rcases le_or_lt j i with hle | hgt
  · rw [if_pos hle]
    unfold allocChildren
    simp only [harith]
    rw [getNode_foldl_setNode_out _ _ _ _ _ (Or.inl (by omega)), ht1,
      if_pos (by omega : j < i + 1)]
  · rw [if_neg (by omega : ¬ j ≤ i)]
    rcases Nat.lt_or_ge j (i + 1 + 2 ^ Dim) with h2 | h2
    · rw [if_pos h2]
      unfold allocChildren
      simp only [harith]
      rw [getNode_foldl_setNode_in _ _ _ _ _ (by omega) (by omega)
        (by rw [ht1len]; omega), ht1, if_neg (by omega : ¬ j < i + 1),
        if_pos h2]
      simp [allocChild, childDims, childPos, NodeInternal.mkNew]
    · rw [if_neg (Nat.not_lt.mpr h2)]
      unfold allocChildren
      simp only [harith]
      rw [getNode_foldl_setNode_out _ _ _ _ _ (Or.inr (Or.inl (by omega))),
        ht1, if_neg (by omega : ¬ j < i + 1), if_neg (Nat.not_lt.mpr h2)]

theorem foldl_setNode_leafs (l : List γ) (g : γ → Nat)
    (F : γ → NodeInternal → NodeInternal) (t : Orthtree α) :
    (l.foldl (fun t x => setNode t (g x) (F x)) t).leafs = t.leafs := by
  induction l generalizing t with
  | nil => rfl
  | cons a l ih => simp [List.foldl_cons, ih, setNode_leafs]

theorem allocChildren_leafs (Dim : Nat) (t : Orthtree α) (i : Nat) :
    (allocChildren Dim t i).leafs = t.leafs := by
  unfold allocChildren
  rw [foldl_setNode_leafs]

/-! The bitmask computed by `findChild`. -/

theorem childIndexOfPoint_succ (n : Nat) (node : NodeInternal) (point : Vec) :
    childIndexOfPoint (n + 1) node point =
      childIndexOfPoint n node point +
        (if FScalar.ge
            (FScalar.sub (point.getD n .nan) (node.position.getD n .nan))
            (FScalar.half (node.dimensions.getD n .nan)) then 2 ^ n else 0) := by
  unfold childIndexOfPoint
  rw [List.range_succ, List.foldl_append, List.foldl_cons, List.foldl_nil]
  split <;> simp

theorem childIndexOfPoint_lt (n : Nat) (node : NodeInternal) (point : Vec) :
    childIndexOfPoint n node point < 2 ^ n := by
  induction n with
  | zero => simp [childIndexOfPoint]
  | succ n ih =>
    rw [childIndexOfPoint_succ, pow_succ]
    split <;> omega

theorem childIndexOfPoint_testBit (n : Nat) (node : NodeInternal)
    (point : Vec) (d : Nat) (hd : d < n) :
    (childIndexOfPoint n node point).testBit d =
      FScalar.ge (FScalar.sub (point.getD d .nan) (node.position.getD d .nan))
        (FScalar.half (node.dimensions.getD d .nan)) := by
  induction n with
  | zero => omega
  | succ n ih =>
    rw [childIndexOfPoint_succ]
    rcases Nat.lt_or_ge d n with hdn | hdn
    · split
      · rw [Nat.add_comm, Nat.testBit_two_pow_add_gt hdn]
        exact ih hdn
      · simpa using ih hdn
    · have hdn' : d = n := by omega
      subst hdn'
      split
      next h =>
        rw [Nat.add_comm, Nat.testBit_two_pow_add_eq,
          Nat.testBit_lt_two_pow (childIndexOfPoint_lt d node point), h]
        rfl
      next h =>
        rw [Nat.add_zero, Nat.testBit_lt_two_pow (childIndexOfPoint_lt d node point),
          Bool.eq_false_iff.mpr h]

theorem land_two_pow_ne_zero (d k : Nat) :
    ((2 ^ d).land k ≠ 0) ↔ k.testBit d = true := by
  have h : (2 ^ d).land k = 2 ^ d &&& k := rfl
  rw [h, Nat.two_pow_and]
  have h2 : (2 : ℕ) ^ d ≠ 0 := by positivity
  rcases hb : k.testBit d <;> simp [hb, h2]

theorem getD_map_range (n d : Nat) (hd : d < n) (f : Nat → γ) (x : γ) :
    ((List.range n).map f).getD d x = f d := by
  rw [List.getD_eq_getElem?_getD, List.getElem?_map, List.getElem?_range hd]
  rfl

/-- C5.  A split inserts a contiguous block of `2^Dim` childless nodes right
after the splitting node (earlier nodes keep their slots, later nodes shift by
`2^Dim`); child `k` has depth one more than the parent, half the parent's
dimension along every axis, and its position offset by half the parent
dimension along axis `d` exactly when bit `d` of `k` is set; and the child
index used for a point — by `findChild`, hence identically during split
redistribution and downward location — is the bitmask with bit `d` set iff
`point[d] - position[d] >= dimensions[d]/2`. -/
theorem C5_split_block_and_child_rule (Dim : Nat) (t : Orthtree α)
    (i k : Nat) (hi : i < t.nodes.length) (hk : k < 2 ^ Dim) :
    ((allocChildren Dim t i).nodes.length = t.nodes.length + 2 ^ Dim ∧
     (∀ j, j ≤ i → getNode (allocChildren Dim t i) j = getNode t j) ∧
     (∀ j, i + 1 + 2 ^ Dim ≤ j →
        getNode (allocChildren Dim t i) j = getNode t (j - 2 ^ Dim)) ∧
     (getNode (allocChildren Dim t i) (i + 1 + k)).hasChildren = false ∧
     (getNode (allocChildren Dim t i) (i + 1 + k)).depth =
        (getNode t i).depth + 1) ∧
    (∀ d, d < Dim →
      (getNode (allocChildren Dim t i) (i + 1 + k)).dimensions.getD d .nan =
        FScalar.half ((getNode t i).dimensions.getD d .nan) ∧
      (getNode (allocChildren Dim t i) (i + 1 + k)).position.getD d .nan =
        (if k.testBit d then
          FScalar.add ((getNode t i).position.getD d .nan)
            (FScalar.half ((getNode t i).dimensions.getD d .nan))
         else (getNode t i).position.getD d .nan)) ∧
    (∀ (node : NodeInternal) (point : Vec) (d : Nat), d < Dim →
      (childIndexOfPoint Dim node point).testBit d =
        FScalar.ge
          (FScalar.sub (point.getD d .nan) (node.position.getD d .nan))
          (FScalar.half (node.dimensions.getD d .nan))) ∧
    (∀ (node : NodeInternal) (point : Vec),
      childIndexOfPoint Dim node point < 2 ^ Dim) ∧
    (∀ (t' : Orthtree α) (i' : Nat) (point : Vec),
      findChildPoint Dim t' i' point =
        childPtr t' i' (childIndexOfPoint Dim (getNode t' i') point)) := by
  have hmid : getNode (allocChildren Dim t i) (i + 1 + k) =
      allocChild Dim (getNode t i) k := by
    rw [getNode_allocChildren Dim t i _ hi, if_neg (by omega),
      if_pos (by omega)]
    congr 1
    omega
  refine ⟨⟨allocChildren_length Dim t i hi, ?_, ?_, ?_, ?_⟩, ?_, ?_, ?_, ?_⟩
  · intro j hj
    rw [getNode_allocChildren Dim t i j hi, if_pos hj]
  · intro j hj
    rw [getNode_allocChildren Dim t i j hi, if_neg (by omega),
      if_neg (by omega)]
  · rw [hmid]; rfl
  · rw [hmid]; rfl
  · intro d hd
    rw [hmid]
    constructor
    · show (childDims Dim (getNode t i)).getD d .nan = _
      rw [childDims, getD_map_range Dim d hd]
    · show (childPos Dim (getNode t i) k).getD d .nan = _
      rw [childPos, getD_map_range Dim d hd]
      rcases hb : k.testBit d
      · rw [if_neg (by simp [land_two_pow_ne_zero, hb]), if_neg (by simp)]
      · rw [if_pos ((land_two_pow_ne_zero d k).mpr hb), if_pos rfl]
  · exact fun node point d hd => childIndexOfPoint_testBit Dim node point d hd
  · exact fun node point => childIndexOfPoint_lt Dim node point
  · exact fun t' i' point => rfl

/-- Concrete instantiation of `C5_split_block_and_child_rule` on a
one-dimensional two-node tree. -/
theorem C5_split_block_and_child_rule_witness :
    ((0 : Nat) < (Orthtree.mk0 1 [.fin 0 0] [.fin 4 0] 1 8 true :
        Orthtree Int).nodes.length) ∧
    (getNode (allocChildren 1
        (Orthtree.mk0 1 [.fin 0 0] [.fin 4 0] 1 8 true : Orthtree Int) 0)
          (0 + 1 + 1)).depth =
      (getNode (Orthtree.mk0 1 [.fin 0 0] [.fin 4 0] 1 8 true :
        Orthtree Int) 0).depth + 1 :=
  ⟨by decide,
    ((C5_split_block_and_child_rule 1
      (Orthtree.mk0 1 [.fin 0 0] [.fin 4 0] 1 8 true : Orthtree Int) 0 1
      (by decide) (by decide)).1.2.2.2.2)⟩

/-- C2.  Evaluation of `adjust` at a concrete structurally valid tree: calling
`adjust` on the first child of the root changes nothing in the subtree (the
return flag is `false` and the node array keeps its three slots), yet the
root's child entries become `[1, 3, 4]`: the entry for the sibling after the
mutated chain is shifted by `1` although the net slot delta is `0`, and the
sentinel no longer equals the number of slots the root's subtree occupies.
The implementation passes `change + 1` instead of `change` to
`updateAncestorChildData`. -/
theorem C2_adjust_ancestor_propagation_bug :
    Valid 1 adjustBugTree ∧ CapacityInvariant adjustBugTree ∧
    (adjust 1 adjustBugTree 1).2 = false ∧
    (adjust 1 adjustBugTree 1).1.nodes.length = 3 ∧
    (getNode (adjust 1 adjustBugTree 1).1 0).childIndices = [1, 3, 4] ∧
    sentinel 1 (adjust 1 adjustBugTree 1).1 0 ≠ 3 := by
  refine ⟨?_, by unfold CapacityInvariant; decide, by decide, by decide,
    by decide, by decide⟩
  constructor <;> decide

/-- C9.  Every bulk (range) mutator ends with `adjust(); autoAdjust(true)`:
the flag is set to `true` unconditionally, regardless of its value before the
call — the previous value is not restored. -/
theorem C9_range_ops_force_autoAdjust (Dim : Nat) (t : Orthtree α)
    (hint : Nat) (pairs : List (α × Vec)) (b e : Nat)
    (positions : List Vec) :
    (rangeInsert Dim t hint pairs).autoAdjust = true ∧
    (rangeErase Dim t hint b e).autoAdjust = true ∧
    (rangeMove Dim t hint b e positions).autoAdjust = true :=
  ⟨rfl, rfl, rfl⟩

/-! Bridge between the dyadic scalars and their rational values. -/

theorem two_pow_pos_q (e : Nat) : (0 : ℚ) < 2 ^ e := by positivity

theorem le_fin_iff (m1 m2 : Int) (e1 e2 : Nat) :
    FScalar.le (.fin m1 e1) (.fin m2 e2) = true ↔ dval m1 e1 ≤ dval m2 e2 := by
  show (decide (m1 * 2 ^ e2 ≤ m2 * 2 ^ e1) = true) ↔ _
  rw [decide_eq_true_iff, dval, dval,
    div_le_div_iff₀ (two_pow_pos_q e1) (two_pow_pos_q e2)]
  constructor <;> intro h <;> exact_mod_cast h

theorem lt_fin_iff (m1 m2 : Int) (e1 e2 : Nat) :
    FScalar.lt (.fin m1 e1) (.fin m2 e2) = true ↔ dval m1 e1 < dval m2 e2 := by
  show (decide (m1 * 2 ^ e2 < m2 * 2 ^ e1) = true) ↔ _
  rw [decide_eq_true_iff, dval, dval,
    div_lt_div_iff₀ (two_pow_pos_q e1) (two_pow_pos_q e2)]
  constructor <;> intro h <;> exact_mod_cast h

theorem dval_comb_sub (m1 m2 : Int) (e1 e2 : Nat) :
    dval (m1 * 2 ^ (max e1 e2 - e1) - m2 * 2 ^ (max e1 e2 - e2)) (max e1 e2) =
      dval m1 e1 - dval m2 e2 := by
  unfold dval
  have h1 : (2 : ℚ) ^ (max e1 e2 - e1) * 2 ^ e1 = 2 ^ max e1 e2 := by
    rw [← pow_add]; congr 1; omega
  have h2 : (2 : ℚ) ^ (max e1 e2 - e2) * 2 ^ e2 = 2 ^ max e1 e2 := by
    rw [← pow_add]; congr 1; omega
  push_cast
  field_simp
  linear_combination (m1 : ℚ) * 2 ^ e2 * h1 - (m2 : ℚ) * 2 ^ e1 * h2

theorem dval_comb_add (m1 m2 : Int) (e1 e2 : Nat) :
    dval (m1 * 2 ^ (max e1 e2 - e1) + m2 * 2 ^ (max e1 e2 - e2)) (max e1 e2) =
      dval m1 e1 + dval m2 e2 := by
  unfold dval
  have h1 : (2 : ℚ) ^ (max e1 e2 - e1) * 2 ^ e1 = 2 ^ max e1 e2 := by
    rw [← pow_add]; congr 1; omega
  have h2 : (2 : ℚ) ^ (max e1 e2 - e2) * 2 ^ e2 = 2 ^ max e1 e2 := by
    rw [← pow_add]; congr 1; omega
  push_cast
  field_simp
  linear_combination (m1 : ℚ) * 2 ^ e2 * h1 + (m2 : ℚ) * 2 ^ e1 * h2

theorem dval_succ (m : Int) (e : Nat) : dval m (e + 1) = dval m e / 2 := by
  unfold dval
  rw [pow_succ, div_div]

/-- The fin-fin-fin instance of the axis test, in rational form. -/
theorem axisOk_fin_iff (mx mp md : Int) (ex ep ed : Nat) :
    axisOk (.fin mx ex) (.fin mp ep) (.fin md ed) = true ↔
      dval mp ep ≤ dval mx ex ∧ dval mx ex - dval mp ep < dval md ed := by
  unfold axisOk FScalar.ge
  rw [Bool.and_eq_true, le_fin_iff]
  simp only [FScalar.sub]
  rw [lt_fin_iff, dval_comb_sub]

/-- A successful axis test forces the point and corner coordinates to be
finite and the extent to be finite or `+∞`. -/
theorem axisOk_shape (x pos dim : FScalar) (h : axisOk x pos dim = true) :
    (∃ mx ex, x = .fin mx ex) ∧ (∃ mp ep, pos = .fin mp ep) ∧
      ((∃ md ed, dim = .fin md ed) ∨ dim = .inf true) := by
  rcases x with _ | (_ | _) | ⟨mx, ex⟩ <;>
    rcases pos with _ | (_ | _) | ⟨mp, ep⟩ <;>
      rcases dim with _ | (_ | _) | ⟨md, ed⟩ <;>
        revert h <;>
          simp [axisOk, FScalar.ge, FScalar.le, FScalar.lt, FScalar.sub]

/-- The bit test of `findChild` in rational form (finite case). -/
theorem bit_fin_iff (mx mp md : Int) (ex ep ed : Nat) :
    FScalar.ge (FScalar.sub (.fin mx ex) (.fin mp ep))
        (FScalar.half (.fin md ed)) = true ↔
      dval md ed / 2 ≤ dval mx ex - dval mp ep := by
  unfold FScalar.ge
  simp only [FScalar.sub, FScalar.half]
  rw [le_fin_iff, dval_comb_sub, dval_succ]

/-- Axis form of "a child box is inside the parent box": if the axis test
succeeds against a child corner (the parent corner, possibly shifted by half
the extent) with the halved extent, it succeeds against the parent corner
with the full extent. -/
theorem axisA (x pos dim pos' : FScalar)
    (h : pos' = pos ∨ pos' = FScalar.add pos (FScalar.half dim))
    (hL : axisOk x pos' (FScalar.half dim) = true) :
    axisOk x pos dim = true := by
  obtain ⟨⟨mx, ex, hx⟩, ⟨mp', ep', hp'⟩, hd⟩ := axisOk_shape _ _ _ hL
  subst hx
  rcases hd with ⟨md', ed', hd⟩ | hd
  · -- half dim finite, hence dim finite
    rcases dim with _ | bd | ⟨md, ed⟩
    · exact absurd hd (by simp [FScalar.half])
    · exact absurd hd (by simp [FScalar.half])
    · -- dim = fin md ed; pos' is finite, so in the shifted branch pos is too
      rcases pos with _ | bp | ⟨mp, ep⟩
      · rcases h with h | h <;> subst h
        · simp at hp'
        · exact absurd hp' (by simp [FScalar.add, FScalar.half])
      · rcases h with h | h <;> subst h
        · simp at hp'
        · exact absurd hp' (by simp [FScalar.add, FScalar.half])
      · rcases h with h | h <;> subst h
        · simp only [FScalar.half] at hL
          rw [axisOk_fin_iff] at hL ⊢
          rw [dval_succ] at hL
          constructor
          · exact hL.1
          · have h0 : 0 ≤ dval mx ex - dval mp ep := by linarith [hL.1]
            linarith [hL.2]
        · simp only [FScalar.half, FScalar.add] at hL
          rw [axisOk_fin_iff] at hL ⊢
          rw [dval_comb_add, dval_succ] at hL
          have h0 : 0 ≤ dval mx ex - (dval mp ep + dval md ed / 2) := by
            linarith [hL.1]
          constructor
          · linarith [hL.1, hL.2]
          · linarith [hL.2]
  · -- half dim = +∞, hence dim = +∞
    rcases dim with _ | bd | ⟨md, ed⟩
    · exact absurd hd (by simp [FScalar.half])
    · have hbd : bd = true := by
        by_contra hb
        rw [Bool.not_eq_true] at hb
        subst hb
        exact absurd hd (by simp [FScalar.half])
      subst hbd
      rcases h with h | h <;> subst h
      · -- pos' = pos is finite
        rw [hp'] at hL ⊢
        rw [axisOk] at hL ⊢
        simp only [Bool.and_eq_true] at hL ⊢
        exact ⟨hL.1, by simp [FScalar.sub, FScalar.lt]⟩
      · -- pos' = pos + ∞ cannot be finite
        exact absurd hp' (by
          rcases pos with _ | bp | ⟨mp, ep⟩
          · simp [FScalar.add, FScalar.half]
          · cases bp <;> simp [FScalar.add, FScalar.half]
          · simp [FScalar.add, FScalar.half])
    · exact absurd hd (by simp [FScalar.half])

/-- Axis form of "the child selected by the splitting rule contains the
point": if the axis test succeeds for the parent, it succeeds for the corner
shifted according to the bit `point[d] - pos[d] >= dim[d]/2` with the halved
extent. -/
theorem axisB (x pos dim : FScalar) (hL : axisOk x pos dim = true) :
    axisOk x
      (if FScalar.ge (FScalar.sub x pos) (FScalar.half dim) then
        FScalar.add pos (FScalar.half dim) else pos)
      (FScalar.half dim) = true := by
  obtain ⟨⟨mx, ex, hx⟩, ⟨mp, ep, hp⟩, hd⟩ := axisOk_shape _ _ _ hL
  subst hx
  subst hp
  rcases hd with ⟨md, ed, hd⟩ | hd <;> subst hd
  · rw [axisOk_fin_iff] at hL
    by_cases hbit : FScalar.ge
        (FScalar.sub (.fin mx ex) (.fin mp ep))
        (FScalar.half (.fin md ed)) = true
    · rw [if_pos hbit]
      rw [bit_fin_iff] at hbit
      simp only [FScalar.half, FScalar.add]
      rw [axisOk_fin_iff, dval_comb_add, dval_succ]
      constructor
      · linarith [hL.1, hL.2, hbit]
      · linarith [hL.1, hL.2, hbit]
    · rw [if_neg hbit]
      have h2 : ¬ (dval md ed / 2 ≤ dval mx ex - dval mp ep) := fun hc =>
        hbit ((bit_fin_iff mx mp md ex ep ed).mpr hc)
      simp only [FScalar.half]
      rw [axisOk_fin_iff, dval_succ]
      exact ⟨hL.1, by linarith [not_le.mp h2]⟩
  · have hbit : FScalar.ge (FScalar.sub (.fin mx ex) (.fin mp ep))
        (FScalar.half (.inf true)) = false := by
      simp [FScalar.sub, FScalar.half, FScalar.ge, FScalar.le]
    rw [hbit, if_neg (by simp)]
    rw [axisOk, Bool.and_eq_true] at hL ⊢
    exact ⟨hL.1, by simp [FScalar.sub, FScalar.half, FScalar.lt]⟩

/-- Axis form of "being in the box of child `b` forces the splitting bit to
equal `b`". -/
theorem axisC (x pos dim : FScalar) (b : Bool)
    (hL : axisOk x
      (if b then FScalar.add pos (FScalar.half dim) else pos)
      (FScalar.half dim) = true) :
    FScalar.ge (FScalar.sub x pos) (FScalar.half dim) = b := by
  obtain ⟨⟨mx, ex, hx⟩, ⟨mp', ep', hp'⟩, hd⟩ := axisOk_shape _ _ _ hL
  subst hx
  cases b
  · rw [if_neg (by simp)] at hL hp'
    subst hp'
    rcases hd with ⟨md, ed, hd⟩ | hd
    · rcases dim with _ | bd | ⟨md0, ed0⟩
      · exact absurd hd (by simp [FScalar.half])
      · exact absurd hd (by simp [FScalar.half])
      · simp only [FScalar.half] at hL
        rw [axisOk_fin_iff, dval_succ] at hL
        rw [Bool.eq_false_iff]
        intro hc
        rw [bit_fin_iff] at hc
        linarith [hL.1, hL.2, hc]
    · rcases dim with _ | bd | ⟨md0, ed0⟩
      · exact absurd hd (by simp [FScalar.half])
      · have hbd : bd = true := by
          by_contra hb
          rw [Bool.not_eq_true] at hb
          subst hb
          exact absurd hd (by simp [FScalar.half])
        subst hbd
        simp [FScalar.sub, FScalar.half, FScalar.ge, FScalar.le]
      · exact absurd hd (by simp [FScalar.half])
  · rw [if_pos rfl] at hL hp'
    rcases dim with _ | bd | ⟨md, ed⟩
    · exact absurd hp' (by
        rcases pos with _ | bp | ⟨mp, ep⟩ <;> simp [FScalar.add, FScalar.half])
    · exact absurd hp' (by
        rcases pos with _ | bp | ⟨mp, ep⟩
        · simp [FScalar.add, FScalar.half]
        · cases bp <;> cases bd <;> simp [FScalar.add, FScalar.half]
        · cases bd <;> simp [FScalar.add, FScalar.half])
    · rcases pos with _ | bp | ⟨mp, ep⟩
      · exact absurd hp' (by simp [FScalar.add, FScalar.half])
      · exact absurd hp' (by simp [FScalar.add, FScalar.half])
      · simp only [FScalar.add, FScalar.half] at hL
        rw [axisOk_fin_iff, dval_comb_add, dval_succ] at hL
        rw [bit_fin_iff]
        linarith [hL.1, hL.2]

theorem containsPoint_iff_axis (Dim : Nat) (node : NodeInternal) (p : Vec) :
    containsPoint Dim node p = true ↔
      ∀ d, d < Dim →
        axisOk (p.getD d .nan) (node.position.getD d .nan)
          (node.dimensions.getD d .nan) = true := by
  unfold containsPoint axisOk
  simp [List.all_eq_true, List.mem_range]

theorem ite_land_eq (d k : Nat) (A B : FScalar) :
    (if (2 ^ d).land k ≠ 0 then A else B) = (if k.testBit d then A else B) := by
  rcases hb : k.testBit d
  · rw [if_neg (by rw [land_two_pow_ne_zero, hb]; simp), if_neg (by simp)]
  · rw [if_pos ((land_two_pow_ne_zero d k).mpr hb), if_pos rfl]

/-- A point contained in a child box (as set up by `allocChildren`) is
contained in the parent box. -/
theorem containsPoint_parent_of_child (Dim : Nat)
    (parent child : NodeInternal) (k : Nat) (p : Vec)
    (hcp : child.position = childPos Dim parent k)
    (hcd : child.dimensions = childDims Dim parent)
    (hc : containsPoint Dim child p = true) :
    containsPoint Dim parent p = true := by
  rw [containsPoint_iff_axis] at hc ⊢
  intro d hd
  have h := hc d hd
  rw [hcp, hcd, childPos, childDims, getD_map_range Dim d hd,
    getD_map_range Dim d hd] at h
  by_cases hb : (2 ^ d).land k ≠ 0
  · rw [if_pos hb] at h
    exact axisA _ _ _ _ (Or.inr rfl) h
  · rw [if_neg hb] at h
    exact axisA _ _ _ _ (Or.inl rfl) h

/-- A point contained in a parent box is contained in the box of the child
selected by `childIndexOfPoint`. -/
theorem containsPoint_child_of_point (Dim : Nat)
    (parent child : NodeInternal) (p : Vec)
    (hcp : child.position = childPos Dim parent (childIndexOfPoint Dim parent p))
    (hcd : child.dimensions = childDims Dim parent)
    (hc : containsPoint Dim parent p = true) :
    containsPoint Dim child p = true := by
  rw [containsPoint_iff_axis] at hc ⊢
  intro d hd
  rw [hcp, hcd, childPos, childDims, getD_map_range Dim d hd,
    getD_map_range Dim d hd]
  have h := hc d hd
  have hbit := childIndexOfPoint_testBit Dim parent p d hd
  have hB := axisB _ _ _ h
  by_cases hcond : FScalar.ge
      (FScalar.sub (p.getD d .nan) (parent.position.getD d .nan))
      (FScalar.half (parent.dimensions.getD d .nan)) = true
  · rw [if_pos hcond] at hB
    rw [if_pos (by rw [land_two_pow_ne_zero, hbit]; exact hcond)]
    exact hB
  · rw [if_neg hcond] at hB
    rw [if_neg (by rw [land_two_pow_ne_zero, hbit]; exact hcond)]
    exact hB

/-- Containment in the box of child `k` forces `k` to be the child index the
splitting rule computes: the descent rule and the redistribution rule agree,
and sibling boxes are disjoint. -/
theorem childIndex_of_containsPoint (Dim : Nat)
    (parent child : NodeInternal) (k : Nat) (p : Vec)
    (hk2 : k < 2 ^ Dim)
    (hcp : child.position = childPos Dim parent k)
    (hcd : child.dimensions = childDims Dim parent)
    (hc : containsPoint Dim child p = true) :
    k = childIndexOfPoint Dim parent p := by
  apply Nat.eq_of_testBit_eq
  intro d
  rcases Nat.lt_or_ge d Dim with hd | hd
  · have h := (containsPoint_iff_axis Dim child p).mp hc d hd
    rw [hcp, hcd, childPos, childDims, getD_map_range Dim d hd,
      getD_map_range Dim d hd, ite_land_eq] at h
    have hC := axisC _ _ _ (k.testBit d) h
    rw [childIndexOfPoint_testBit Dim parent p d hd, hC]
  · rw [Nat.testBit_lt_two_pow
      (lt_of_lt_of_le hk2 (Nat.pow_le_pow_right (by omega) hd)),
      Nat.testBit_lt_two_pow
      (lt_of_lt_of_le (childIndexOfPoint_lt Dim parent p)
        (Nat.pow_le_pow_right (by omega) hd))]

/-! Consequences of `Valid` used by the location algorithms: child pointers
stay in bounds and strictly after the parent, parent links invert child
links, and the root is the unique node at depth `0`. -/

theorem ci_mono {Dim : Nat} {t : Orthtree α} {i : Nat} (V : Valid Dim t)
    (hi : i < t.nodes.length) (hc : (getNode t i).hasChildren = true) :
    ∀ k k', k ≤ k' → k' ≤ 2 ^ Dim →
    (getNode t i).childIndices.getD k 0 ≤
      (getNode t i).childIndices.getD k' 0 := by
  intro k k' hkk hk'
  induction k' with
  | zero => simp_all
  | succ n ih =>
    rcases Nat.lt_or_ge k (n + 1) with h | h
    · exact le_trans (ih (by omega) (by omega))
        (le_of_lt (V.ci_lt i hi hc n (by omega)))
    · have : k = n + 1 := by omega
      subst this; exact le_refl _

theorem ci_pos {Dim : Nat} {t : Orthtree α} {i : Nat} (V : Valid Dim t)
    (hi : i < t.nodes.length) (hc : (getNode t i).hasChildren = true)
    (k : Nat) (hk : k ≤ 2 ^ Dim) :
    1 ≤ (getNode t i).childIndices.getD k 0 := by
  have h0 := V.ci_zero i hi hc
  have := ci_mono V hi hc 0 k (Nat.zero_le k) hk
  omega

theorem childPtr_lt {Dim : Nat} {t : Orthtree α} {i : Nat} (V : Valid Dim t)
    (hi : i < t.nodes.length) (hc : (getNode t i).hasChildren = true)
    (k : Nat) (hk : k < 2 ^ Dim) :
    childPtr t i k < t.nodes.length := by
  have h1 := V.ci_lt i hi hc k hk
  have h2 := ci_mono V hi hc (k + 1) (2 ^ Dim) hk (le_refl _)
  have h3 := V.sub_le i hi hc
  unfold childPtr
  unfold sentinel at h3
  omega

theorem lt_childPtr {Dim : Nat} {t : Orthtree α} {i : Nat} (V : Valid Dim t)
    (hi : i < t.nodes.length) (hc : (getNode t i).hasChildren = true)
    (k : Nat) (hk : k ≤ 2 ^ Dim) :
    i < childPtr t i k := by
  have := ci_pos V hi hc k hk
  unfold childPtr
  omega

theorem parentIdx_childPtr {Dim : Nat} {t : Orthtree α} {i : Nat}
    (V : Valid Dim t) (hi : i < t.nodes.length)
    (hc : (getNode t i).hasChildren = true) (k : Nat) (hk : k < 2 ^ Dim) :
    parentIdx t (childPtr t i k) = i := by
  have h := V.child_parentIndex i hi hc k hk
  unfold parentIdx
  rw [h]
  unfold childPtr
  omega

theorem parentIdx_lt {Dim : Nat} {t : Orthtree α} {i : Nat} (V : Valid Dim t)
    (hi : i < t.nodes.length) (hi0 : i ≠ 0) :
    parentIdx t i < i ∧ parentIdx t i < t.nodes.length ∧
      (getNode t (parentIdx t i)).hasChildren = true := by
  obtain ⟨p, hp, k, hk, hpc, hik⟩ := V.parent_ex i hi hi0
  have hpi : parentIdx t i = p := by rw [hik]; exact parentIdx_childPtr V hp hpc k hk
  have hlt : p < i := by rw [hik]; exact lt_childPtr V hp hpc k (le_of_lt hk)
  exact ⟨by omega, by omega, by rw [hpi]; exact hpc⟩

theorem depth_zero_eq_root {Dim : Nat} {t : Orthtree α} {j : Nat}
    (V : Valid Dim t) (hj : j < t.nodes.length)
    (hd : (getNode t j).depth = 0) : j = 0 := by
  by_contra hj0
  obtain ⟨p, hp, k, hk, hpc, hik⟩ := V.parent_ex j hj hj0
  have := V.child_depth p hp hpc k hk
  rw [← hik] at this
  omega

/-- Containment in a node's box propagates to the parent's box. -/
theorem containsPoint_parentIdx {Dim : Nat} {t : Orthtree α} {j : Nat}
    (V : Valid Dim t) (hj : j < t.nodes.length) (hj0 : j ≠ 0) (p : Vec)
    (hc : containsPoint Dim (getNode t j) p = true) :
    containsPoint Dim (getNode t (parentIdx t j)) p = true := by
  obtain ⟨q, hq, k, hk, hqc, hik⟩ := V.parent_ex j hj hj0
  have hpi : parentIdx t j = q := by rw [hik]; exact parentIdx_childPtr V hq hqc k hk
  obtain ⟨hbp, hbd⟩ := V.child_box q hq hqc k hk
  rw [hpi]
  exact containsPoint_parent_of_child Dim (getNode t q) (getNode t j) k p
    (by rw [hik]; exact hbp) (by rw [hik]; exact hbd) hc

/-- Containment anywhere propagates to the root. -/
theorem containsPoint_root {Dim : Nat} {t : Orthtree α} (V : Valid Dim t)
    (p : Vec) :
    ∀ j, j < t.nodes.length → containsPoint Dim (getNode t j) p = true →
    containsPoint Dim (getNode t 0) p = true := by
  intro j
  induction j using Nat.strong_induction_on with
  | _ j ih =>
    intro hj hc
    rcases eq_or_ne j 0 with h0 | h0
    · rw [← h0]; exact hc
    · obtain ⟨hlt, hplen, _⟩ := parentIdx_lt V hj h0
      exact ih (parentIdx t j) hlt hplen (containsPoint_parentIdx V hj h0 p hc)

theorem depth_parentIdx {Dim : Nat} {t : Orthtree α} {j : Nat}
    (V : Valid Dim t) (hj : j < t.nodes.length) (hj0 : j ≠ 0) :
    (getNode t j).depth = (getNode t (parentIdx t j)).depth + 1 := by
  obtain ⟨q, hq, k, hk, hqc, hik⟩ := V.parent_ex j hj hj0
  have hpi : parentIdx t j = q := by
    rw [hik]; exact parentIdx_childPtr V hq hqc k hk
  have := V.child_depth q hq hqc k hk
  rw [hpi, hik, this]

/-- Distinct nodes at the same depth have disjoint boxes: two containing
nodes at one depth coincide. -/
theorem containing_unique_at_depth {Dim : Nat} {t : Orthtree α}
    (V : Valid Dim t) (p : Vec) :
    ∀ d j j', j < t.nodes.length → j' < t.nodes.length →
    containsPoint Dim (getNode t j) p = true →
    containsPoint Dim (getNode t j') p = true →
    (getNode t j).depth = d → (getNode t j').depth = d → j = j' := by
  intro d
  induction d with
  | zero =>
    intro j j' hj hj' _ _ hd hd'
    rw [depth_zero_eq_root V hj hd, depth_zero_eq_root V hj' hd']
  | succ n ih =>
    intro j j' hj hj' hc hc' hd hd'
    have hj0 : j ≠ 0 := by
      intro h; rw [h, V.root_depth] at hd; omega
    have hj'0 : j' ≠ 0 := by
      intro h; rw [h, V.root_depth] at hd'; omega
    obtain ⟨q, hq, k, hk, hqc, hik⟩ := V.parent_ex j hj hj0
    obtain ⟨q', hq', k', hk', hqc', hik'⟩ := V.parent_ex j' hj' hj'0
    have hbox := V.child_box q hq hqc k hk
    have hbox' := V.child_box q' hq' hqc' k' hk'
    have hcq : containsPoint Dim (getNode t q) p = true :=
      containsPoint_parent_of_child Dim (getNode t q) (getNode t j) k p
        (by rw [hik]; exact hbox.1) (by rw [hik]; exact hbox.2) hc
    have hcq' : containsPoint Dim (getNode t q') p = true :=
      containsPoint_parent_of_child Dim (getNode t q') (getNode t j') k' p
        (by rw [hik']; exact hbox'.1) (by rw [hik']; exact hbox'.2) hc'
    have hdq := V.child_depth q hq hqc k hk
    have hdq' := V.child_depth q' hq' hqc' k' hk'
    rw [← hik] at hdq
    rw [← hik'] at hdq'
    have hqq' : q = q' := ih q q' hq hq' hcq hcq' (by omega) (by omega)
    have hkk : k = childIndexOfPoint Dim (getNode t q) p :=
      childIndex_of_containsPoint Dim (getNode t q) (getNode t j) k p hk
        (by rw [hik]; exact hbox.1) (by rw [hik]; exact hbox.2) hc
    have hkk' : k' = childIndexOfPoint Dim (getNode t q') p :=
      childIndex_of_containsPoint Dim (getNode t q') (getNode t j') k' p hk'
        (by rw [hik']; exact hbox'.1) (by rw [hik']; exact hbox'.2) hc'
    rw [hik, hik', hqq', hkk, hkk', hqq']

/-- Every node strictly deeper than `d` that contains `p` has an ancestor at
depth `d` that contains `p` and has children. -/
theorem strict_ancestor {Dim : Nat} {t : Orthtree α} (V : Valid Dim t)
    (p : Vec) :
    ∀ j, j < t.nodes.length → containsPoint Dim (getNode t j) p = true →
    ∀ d, d < (getNode t j).depth →
    ∃ a, a < t.nodes.length ∧ (getNode t a).depth = d ∧
      containsPoint Dim (getNode t a) p = true ∧
      (getNode t a).hasChildren = true := by
  intro j
  induction j using Nat.strong_induction_on with
  | _ j ih =>
    intro hj hc d hd
    have hj0 : j ≠ 0 := by
      intro h; rw [h, V.root_depth] at hd; omega
    obtain ⟨hlt, hplen, hpc⟩ := parentIdx_lt V hj hj0
    have hdp := depth_parentIdx V hj hj0
    have hcp := containsPoint_parentIdx V hj hj0 p hc
    rcases eq_or_ne d (getNode t (parentIdx t j)).depth with he | hne
    · exact ⟨parentIdx t j, hplen, he.symm, hcp, hpc⟩
    · exact ih (parentIdx t j) hlt hplen hcp d (by omega)

/-- A terminal node containing `p` is deepest among all nodes containing
`p`. -/
theorem terminal_deepest {Dim : Nat} {t : Orthtree α} {r : Nat}
    (V : Valid Dim t) (p : Vec) (hr : r < t.nodes.length)
    (hcr : containsPoint Dim (getNode t r) p = true)
    (htr : (getNode t r).hasChildren = false) :
    ∀ j, j < t.nodes.length → containsPoint Dim (getNode t j) p = true →
    (getNode t j).depth ≤ (getNode t r).depth := by
  intro j hj hc
  by_contra hgt
  obtain ⟨a, ha, hda, hca, hha⟩ :=
    strict_ancestor V p j hj hc (getNode t r).depth (by omega)
  have : a = r := containing_unique_at_depth V p (getNode t r).depth a r ha hr
    hca hcr hda rfl
  rw [this, htr] at hha
  exact Bool.false_ne_true hha

/-- There is at most one terminal node containing `p`. -/
theorem terminal_unique {Dim : Nat} {t : Orthtree α} {r r' : Nat}
    (V : Valid Dim t) (p : Vec) (hr : r < t.nodes.length)
    (hr' : r' < t.nodes.length)
    (hcr : containsPoint Dim (getNode t r) p = true)
    (hcr' : containsPoint Dim (getNode t r') p = true)
    (htr : (getNode t r).hasChildren = false)
    (htr' : (getNode t r').hasChildren = false) : r = r' := by
  have h1 := terminal_deepest V p hr hcr htr r' hr' hcr'
  have h2 := terminal_deepest V p hr' hcr' htr' r hr hcr
  exact containing_unique_at_depth V p (getNode t r).depth r r' hr hr'
    hcr hcr' rfl (by omega)

/-- When no node satisfies the test, the upward walk of `find` reaches the
root and returns the end sentinel. -/
theorem findUp_none_of_all {Dim : Nat} {t : Orthtree α} (V : Valid Dim t)
    (ok : Nat → Bool) (hall : ∀ j, j < t.nodes.length → ok j = false) :
    ∀ i, i < t.nodes.length → ∀ fuel, findUp t ok fuel i = none := by
  intro i
  induction i using Nat.strong_induction_on with
  | _ i ih =>
    intro hi fuel
    cases fuel with
    | zero => rfl
    | succ f =>
      unfold findUp
      rw [if_neg (by rw [hall i hi]; exact Bool.false_ne_true)]
      rcases eq_or_ne i 0 with h0 | h0
      · rw [if_neg (by rw [h0]; unfold hasParentB; simp)]
      · rw [if_pos (by unfold hasParentB; simp [h0])]
        obtain ⟨hlt, hplen, _⟩ := parentIdx_lt V hi h0
        exact ih (parentIdx t i) hlt hplen f

/-- When the root satisfies the test, the upward walk of `find` succeeds from
any in-range start, given fuel exceeding the start index. -/
theorem findUp_some_of_root {Dim : Nat} {t : Orthtree α} (V : Valid Dim t)
    (ok : Nat → Bool) (hroot : ok 0 = true) :
    ∀ i, i < t.nodes.length → ∀ fuel, i < fuel →
    ∃ j, j < t.nodes.length ∧ ok j = true ∧ findUp t ok fuel i = some j := by
  intro i
  induction i using Nat.strong_induction_on with
  | _ i ih =>
    intro hi fuel hfuel
    obtain ⟨f, rfl⟩ : ∃ f, fuel = f + 1 := ⟨fuel - 1, by omega⟩
    by_cases hok : ok i = true
    · exact ⟨i, hi, hok, by unfold findUp; rw [if_pos hok]⟩
    · have h0 : i ≠ 0 := by intro h; rw [h, hroot] at hok; exact hok rfl
      obtain ⟨hlt, hplen, _⟩ := parentIdx_lt V hi h0
      obtain ⟨j, hj, hjok, heq⟩ := ih (parentIdx t i) hlt hplen f (by omega)
      refine ⟨j, hj, hjok, ?_⟩
      unfold findUp
      rw [if_neg hok, if_pos (by unfold hasParentB; simp [h0])]
      exact heq

/-- The downward walk of `find` preserves containment and stops at a terminal
node, given fuel exceeding the remaining depth budget. -/
theorem findDown_spec {Dim : Nat} {t : Orthtree α} (V : Valid Dim t)
    (p : Vec) :
    ∀ fuel j, j < t.nodes.length →
    containsPoint Dim (getNode t j) p = true →
    t.maxDepth < fuel + (getNode t j).depth →
    findDown t (fun i => findChildPoint Dim t i p) fuel j < t.nodes.length ∧
    containsPoint Dim
      (getNode t (findDown t (fun i => findChildPoint Dim t i p) fuel j))
      p = true ∧
    (getNode t (findDown t (fun i => findChildPoint Dim t i p) fuel j)
      ).hasChildren = false := by
  intro fuel
  induction fuel with
  | zero =>
    intro j hj _ hf
    exact absurd (V.depth_le j hj) (by omega)
  | succ f ih =>
    intro j hj hc hf
    by_cases hch : (getNode t j).hasChildren = true
    · have hstep : findDown t (fun i => findChildPoint Dim t i p) (f + 1) j =
          findDown t (fun i => findChildPoint Dim t i p) f
            (findChildPoint Dim t j p) := by
        conv_lhs => unfold findDown
        rw [if_pos hch]
      rw [hstep]
      have hk : childIndexOfPoint Dim (getNode t j) p < 2 ^ Dim :=
        childIndexOfPoint_lt Dim (getNode t j) p
      have hjlt := childPtr_lt V hj hch _ hk
      have hbox := V.child_box j hj hch _ hk
      have hcc : containsPoint Dim
          (getNode t (childPtr t j (childIndexOfPoint Dim (getNode t j) p)))
          p = true :=
        containsPoint_child_of_point Dim (getNode t j) _ p hbox.1 hbox.2 hc
      have hd := V.child_depth j hj hch _ hk
      exact ih (findChildPoint Dim t j p) hjlt hcc
        (by unfold findChildPoint; rw [hd]; omega)
    · have hstop : findDown t (fun i => findChildPoint Dim t i p) (f + 1) j =
          j := by
        unfold findDown
        rw [if_neg hch]
      rw [hstop]
      exact ⟨hj, hc, by simpa using hch⟩

/-- `find(hint, point)` returns the sentinel exactly when the root box fails,
and otherwise a terminal node whose box contains the point. -/
theorem findPoint_spec {Dim : Nat} {t : Orthtree α} (V : Valid Dim t)
    (p : Vec) (hint : Nat) (hh : hint < t.nodes.length) :
    (containsPoint Dim (getNode t 0) p = false →
      findPoint Dim t hint p = t.nodes.length) ∧
    (containsPoint Dim (getNode t 0) p = true →
      findPoint Dim t hint p < t.nodes.length ∧
      containsPoint Dim (getNode t (findPoint Dim t hint p)) p = true ∧
      (getNode t (findPoint Dim t hint p)).hasChildren = false) := by
  constructor
  · intro hroot
    have hall : ∀ j, j < t.nodes.length →
        containsPoint Dim (getNode t j) p = false := by
      intro j hj
      by_contra h
      rw [containsPoint_root V p j hj (by simpa using h)] at hroot
      exact Bool.noConfusion hroot
    unfold findPoint
    rw [findUp_none_of_all V _ hall hint hh _]
  · intro hroot
    obtain ⟨j, hj, hok, heq⟩ := findUp_some_of_root V
      (fun i => containsPoint Dim (getNode t i) p) hroot hint hh
      (t.nodes.length + 1) (by omega)
    have hres : findPoint Dim t hint p =
        findDown t (fun i => findChildPoint Dim t i p) (t.maxDepth + 1) j := by
      unfold findPoint
      rw [heq]
    rw [hres]
    exact findDown_spec V p (t.maxDepth + 1) j hj hok (by omega)

/-- C3.  On a structurally valid tree, `find(hint, point)` returns the end
sentinel exactly when the root box does not contain the point; otherwise it
returns a terminal node whose box contains the point and that is deepest
among all nodes whose boxes contain it; and the result is identical for
every in-range hint — the hint affects only the cost of the walk, never the
answer. -/
theorem C3_find_deepest_hint_independent (Dim : Nat) (t : Orthtree α)
    (V : Valid Dim t) (p : Vec) (hint : Nat) (hh : hint < t.nodes.length) :
    (findPoint Dim t hint p = t.nodes.length ↔
      containsPoint Dim (getNode t 0) p = false) ∧
    (containsPoint Dim (getNode t 0) p = true →
      findPoint Dim t hint p < t.nodes.length ∧
      (getNode t (findPoint Dim t hint p)).hasChildren = false ∧
      containsPoint Dim (getNode t (findPoint Dim t hint p)) p = true ∧
      ∀ j, j < t.nodes.length →
        containsPoint Dim (getNode t j) p = true →
        (getNode t j).depth ≤ (getNode t (findPoint Dim t hint p)).depth) ∧
    (∀ hint', hint' < t.nodes.length →
      findPoint Dim t hint' p = findPoint Dim t hint p) := by
  have hspec := findPoint_spec V p hint hh
  refine ⟨⟨?_, hspec.1⟩, ?_, ?_⟩
  · intro hend
    by_contra hroot
    have hroot' : containsPoint Dim (getNode t 0) p = true := by
      simpa using hroot
    obtain ⟨hlt, _, _⟩ := hspec.2 hroot'
    omega
  · intro hroot
    obtain ⟨hlt, hcr, htr⟩ := hspec.2 hroot
    exact ⟨hlt, htr, hcr, terminal_deepest V p hlt hcr htr⟩
  · intro hint' hh'
    have hspec' := findPoint_spec V p hint' hh'
    by_cases hroot : containsPoint Dim (getNode t 0) p = true
    · obtain ⟨hlt, hcr, htr⟩ := hspec.2 hroot
      obtain ⟨hlt', hcr', htr'⟩ := hspec'.2 hroot
      exact terminal_unique V p hlt' hlt hcr' hcr htr' htr
    · have hf : containsPoint Dim (getNode t 0) p = false := by
        simpa using hroot
      rw [hspec.1 hf, hspec'.1 hf]

theorem C3_find_deepest_hint_independent_witness :
    Valid 1 adjustBugTree ∧ (2 : Nat) < adjustBugTree.nodes.length ∧
    ((findPoint 1 adjustBugTree 2 [.fin 1 0] = adjustBugTree.nodes.length ↔
      containsPoint 1 (getNode adjustBugTree 0) [.fin 1 0] = false) ∧
    (containsPoint 1 (getNode adjustBugTree 0) [.fin 1 0] = true →
      findPoint 1 adjustBugTree 2 [.fin 1 0] < adjustBugTree.nodes.length ∧
      (getNode adjustBugTree
        (findPoint 1 adjustBugTree 2 [.fin 1 0])).hasChildren = false ∧
      containsPoint 1
        (getNode adjustBugTree (findPoint 1 adjustBugTree 2 [.fin 1 0]))
        [.fin 1 0] = true ∧
      ∀ j, j < adjustBugTree.nodes.length →
        containsPoint 1 (getNode adjustBugTree j) [.fin 1 0] = true →
        (getNode adjustBugTree j).depth ≤
          (getNode adjustBugTree
            (findPoint 1 adjustBugTree 2 [.fin 1 0])).depth) ∧
    (∀ hint', hint' < adjustBugTree.nodes.length →
      findPoint 1 adjustBugTree hint' [.fin 1 0] =
        findPoint 1 adjustBugTree 2 [.fin 1 0])) :=
  ⟨by constructor <;> decide, by decide,
   C3_find_deepest_hint_independent 1 adjustBugTree
     (by constructor <;> decide) [.fin 1 0] 2 (by decide)⟩

/-- A point with a NaN or infinite coordinate is contained in no box. -/
theorem containsPoint_special_false (Dim : Nat) (node : NodeInternal)
    (point : Vec)
    (h : ∃ d, d < Dim ∧ (point.getD d .nan = .nan ∨
      ∃ b, point.getD d .nan = .inf b)) :
    containsPoint Dim node point = false := by
  obtain ⟨d, hd, hspec⟩ := h
  apply Bool.eq_false_iff.mpr
  intro hc
  have h1 := (containsPoint_iff_axis Dim node point).mp hc d hd
  have h2 := axisTest_special (point.getD d .nan) (node.position.getD d .nan)
    (node.dimensions.getD d .nan) hspec
  unfold axisOk at h1
  rw [h1] at h2
  exact Bool.noConfusion h2

/-- C4.  Inserting at a position outside the root box (or with a NaN or
infinite coordinate), and erasing through a leaf handle that does not belong
to the tree, return the end sentinel handles and leave the tree — the leaf
array, the node array, and every node field — completely unchanged. -/
theorem C4_invalid_insert_erase_noop (Dim : Nat) (t : Orthtree α)
    (V : Valid Dim t) (hint : Nat) (hh : hint < t.nodes.length) (value : α)
    (position : Vec) (leaf : Nat)
    (hpos : containsPoint Dim (getNode t 0) position = false ∨
      ∃ d, d < Dim ∧ (position.getD d .nan = .nan ∨
        ∃ b, position.getD d .nan = .inf b))
    (hleaf : t.leafs.length ≤ leaf) :
    insert Dim t hint value position =
      (t, t.nodes.length, t.leafs.length) ∧
    erase Dim t hint leaf = (t, t.nodes.length, t.leafs.length) := by
  constructor
  · have hroot : containsPoint Dim (getNode t 0) position = false := by
      rcases hpos with h | h
      · exact h
      · exact containsPoint_special_false Dim _ position h
    have hfind : findPoint Dim t hint position = t.nodes.length :=
      (findPoint_spec V position hint hh).1 hroot
    unfold insert
    rw [hfind]
    simp
  · have hall : ∀ j, j < t.nodes.length → containsLeaf t j leaf = false := by
      intro j hj
      have hle := V.leaf_range_le j hj
      unfold containsLeaf
      have h2 : ¬ (leaf < (getNode t j).leafIndex + (getNode t j).leafCount) :=
        by omega
      simp [h2]
    have hfind : findLeaf Dim t hint leaf = t.nodes.length := by
      unfold findLeaf
      rw [findUp_none_of_all V _ hall hint hh _]
    unfold erase
    rw [hfind]
    simp

theorem C4_invalid_insert_erase_noop_witness :
    Valid 1 adjustBugTree ∧ (0 : Nat) < adjustBugTree.nodes.length ∧
    containsPoint 1 (getNode adjustBugTree 0) [.fin 5 0] = false ∧
    adjustBugTree.leafs.length ≤ 2 ∧
    (insert 1 adjustBugTree 0 (7 : Int) [.fin 5 0] =
      (adjustBugTree, adjustBugTree.nodes.length,
        adjustBugTree.leafs.length) ∧
    erase 1 adjustBugTree 0 2 =
      (adjustBugTree, adjustBugTree.nodes.length,
        adjustBugTree.leafs.length)) :=
  ⟨by constructor <;> decide, by decide, by decide, by decide,
   C4_invalid_insert_erase_noop 1 adjustBugTree (by constructor <;> decide)
     0 (by decide) (7 : Int) [.fin 5 0] 2 (Or.inl (by decide)) (by decide)⟩

/-! Arithmetic of the wrapped `size_t` counters. -/

theorem wrap64_eq_mod (x : Int) :
    wrap64 x = (x % 18446744073709551616).toNat := by
  have h : (2 : Int) ^ 64 = 18446744073709551616 := by norm_num
  unfold wrap64
  rw [show x.emod (2 ^ 64) = x % 2 ^ 64 from rfl, h]

theorem wrap64_lt (x : Int) : wrap64 x < 2 ^ 64 := by
  rw [wrap64_eq_mod]
  have h : (2 : Nat) ^ 64 = 18446744073709551616 := by norm_num
  rw [h]
  omega

theorem wrap64_coe_add (x y : Int) :
    wrap64 ((wrap64 x : Int) + y) = wrap64 (x + y) := by
  simp only [wrap64_eq_mod]
  omega

theorem wrap64_of_lt {c : Nat} (h : c < 2 ^ 64) : wrap64 (c : Int) = c := by
  rw [wrap64_eq_mod]
  have h2 : (2 : Nat) ^ 64 = 18446744073709551616 := by norm_num
  rw [h2] at h
  omega

theorem wrap64_bump_cancel {c : Nat} (h : c < 2 ^ 64) :
    wrap64 ((wrap64 ((c : Int) + 1) : Int) + (-1)) = c := by
  rw [wrap64_coe_add]
  have he : (c : Int) + 1 + (-1) = (c : Int) := by ring
  rw [he, wrap64_of_lt h]

theorem wrap64_comm_add (c : Nat) (a b : Int) :
    wrap64 ((wrap64 ((c : Int) + a) : Int) + b) =
      wrap64 ((wrap64 ((c : Int) + b) : Int) + a) := by
  rw [wrap64_coe_add, wrap64_coe_add]
  congr 1
  ring

theorem orthtree_ext {t t' : Orthtree α} (h1 : t.leafs = t'.leafs)
    (h2 : t.nodes = t'.nodes) (h3 : t.nodeCapacity = t'.nodeCapacity)
    (h4 : t.maxDepth = t'.maxDepth) (h5 : t.autoAdjust = t'.autoAdjust) :
    t = t' := by
  cases t
  cases t'
  simp_all

theorem set_self_of_lt (l : List γ) (i : Nat) (h : i < l.length) :
    l.set i l[i] = l := by
  apply List.ext_getElem?
  intro n
  by_cases hn : n = i
  · rw [hn, List.getElem?_set_self (by omega), List.getElem?_eq_getElem h]
  · rw [List.getElem?_set_ne (by omega)]

/-! `bumpCount` and the ancestor walks of `moveAt`: the per-index bumps form
a commuting family, and a `+1` bump followed by a `-1` bump at the same index
is the identity. -/

theorem bumpCount_leafs (t : Orthtree α) (j : Nat) (δ : Int) :
    (bumpCount t j δ).leafs = t.leafs := rfl

theorem bumpCount_length (t : Orthtree α) (j : Nat) (δ : Int) :
    (bumpCount t j δ).nodes.length = t.nodes.length := by
  simp [bumpCount, setNode]

theorem getNode_bumpCount (t : Orthtree α) (k j : Nat) (δ : Int) :
    getNode (bumpCount t k δ) j =
      if j = k ∧ j < t.nodes.length then
        { getNode t j with leafCount := wrap64 ((getNode t j).leafCount + δ) }
      else getNode t j := by
  by_cases hk : j = k
  · subst hk
    by_cases hj : j < t.nodes.length
    · rw [if_pos ⟨rfl, hj⟩]
      exact getNode_setNode_self _ hj
    · rw [if_neg (by tauto)]
      rw [getNode_of_le (le_of_not_lt hj),
        getNode_of_le (show (bumpCount t j δ).nodes.length ≤ j by
          rw [bumpCount_length]; omega)]
  · rw [if_neg (by tauto)]
    exact getNode_setNode_ne _ hk

theorem parentIdx_bumpCount (t : Orthtree α) (k j : Nat) (δ : Int) :
    parentIdx (bumpCount t k δ) j = parentIdx t j := by
  unfold parentIdx
  rw [getNode_bumpCount]
  by_cases h : j = k ∧ j < t.nodes.length
  · rw [if_pos h]
  · rw [if_neg h]

theorem bumpCount_nodes (t : Orthtree α) (k : Nat) (δ : Int) :
    (bumpCount t k δ).nodes = t.nodes.set k
      { getNode t k with leafCount := wrap64 ((getNode t k).leafCount + δ) } :=
  rfl

theorem bumpCount_config (t : Orthtree α) (k : Nat) (δ : Int) :
    (bumpCount t k δ).nodeCapacity = t.nodeCapacity ∧
    (bumpCount t k δ).maxDepth = t.maxDepth ∧
    (bumpCount t k δ).autoAdjust = t.autoAdjust := ⟨rfl, rfl, rfl⟩

theorem bumpCount_comm (t : Orthtree α) (j k : Nat) (δ δ' : Int) :
    bumpCount (bumpCount t k δ') j δ = bumpCount (bumpCount t j δ) k δ' := by
  refine orthtree_ext rfl ?_ rfl rfl rfl
  rw [bumpCount_nodes, bumpCount_nodes, bumpCount_nodes, bumpCount_nodes]
  by_cases hjk : j = k
  · subst hjk
    by_cases hj : j < t.nodes.length
    · rw [List.set_set, List.set_set]
      rw [getNode_bumpCount, if_pos ⟨rfl, hj⟩,
        getNode_bumpCount, if_pos ⟨rfl, hj⟩]
      show t.nodes.set j ({ getNode t j with leafCount :=
          (wrap64 ((wrap64 (((getNode t j).leafCount : Int) + δ') : Int) +
            δ)) } : NodeInternal) =
        t.nodes.set j ({ getNode t j with leafCount :=
          (wrap64 ((wrap64 (((getNode t j).leafCount : Int) + δ) : Int) +
            δ')) } : NodeInternal)
      rw [wrap64_comm_add]
    · have hle : t.nodes.length ≤ j := le_of_not_lt hj
      have hle2 : (t.nodes.set j { getNode t j with
          leafCount := wrap64 ((getNode t j).leafCount + δ') }).length ≤ j := by
        simpa using hle
      have hle3 : (t.nodes.set j { getNode t j with
          leafCount := wrap64 ((getNode t j).leafCount + δ) }).length ≤ j := by
        simpa using hle
      rw [List.set_eq_of_length_le hle2, List.set_eq_of_length_le hle3,
        List.set_eq_of_length_le hle, List.set_eq_of_length_le hle]
  · rw [getNode_bumpCount, if_neg (by tauto), getNode_bumpCount,
      if_neg (by tauto)]
    exact List.set_comm _ _ _ (Ne.symm hjk)

theorem bumpCount_cancel (t : Orthtree α) (j : Nat)
    (h : (getNode t j).leafCount < 2 ^ 64) :
    bumpCount (bumpCount t j 1) j (-1) = t := by
  refine orthtree_ext rfl ?_ rfl rfl rfl
  rw [bumpCount_nodes, bumpCount_nodes]
  by_cases hj : j < t.nodes.length
  · rw [List.set_set]
    rw [getNode_bumpCount, if_pos ⟨rfl, hj⟩]
    show t.nodes.set j ({ getNode t j with leafCount :=
        (wrap64 ((wrap64 (((getNode t j).leafCount : Int) + 1) : Int) +
          (-1))) } : NodeInternal) = t.nodes
    rw [wrap64_bump_cancel h]
    have heta : ({ getNode t j with leafCount := (getNode t j).leafCount } :
        NodeInternal) = getNode t j := rfl
    rw [heta]
    have hget : getNode t j = t.nodes[j] := by
      rw [getNode_eq_getElem, List.getElem?_eq_getElem hj]
      rfl
    rw [hget]
    exact set_self_of_lt _ _ hj
  · have hle : t.nodes.length ≤ j := le_of_not_lt hj
    have hle2 : (t.nodes.set j { getNode t j with
        leafCount := wrap64 ((getNode t j).leafCount + 1) }).length ≤ j := by
      simpa using hle
    rw [List.set_eq_of_length_le hle2, List.set_eq_of_length_le hle]

theorem bumpAncestorCounts_succ (t : Orthtree α) (δ : Int) (f i : Nat) :
    bumpAncestorCounts t δ (f + 1) i =
      if hasParentB i then
        bumpAncestorCounts (bumpCount t (parentIdx t i) δ) δ f (parentIdx t i)
      else t := rfl

theorem parentIdx_bumpAncestorCounts (δ : Int) :
    ∀ fuel (t : Orthtree α) i j,
    parentIdx (bumpAncestorCounts t δ fuel i) j = parentIdx t j := by
  intro fuel
  induction fuel with
  | zero => intro t i j; rfl
  | succ f ih =>
    intro t i j
    rw [bumpAncestorCounts_succ]
    by_cases hp : hasParentB i = true
    · rw [if_pos hp, ih, parentIdx_bumpCount]
    · rw [if_neg hp]

theorem bumpAncestorCounts_bumpCount_comm (δ δ' : Int) :
    ∀ fuel (t : Orthtree α) i k,
    bumpAncestorCounts (bumpCount t k δ') δ fuel i =
      bumpCount (bumpAncestorCounts t δ fuel i) k δ' := by
  intro fuel
  induction fuel with
  | zero => intro t i k; rfl
  | succ f ih =>
    intro t i k
    rw [bumpAncestorCounts_succ, bumpAncestorCounts_succ]
    by_cases hp : hasParentB i = true
    · rw [if_pos hp, if_pos hp, parentIdx_bumpCount, bumpCount_comm, ih]
    · rw [if_neg hp, if_neg hp]

theorem leafCount_lt_bumpCount {t : Orthtree α}
    (h : ∀ i, (getNode t i).leafCount < 2 ^ 64) (k : Nat) (δ : Int) :
    ∀ i, (getNode (bumpCount t k δ) i).leafCount < 2 ^ 64 := by
  intro i
  rw [getNode_bumpCount]
  by_cases hc : i = k ∧ i < t.nodes.length
  · rw [if_pos hc]
    exact wrap64_lt _
  · rw [if_neg hc]
    exact h i

theorem leafCount_lt_walk (δ : Int) :
    ∀ fuel (t : Orthtree α),
    (∀ i, (getNode t i).leafCount < 2 ^ 64) →
    ∀ j i, (getNode (bumpAncestorCounts t δ fuel j) i).leafCount < 2 ^ 64 := by
  intro fuel
  induction fuel with
  | zero => intro t h j i; exact h i
  | succ f ih =>
    intro t h j i
    rw [bumpAncestorCounts_succ]
    by_cases hp : hasParentB j = true
    · rw [if_pos hp]
      exact ih _ (leafCount_lt_bumpCount h _ _) _ i
    · rw [if_neg hp]
      exact h i

/-- The `+1` ancestor walk of `moveAt` followed by the `-1` ancestor walk is
the identity: the two walks traverse the same parent chain. -/
theorem walk_cancel :
    ∀ fuel (t : Orthtree α) j,
    (∀ i, (getNode t i).leafCount < 2 ^ 64) →
    bumpAncestorCounts (bumpAncestorCounts t 1 fuel j) (-1) fuel j = t := by
  intro fuel
  induction fuel with
  | zero => intro t j _; rfl
  | succ f ih =>
    intro t j h
    rw [bumpAncestorCounts_succ t 1 f j]
    by_cases hp : hasParentB j = true
    · rw [if_pos hp]
      rw [bumpAncestorCounts_succ _ (-1) f j, if_pos hp]
      rw [parentIdx_bumpAncestorCounts, parentIdx_bumpCount]
      rw [bumpAncestorCounts_bumpCount_comm, bumpAncestorCounts_bumpCount_comm,
        bumpAncestorCounts_bumpCount_comm]
      rw [bumpCount_cancel _ _ (leafCount_lt_walk (-1) f
        (bumpAncestorCounts t 1 f (parentIdx t j))
        (leafCount_lt_walk 1 f t h (parentIdx t j)) (parentIdx t j)
        (parentIdx t j))]
      exact ih t (parentIdx t j) h
    · rw [if_neg hp, bumpAncestorCounts_succ _ (-1) f j, if_neg hp]

/-- `moveAt` with equal source and destination node: the two count walks
cancel, the `leafIndex` shift range is empty, and only the rotation of the
leaf array remains. -/
theorem moveAt_same (t : Orthtree α) (n leaf fuel : Nat)
    (h : ∀ i, (getNode t i).leafCount < 2 ^ 64)
    (hlt : leaf < (getNode t n).leafIndex + (getNode t n).leafCount) :
    moveAt t n n leaf fuel =
      ({ t with leafs := (rotateLeft t.leafs leaf
          ((getNode t n).leafIndex + (getNode t n).leafCount)) },
       (getNode t n).leafIndex + (getNode t n).leafCount - 1) := by
  unfold moveAt
  simp only [if_pos hlt, ge_iff_le, le_refl, if_true, Nat.sub_self,
    List.range'_zero, List.foldl_nil]
  rw [bumpAncestorCounts_bumpCount_comm, bumpAncestorCounts_bumpCount_comm,
    bumpAncestorCounts_bumpCount_comm]
  have hcancel : ∀ (s : Orthtree α),
      (∀ i, (getNode s i).leafCount < 2 ^ 64) →
      bumpCount (bumpCount (bumpAncestorCounts (bumpAncestorCounts s 1 fuel n)
        (-1) fuel n) n 1) n (-1) = s := by
    intro s hs
    rw [bumpCount_cancel _ _ (leafCount_lt_walk (-1) fuel _
      (leafCount_lt_walk 1 fuel _ hs n) n n)]
    exact walk_cancel fuel s n hs
  have h1 : ∀ i, (getNode ({ t with leafs := (rotateLeft t.leafs leaf
      ((getNode t n).leafIndex + (getNode t n).leafCount)) } : Orthtree α)
      i).leafCount < 2 ^ 64 := fun i => h i
  rw [hcancel _ h1]

theorem ancestorAtDepth_stop (t : Orthtree α) (d : Nat) (fuel j : Nat)
    (h : ¬ ((getNode t j).depth > d)) : ancestorAtDepth t d fuel j = j := by
  cases fuel with
  | zero => rfl
  | succ f =>
    unfold ancestorAtDepth
    rw [if_neg h]

/-- A node is contained (in the sense of `contains(parent, node)`) in its own
parent. -/
theorem containsNode_parentIdx {Dim : Nat} {t : Orthtree α} {n : Nat}
    (V : Valid Dim t) (hn : n < t.nodes.length) (hn0 : n ≠ 0) :
    containsNode t (parentIdx t n) n = true := by
  have hd := depth_parentIdx V hn hn0
  simp only [containsNode, decide_eq_true_eq]
  rw [hd]
  unfold ancestorAtDepth
  rw [if_pos (by omega)]
  exact ancestorAtDepth_stop t _ _ _ (by omega)

/-- The merge loop of `move` exits at once when the destination equals the
source: the source's parent contains the destination. -/
theorem moveMergeLoop_same {Dim : Nat} {t : Orthtree α} {n : Nat}
    (V : Valid Dim t) (hn : n < t.nodes.length) (fuel : Nat) :
    moveMergeLoop Dim (fuel + 1) t n n = (t, n, n) := by
  have hcond : (hasParentB n && canHoldLeafs t (parentIdx t n) (-1) &&
      !containsNode t (parentIdx t n) n) = false := by
    by_cases h0 : n = 0
    · subst h0
      simp [hasParentB]
    · rw [containsNode_parentIdx V hn h0]
      simp
  unfold moveMergeLoop
  rw [if_neg (by rw [hcond]; exact Bool.false_ne_true)]

/-- The split loop of `move` exits at once when the destination equals the
source. -/
theorem moveSplitLoop_same (Dim : Nat) (p : Vec) (t : Orthtree α)
    (n fuel : Nat) :
    moveSplitLoop Dim p (fuel + 1) t n n = (t, n, n) := by
  unfold moveSplitLoop
  rw [if_neg (by simp)]

theorem setLeafPosition_nodes (t : Orthtree α) (leaf : Nat) (p : Vec) :
    (setLeafPosition t leaf p).nodes = t.nodes := by
  unfold setLeafPosition
  split <;> rfl

theorem setLeafPosition_config (t : Orthtree α) (leaf : Nat) (p : Vec) :
    (setLeafPosition t leaf p).nodeCapacity = t.nodeCapacity ∧
    (setLeafPosition t leaf p).maxDepth = t.maxDepth ∧
    (setLeafPosition t leaf p).autoAdjust = t.autoAdjust := by
  unfold setLeafPosition
  split <;> exact ⟨rfl, rfl, rfl⟩

theorem setLeafPosition_getElem (t : Orthtree α) (leaf : Nat) (p : Vec)
    (j : Nat) :
    (setLeafPosition t leaf p).leafs[j]? =
      if j = leaf then
        (t.leafs[j]?).map (fun l => { l with position := p })
      else t.leafs[j]? := by
  unfold setLeafPosition
  split
  · rename_i l heq
    rw [List.get?_eq_getElem?] at heq
    have hlen : leaf < t.leafs.length := by
      by_contra hc
      rw [List.getElem?_eq_none (by omega)] at heq
      exact Option.noConfusion heq
    by_cases hj : j = leaf
    · subst hj
      simp only [if_pos rfl]
      rw [List.getElem?_set_self hlen, heq]
      rfl
    · rw [if_neg hj]
      exact List.getElem?_set_ne (by omega)
  · rename_i heq
    rw [List.get?_eq_getElem?] at heq
    by_cases hj : j = leaf
    · subst hj
      rw [if_pos rfl, heq]
      rfl
    · rw [if_neg hj]

theorem setLeafPosition_length (t : Orthtree α) (leaf : Nat) (p : Vec) :
    (setLeafPosition t leaf p).leafs.length = t.leafs.length := by
  unfold setLeafPosition
  split
  · simp
  · rfl

/-- Pointwise description of the left rotation of `moveAt`: the slot at `s`
lands at `dl - 1`, the block strictly between shifts down one slot, and
everything outside `[s, dl)` stays put. -/
theorem rotateLeft_getElem (l : List γ) (s dl j : Nat) (hs : s < dl)
    (hdl : dl ≤ l.length) :
    (rotateLeft l s dl)[j]? =
      if j < s then l[j]?
      else if j + 1 < dl then l[j + 1]?
      else if j + 1 = dl then l[s]?
      else l[j]? := by
  have hsl : s < l.length := by omega
  unfold rotateLeft
  rcases Nat.lt_or_ge j s with hj | hj
  · rw [if_pos hj]
    rw [List.getElem?_append_left (by simp; omega),
      List.getElem?_append_left (by simp; omega),
      List.getElem?_append_left (by simp; omega)]
    rw [List.getElem?_take_of_lt hj]
  · rw [if_neg (by omega)]
    have hlenA : (l.take s ++ ((l.drop (s + 1)).take (dl - (s + 1)) ++
        ((l.drop s).take 1 ++ l.drop dl))).length = l.length := by
      simp
      omega
    rw [List.append_assoc, List.append_assoc]
    rw [List.getElem?_append_right (by simp; omega)]
    have hAlen : (l.take s).length = s := by simp; omega
    rw [hAlen]
    rcases Nat.lt_or_ge (j + 1) dl with hj2 | hj2
    · rw [if_pos hj2]
      rw [List.getElem?_append_left (by simp; omega)]
      rw [List.getElem?_take_of_lt (by omega)]
      rw [List.getElem?_drop]
      congr 1
      omega
    · rw [if_neg (by omega)]
      rw [List.getElem?_append_right (by simp; omega)]
      rcases eq_or_ne (j + 1) dl with hj3 | hj3
      · rw [if_pos hj3]
        have hidx : j - s - ((l.drop (s + 1)).take (dl - (s + 1))).length =
            0 := by
          simp
          omega
        rw [hidx]
        rw [List.getElem?_append_left (by simp; omega)]
        rw [List.getElem?_take_of_lt (by omega)]
        rw [List.getElem?_drop]
        norm_num
      · rw [if_neg hj3]
        rw [List.getElem?_append_right (by simp; omega)]
        rw [List.getElem?_drop]
        congr 1
        simp
        omega

theorem rotateLeft_length (l : List γ) (s dl : Nat) (hs : s < dl)
    (hdl : dl ≤ l.length) : (rotateLeft l s dl).length = l.length := by
  unfold rotateLeft
  simp
  omega

/-- C10.  Moving a leaf to a position that resolves to the node that already
owns it leaves the node array — and hence every node's fields — and the
total leaf count unchanged, relocates the leaf to the last slot of that
node's leaf slice by a left rotation that preserves the relative order of
the node's other leaves, stores the new position in the leaf, and returns
equal source and destination handles. -/
theorem C10_move_same_node (Dim : Nat) (t : Orthtree α) (V : Valid Dim t)
    (hint leaf n : Nat) (p : Vec)
    (hsrc : findLeaf Dim t hint leaf = n)
    (hdst : findPoint Dim t hint p = n)
    (hn : n < t.nodes.length)
    (hown : containsLeaf t n leaf = true) :
    (move Dim t hint leaf p).1.nodes = t.nodes ∧
    (move Dim t hint leaf p).2.1 = n ∧
    (move Dim t hint leaf p).2.2.1 = n ∧
    (move Dim t hint leaf p).1.leafs.length = t.leafs.length ∧
    (move Dim t hint leaf p).2.2.2 =
      (getNode t n).leafIndex + (getNode t n).leafCount - 1 ∧
    (move Dim t hint leaf p).1.leafs[(getNode t n).leafIndex +
        (getNode t n).leafCount - 1]? =
      (t.leafs[leaf]?).map (fun l => { l with position := p }) ∧
    (∀ j, j < leaf → (move Dim t hint leaf p).1.leafs[j]? = t.leafs[j]?) ∧
    (∀ j, leaf ≤ j →
      j + 1 < (getNode t n).leafIndex + (getNode t n).leafCount →
      (move Dim t hint leaf p).1.leafs[j]? = t.leafs[j + 1]?) ∧
    (∀ j, (getNode t n).leafIndex + (getNode t n).leafCount ≤ j →
      (move Dim t hint leaf p).1.leafs[j]? = t.leafs[j]?) := by
  have hD := V.leaf_range_le n hn
  have hown' : (getNode t n).leafIndex ≤ leaf ∧
      leaf < (getNode t n).leafIndex + (getNode t n).leafCount := by
    unfold containsLeaf at hown
    simp at hown
    exact hown
  have hB : ∀ i, (getNode t i).leafCount < 2 ^ 64 := by
    intro i
    by_cases hi : i < t.nodes.length
    · have h1 := V.leaf_range_le i hi
      have h2 := V.leafs_lt
      omega
    · rw [getNode_of_le (le_of_not_lt hi)]
      show (0 : Nat) < 2 ^ 64
      positivity
  have hg : ∀ i, getNode (setLeafPosition t leaf p) i = getNode t i := by
    intro i
    unfold getNode
    rw [setLeafPosition_nodes]
  have h2 : ∀ i,
      (getNode (setLeafPosition t leaf p) i).leafCount < 2 ^ 64 := by
    intro i
    rw [hg i]
    exact hB i
  have hlt2 : leaf < (getNode (setLeafPosition t leaf p) n).leafIndex +
      (getNode (setLeafPosition t leaf p) n).leafCount := by
    rw [hg n]
    omega
  have hms := moveAt_same (setLeafPosition t leaf p) n leaf
    (setLeafPosition t leaf p).nodes.length h2 hlt2
  rw [hg n] at hms
  have hmove : move Dim t hint leaf p =
      ({ setLeafPosition t leaf p with leafs :=
          (rotateLeft (setLeafPosition t leaf p).leafs leaf
            ((getNode t n).leafIndex + (getNode t n).leafCount)) },
       n, n, (getNode t n).leafIndex + (getNode t n).leafCount - 1) := by
    simp only [move]
    rw [hsrc, hdst]
    rw [if_neg (by omega : ¬ (n = t.nodes.length ∨ n = t.nodes.length))]
    by_cases haa : t.autoAdjust = true
    · rw [if_pos haa, moveMergeLoop_same V hn]
      rw [show ((t, n, n) : Orthtree α × Nat × Nat).1 = t from rfl,
        show ((t, n, n) : Orthtree α × Nat × Nat).2.1 = n from rfl,
        show ((t, n, n) : Orthtree α × Nat × Nat).2.2 = n from rfl]
      rw [moveSplitLoop_same Dim p t n t.maxDepth]
      rw [hms]
    · rw [if_neg haa]
      rw [hms]
  rw [hmove]
  have hlen2 : (setLeafPosition t leaf p).leafs.length = t.leafs.length :=
    setLeafPosition_length t leaf p
  have hrot : ∀ j, (rotateLeft (setLeafPosition t leaf p).leafs leaf
      ((getNode t n).leafIndex + (getNode t n).leafCount))[j]? =
      if j < leaf then (setLeafPosition t leaf p).leafs[j]?
      else if j + 1 < (getNode t n).leafIndex + (getNode t n).leafCount then
        (setLeafPosition t leaf p).leafs[j + 1]?
      else if j + 1 = (getNode t n).leafIndex + (getNode t n).leafCount then
        (setLeafPosition t leaf p).leafs[leaf]?
      else (setLeafPosition t leaf p).leafs[j]? := by
    intro j
    exact rotateLeft_getElem _ leaf _ j (by omega) (by omega)
  refine ⟨?_, rfl, rfl, ?_, rfl, ?_, ?_, ?_, ?_⟩
  · exact setLeafPosition_nodes t leaf p
  · show (rotateLeft (setLeafPosition t leaf p).leafs leaf
        ((getNode t n).leafIndex + (getNode t n).leafCount)).length =
      t.leafs.length
    rw [rotateLeft_length _ _ _ (by omega) (by omega), hlen2]
  · show (rotateLeft (setLeafPosition t leaf p).leafs leaf
        ((getNode t n).leafIndex + (getNode t n).leafCount))[(getNode t
          n).leafIndex + (getNode t n).leafCount - 1]? = _
    rw [hrot, if_neg (by omega), if_neg (by omega), if_pos (by omega)]
    rw [setLeafPosition_getElem, if_pos rfl]
  · intro j hj
    show (rotateLeft (setLeafPosition t leaf p).leafs leaf
        ((getNode t n).leafIndex + (getNode t n).leafCount))[j]? = _
    rw [hrot, if_pos hj, setLeafPosition_getElem, if_neg (by omega)]
  · intro j hj hj2
    show (rotateLeft (setLeafPosition t leaf p).leafs leaf
        ((getNode t n).leafIndex + (getNode t n).leafCount))[j]? = _
    rw [hrot, if_neg (by omega), if_pos hj2, setLeafPosition_getElem,
      if_neg (by omega)]
  · intro j hj
    show (rotateLeft (setLeafPosition t leaf p).leafs leaf
        ((getNode t n).leafIndex + (getNode t n).leafCount))[j]? = _
    rw [hrot, if_neg (by omega), if_neg (by omega), if_neg (by omega),
      setLeafPosition_getElem, if_neg (by omega)]

theorem C10_move_same_node_witness :
    Valid 1 adjustBugTree ∧
    findLeaf 1 adjustBugTree 1 0 = 1 ∧
    findPoint 1 adjustBugTree 1 [.fin 1 1] = 1 ∧
    (1 : Nat) < adjustBugTree.nodes.length ∧
    containsLeaf adjustBugTree 1 0 = true ∧
    ((move 1 adjustBugTree 1 0 [.fin 1 1]).1.nodes = adjustBugTree.nodes ∧
    (move 1 adjustBugTree 1 0 [.fin 1 1]).2.1 = 1 ∧
    (move 1 adjustBugTree 1 0 [.fin 1 1]).2.2.1 = 1 ∧
    (move 1 adjustBugTree 1 0 [.fin 1 1]).1.leafs.length =
      adjustBugTree.leafs.length ∧
    (move 1 adjustBugTree 1 0 [.fin 1 1]).2.2.2 =
      (getNode adjustBugTree 1).leafIndex +
        (getNode adjustBugTree 1).leafCount - 1 ∧
    (move 1 adjustBugTree 1 0
        [.fin 1 1]).1.leafs[(getNode adjustBugTree 1).leafIndex +
        (getNode adjustBugTree 1).leafCount - 1]? =
      (adjustBugTree.leafs[0]?).map
        (fun l => { l with position := [.fin 1 1] }) ∧
    (∀ j, j < 0 → (move 1 adjustBugTree 1 0 [.fin 1 1]).1.leafs[j]? =
      adjustBugTree.leafs[j]?) ∧
    (∀ j, 0 ≤ j →
      j + 1 < (getNode adjustBugTree 1).leafIndex +
        (getNode adjustBugTree 1).leafCount →
      (move 1 adjustBugTree 1 0 [.fin 1 1]).1.leafs[j]? =
        adjustBugTree.leafs[j + 1]?) ∧
    (∀ j, (getNode adjustBugTree 1).leafIndex +
        (getNode adjustBugTree 1).leafCount ≤ j →
      (move 1 adjustBugTree 1 0 [.fin 1 1]).1.leafs[j]? =
        adjustBugTree.leafs[j]?)) :=
  ⟨by constructor <;> decide, by decide, by decide, by decide, by decide,
   C10_move_same_node 1 adjustBugTree (by constructor <;> decide) 1 0 1
     [.fin 1 1] (by decide) (by decide) (by decide) (by decide)⟩

/-! Skeleton validity: projection from full validity and the subtree
interval theory built on it. -/

theorem Valid.skel {Dim : Nat} {t : Orthtree α} (V : Valid Dim t) :
    SkeletonValid Dim t where
  dim_pos := V.dim_pos
  len_pos := V.len_pos
  nodes_lt := V.nodes_lt
  ci_len := V.ci_len
  depth_le := V.depth_le
  no_children := V.no_children
  ci_zero := V.ci_zero
  ci_step := V.ci_step
  ci_lt := V.ci_lt
  sub_le := V.sub_le
  child_parentIndex := V.child_parentIndex
  child_sibling := V.child_sibling
  child_depth := V.child_depth
  parent_ex := V.parent_ex

theorem sk_ci_mono {Dim : Nat} {t : Orthtree α} {i : Nat}
    (S : SkeletonValid Dim t) (hi : i < t.nodes.length)
    (hc : (getNode t i).hasChildren = true) :
    ∀ k k', k ≤ k' → k' ≤ 2 ^ Dim →
    (getNode t i).childIndices.getD k 0 ≤
      (getNode t i).childIndices.getD k' 0 := by
  intro k k' hkk hk'
  induction k' with
  | zero => simp_all
  | succ n ih =>
    rcases Nat.lt_or_ge k (n + 1) with h | h
    · exact le_trans (ih (by omega) (by omega))
        (le_of_lt (S.ci_lt i hi hc n (by omega)))
    · have : k = n + 1 := by omega
      rw [this]

theorem sk_ci_pos {Dim : Nat} {t : Orthtree α} {i : Nat}
    (S : SkeletonValid Dim t) (hi : i < t.nodes.length)
    (hc : (getNode t i).hasChildren = true) (k : Nat) (hk : k ≤ 2 ^ Dim) :
    1 ≤ (getNode t i).childIndices.getD k 0 := by
  have h0 := S.ci_zero i hi hc
  have := sk_ci_mono S hi hc 0 k (Nat.zero_le k) hk
  omega

theorem sk_getD_le_sentinel {Dim : Nat} {t : Orthtree α} {i : Nat}
    (S : SkeletonValid Dim t) (hi : i < t.nodes.length) (k : Nat)
    (hk : k ≤ 2 ^ Dim) :
    (getNode t i).childIndices.getD k 0 ≤ sentinel Dim t i := by
  by_cases hc : (getNode t i).hasChildren = true
  · exact sk_ci_mono S hi hc k (2 ^ Dim) hk (le_refl _)
  · have hn := S.no_children i hi (by simpa using hc)
    unfold sentinel
    rw [hn]
    simp [List.getD_eq_getElem?_getD, List.getElem?_replicate,
      show k < 2 ^ Dim + 1 by omega]

theorem sk_sentinel_pos {Dim : Nat} {t : Orthtree α} {i : Nat}
    (S : SkeletonValid Dim t) (hi : i < t.nodes.length) :
    1 ≤ sentinel Dim t i := by
  by_cases hc : (getNode t i).hasChildren = true
  · exact sk_ci_pos S hi hc (2 ^ Dim) (le_refl _)
  · have hn := S.no_children i hi (by simpa using hc)
    unfold sentinel
    rw [hn]
    simp [List.getD_eq_getElem?_getD, List.getElem?_replicate]

theorem sk_childPtr_lt {Dim : Nat} {t : Orthtree α} {i : Nat}
    (S : SkeletonValid Dim t) (hi : i < t.nodes.length)
    (hc : (getNode t i).hasChildren = true) (k : Nat) (hk : k < 2 ^ Dim) :
    childPtr t i k < t.nodes.length := by
  have h1 := S.ci_lt i hi hc k hk
  have h2 := sk_ci_mono S hi hc (k + 1) (2 ^ Dim) hk (le_refl _)
  have h3 := S.sub_le i hi hc
  unfold childPtr
  unfold sentinel at h3
  omega

theorem sk_lt_childPtr {Dim : Nat} {t : Orthtree α} {i : Nat}
    (S : SkeletonValid Dim t) (hi : i < t.nodes.length)
    (hc : (getNode t i).hasChildren = true) (k : Nat) (hk : k ≤ 2 ^ Dim) :
    i < childPtr t i k := by
  have := sk_ci_pos S hi hc k hk
  unfold childPtr
  omega

theorem sk_parentIdx_childPtr {Dim : Nat} {t : Orthtree α} {i : Nat}
    (S : SkeletonValid Dim t) (hi : i < t.nodes.length)
    (hc : (getNode t i).hasChildren = true) (k : Nat) (hk : k < 2 ^ Dim) :
    parentIdx t (childPtr t i k) = i := by
  have h := S.child_parentIndex i hi hc k hk
  unfold parentIdx
  rw [h]
  unfold childPtr
  omega

/-- `childPtr t i k + sentinel (childPtr t i k) = i + childIndices[k+1]`:
the child's subtree ends where the next entry begins. -/
theorem sk_childPtr_add_sentinel {Dim : Nat} {t : Orthtree α} {i : Nat}
    (S : SkeletonValid Dim t) (hi : i < t.nodes.length)
    (hc : (getNode t i).hasChildren = true) (k : Nat) (hk : k < 2 ^ Dim) :
    childPtr t i k + sentinel Dim t (childPtr t i k) =
      i + (getNode t i).childIndices.getD (k + 1) 0 := by
  have h := S.ci_step i hi hc k hk
  unfold childPtr at h ⊢
  omega

theorem sk_parent_slot {Dim : Nat} {t : Orthtree α} {j : Nat}
    (S : SkeletonValid Dim t) (hj : j < t.nodes.length) (hj0 : j ≠ 0) :
    parentIdx t j < t.nodes.length ∧
    (getNode t (parentIdx t j)).hasChildren = true ∧
    (getNode t j).siblingIndex < 2 ^ Dim ∧
    j = childPtr t (parentIdx t j) (getNode t j).siblingIndex ∧
    parentIdx t j < j := by
  obtain ⟨p, hp, k, hk, hpc, hik⟩ := S.parent_ex j hj hj0
  have hpi : parentIdx t j = p := by
    rw [hik]
    exact sk_parentIdx_childPtr S hp hpc k hk
  have hsib : (getNode t j).siblingIndex = k := by
    rw [hik]
    exact S.child_sibling p hp hpc k hk
  refine ⟨by rw [hpi]; exact hp, by rw [hpi]; exact hpc, by rw [hsib]; exact hk,
    by rw [hpi, hsib]; exact hik, ?_⟩
  rw [hpi, hik]
  exact sk_lt_childPtr S hp hpc k (le_of_lt hk)

/-- Bracketing in a finite index sequence: some adjacent pair encloses `x`. -/
theorem bracket_exists (f : Nat → Nat) :
    ∀ n x, f 0 ≤ x → x < f n → ∃ k, k < n ∧ f k ≤ x ∧ x < f (k + 1) := by
  intro n
  induction n with
  | zero =>
    intro x h0 hn
    omega
  | succ m ih =>
    intro x h0 hn
    rcases Nat.lt_or_ge x (f m) with h | h
    · obtain ⟨k, hk, h1, h2⟩ := ih x h0 h
      exact ⟨k, by omega, h1, h2⟩
    · exact ⟨m, by omega, h, hn⟩

/-- A strict member of a subtree interval lies in the interval of a unique
child slot. -/
theorem sk_child_bracket {Dim : Nat} {t : Orthtree α} {q j : Nat}
    (S : SkeletonValid Dim t) (hq : q < t.nodes.length)
    (hc : (getNode t q).hasChildren = true)
    (h1 : q < j) (h2 : j < q + sentinel Dim t q) :
    ∃ k, k < 2 ^ Dim ∧ childPtr t q k ≤ j ∧
      j < childPtr t q k + sentinel Dim t (childPtr t q k) := by
  have hz := S.ci_zero q hq hc
  obtain ⟨k, hk, hb1, hb2⟩ := bracket_exists
    (fun s => (getNode t q).childIndices.getD s 0) (2 ^ Dim) (j - q)
    (by show (getNode t q).childIndices.getD 0 0 ≤ j - q; omega)
    (by show j - q < (getNode t q).childIndices.getD (2 ^ Dim) 0
        unfold sentinel at h2; omega)
  have hb1' : (getNode t q).childIndices.getD k 0 ≤ j - q := hb1
  have hb2' : j - q < (getNode t q).childIndices.getD (k + 1) 0 := hb2
  refine ⟨k, hk, by unfold childPtr; omega, ?_⟩
  rw [sk_childPtr_add_sentinel S hq hc k hk]
  omega

/-- Subtree intervals are closed under taking subtrees: if `j` lies in the
interval of `q`, the whole interval of `j` does. -/
theorem sk_subtree_sub {Dim : Nat} {t : Orthtree α}
    (S : SkeletonValid Dim t) :
    ∀ n q j, sentinel Dim t q ≤ n → q < t.nodes.length → q ≤ j →
    j < q + sentinel Dim t q →
    j < t.nodes.length ∧
    j + sentinel Dim t j ≤ q + sentinel Dim t q := by
  intro n
  induction n with
  | zero =>
    intro q j hn hq h1 h2
    have := sk_sentinel_pos S hq
    omega
  | succ m ih =>
    intro q j hn hq h1 h2
    rcases eq_or_ne j q with he | hne
    · rw [he]
      exact ⟨hq, le_refl _⟩
    · have hqc : (getNode t q).hasChildren = true := by
        by_contra hcc
        have := S.no_children q hq (by simpa using hcc)
        have hs : sentinel Dim t q = 1 := by
          unfold sentinel
          rw [this]
          simp [List.getD_eq_getElem?_getD, List.getElem?_replicate]
        omega
      obtain ⟨k, hk, hb1, hb2⟩ := sk_child_bracket S hq hqc (by omega) h2
      have hclt := sk_childPtr_lt S hq hqc k hk
      have hcsub : childPtr t q k + sentinel Dim t (childPtr t q k) ≤
          q + sentinel Dim t q := by
        rw [sk_childPtr_add_sentinel S hq hqc k hk]
        have := sk_getD_le_sentinel S hq (k + 1) hk
        omega
      have hsm : sentinel Dim t (childPtr t q k) ≤ m := by
        have hgt := sk_lt_childPtr S hq hqc k (le_of_lt hk)
        omega
      obtain ⟨hjl, hjs⟩ := ih (childPtr t q k) j hsm hclt hb1 hb2
      exact ⟨hjl, le_trans hjs hcsub⟩

theorem sk_ci_strict_mono {Dim : Nat} {t : Orthtree α} {i : Nat}
    (S : SkeletonValid Dim t) (hi : i < t.nodes.length)
    (hc : (getNode t i).hasChildren = true) {k k' : Nat} (hkk : k < k')
    (hk' : k' ≤ 2 ^ Dim) :
    (getNode t i).childIndices.getD k 0 <
      (getNode t i).childIndices.getD k' 0 := by
  have h1 := S.ci_lt i hi hc k (by omega)
  have h2 := sk_ci_mono S hi hc (k + 1) k' hkk hk'
  omega

/-- A child subtree interval ends no later than its parent's. -/
theorem sk_child_in_parent {Dim : Nat} {t : Orthtree α} {q : Nat}
    (S : SkeletonValid Dim t) (hq : q < t.nodes.length)
    (hqc : (getNode t q).hasChildren = true) (k : Nat) (hk : k < 2 ^ Dim) :
    childPtr t q k + sentinel Dim t (childPtr t q k) ≤
      q + sentinel Dim t q := by
  rw [sk_childPtr_add_sentinel S hq hqc k hk]
  have := sk_getD_le_sentinel S hq (k + 1) hk
  omega

/-- No node strictly between a node and its parent has a subtree reaching
past the node: the interval of any `j'` with `parentIdx t c < j' < c` ends
at or before `c`. -/
theorem sk_between_sub_le {Dim : Nat} {t : Orthtree α} {c j' : Nat}
    (S : SkeletonValid Dim t) (hc : c < t.nodes.length) (hc0 : c ≠ 0)
    (h1 : parentIdx t c < j') (h2 : j' < c) :
    j' + sentinel Dim t j' ≤ c := by
  obtain ⟨hplen, hpc, hsiblt, hcs, hplt⟩ := sk_parent_slot S hc hc0
  by_contra hcon
  have hj'len : j' < t.nodes.length := by omega
  have hA : c + sentinel Dim t c ≤ j' + sentinel Dim t j' :=
    (sk_subtree_sub S (sentinel Dim t j') j' c (le_refl _) hj'len
      (by omega) (by omega)).2
  have hCP : c + sentinel Dim t c ≤
      parentIdx t c + sentinel Dim t (parentIdx t c) := by
    have h := sk_child_in_parent S hplen hpc _ hsiblt
    rw [← hcs] at h
    exact h
  have hsp := sk_sentinel_pos S hc
  obtain ⟨k', hk', hb1, hb2⟩ := sk_child_bracket S hplen hpc h1 (by omega)
  have hsub2 : j' + sentinel Dim t j' ≤
      childPtr t (parentIdx t c) k' +
        sentinel Dim t (childPtr t (parentIdx t c) k') :=
    (sk_subtree_sub S _ _ j' (le_refl _)
      (sk_childPtr_lt S hplen hpc k' hk') hb1 hb2).2
  have hstep := sk_childPtr_add_sentinel S hplen hpc k' hk'
  have hcE : c = parentIdx t c +
      (getNode t (parentIdx t c)).childIndices.getD
        (getNode t c).siblingIndex 0 := by
    conv_lhs => rw [hcs]
    rfl
  have hbE : parentIdx t c +
      (getNode t (parentIdx t c)).childIndices.getD k' 0 ≤ j' := by
    unfold childPtr at hb1
    exact hb1
  have hkeq : k' = (getNode t c).siblingIndex := by
    by_contra hne
    rcases Nat.lt_or_ge k' (getNode t c).siblingIndex with hlt | hge
    · have hm := sk_ci_mono S hplen hpc (k' + 1) (getNode t c).siblingIndex
        (by omega) (le_of_lt hsiblt)
      omega
    · have hm := sk_ci_strict_mono S hplen hpc
        (show (getNode t c).siblingIndex < k' by omega) (le_of_lt hk')
      omega
  rw [hkeq] at hbE
  omega

/-- In the region after `i`, the nodes whose parent offset the walk repairs
once the cursor reaches `p = parentIdx t c` but not before are exactly the
children of `p`. -/
theorem sk_suffix_class {Dim : Nat} {t : Orthtree α} {c i j : Nat}
    (S : SkeletonValid Dim t) (hc : c < t.nodes.length) (hc0 : c ≠ 0)
    (hci : c ≤ i) (hextra : i < c + sentinel Dim t c)
    (hj : j < t.nodes.length) (hij : i < j) :
    ((parentIdx t c ≤ parentIdx t j ∧ parentIdx t j ≤ i ∧
        i < parentIdx t j + sentinel Dim t (parentIdx t j)) ∧
      ¬ (c ≤ parentIdx t j ∧ parentIdx t j ≤ i ∧
        i < parentIdx t j + sentinel Dim t (parentIdx t j))) ↔
      parentIdx t j = parentIdx t c := by
  obtain ⟨hplen, hpc, hsiblt, hcs, hplt⟩ := sk_parent_slot S hc hc0
  constructor
  · rintro ⟨⟨hge, hle, hin⟩, hnot⟩
    by_contra hne
    have hlt : parentIdx t j < c := by
      by_contra hge2
      exact hnot ⟨by omega, hle, hin⟩
    have hbet : parentIdx t c < parentIdx t j := by omega
    have := sk_between_sub_le S hc hc0 hbet hlt
    omega
  · intro he
    rw [he]
    have hin : i < parentIdx t c + sentinel Dim t (parentIdx t c) := by
      have hcp := sk_child_in_parent S hplen hpc _ hsiblt
      rw [← hcs] at hcp
      omega
    exact ⟨⟨le_refl _, by omega, hin⟩, by omega⟩

/-- The children of `parentIdx t c` past the branch slot are exactly the
nodes after `i` whose parent is `parentIdx t c`. -/
theorem sk_children_after_mem {Dim : Nat} {t : Orthtree α} {c i j : Nat}
    (S : SkeletonValid Dim t) (hc : c < t.nodes.length) (hc0 : c ≠ 0)
    (hci : c ≤ i)
    (hj : j < t.nodes.length) (hij : i < j)
    (hpar : parentIdx t j = parentIdx t c) :
    (getNode t c).siblingIndex < (getNode t j).siblingIndex ∧
    (getNode t j).siblingIndex < 2 ^ Dim ∧
    j = childPtr t (parentIdx t c) (getNode t j).siblingIndex := by
  obtain ⟨hplen, hpc, hsiblt, hcs, hplt⟩ := sk_parent_slot S hc hc0
  obtain ⟨hplen', hpc', hsiblt', hcs', hplt'⟩ := sk_parent_slot S hj
    (by omega)
  rw [hpar] at hcs' hplt'
  refine ⟨?_, hsiblt', hcs'⟩
  by_contra hle
  have hmono := sk_ci_mono S hplen hpc (getNode t j).siblingIndex
    (getNode t c).siblingIndex (by omega) (le_of_lt hsiblt)
  have hjE : j = parentIdx t c +
      (getNode t (parentIdx t c)).childIndices.getD
        (getNode t j).siblingIndex 0 := by
    conv_lhs => rw [hcs']
    rfl
  have hcE : c = parentIdx t c +
      (getNode t (parentIdx t c)).childIndices.getD
        (getNode t c).siblingIndex 0 := by
    conv_lhs => rw [hcs]
    rfl
  omega

theorem sk_children_after_tar {Dim : Nat} {t : Orthtree α} {c i : Nat}
    (S : SkeletonValid Dim t) (hc : c < t.nodes.length) (hc0 : c ≠ 0)
    (hci : c ≤ i) (hextra : i < c + sentinel Dim t c) (s : Nat)
    (hs1 : (getNode t c).siblingIndex < s) (hs2 : s < 2 ^ Dim) :
    i < childPtr t (parentIdx t c) s ∧
    childPtr t (parentIdx t c) s < t.nodes.length ∧
    parentIdx t (childPtr t (parentIdx t c) s) = parentIdx t c := by
  obtain ⟨hplen, hpc, hsiblt, hcs, hplt⟩ := sk_parent_slot S hc hc0
  have hstep := S.ci_step (parentIdx t c) hplen hpc (getNode t c).siblingIndex
    hsiblt
  rw [← hcs] at hstep
  have hmono := sk_ci_mono S hplen hpc ((getNode t c).siblingIndex + 1) s
    hs1 (le_of_lt hs2)
  have hcE : c = parentIdx t c +
      (getNode t (parentIdx t c)).childIndices.getD
        (getNode t c).siblingIndex 0 := by
    conv_lhs => rw [hcs]
    rfl
  refine ⟨by unfold childPtr; omega,
    sk_childPtr_lt S hplen hpc s hs2,
    sk_parentIdx_childPtr S hplen hpc s hs2⟩

/-- Rebuilding a list of known length from its `getD` values. -/
theorem list_eq_map_range_getD (l : List Nat) (n : Nat) (h : l.length = n) :
    (List.range n).map (fun s => l.getD s 0) = l := by
  apply List.ext_getElem?
  intro m
  rcases Nat.lt_or_ge m n with hm | hm
  · rw [List.getElem?_map, List.getElem?_range hm]
    rw [List.getElem?_eq_getElem (show m < l.length by omega)]
    simp [List.getD_eq_getElem?_getD,
      List.getElem?_eq_getElem (show m < l.length by omega)]
  · rw [List.getElem?_map, List.getElem?_eq_none (by simpa using hm),
      List.getElem?_eq_none (show l.length ≤ m by omega)]
    rfl

theorem wrap64_small {e : Nat} (h : e < 2 ^ 64) : wrap64 ((e : Nat) : Int) = e :=
  wrap64_of_lt h

/-- Pointwise effect of one `bumpChildEntry` with parent-index repair. -/
theorem bumpChildEntry_spec (w : Orthtree α) (p s D : Nat)
    (hp : p < w.nodes.length)
    (hs : s < (getNode w p).childIndices.length)
    (hb : (getNode w p).childIndices.getD s 0 + D < 2 ^ 64)
    (ht : p + (getNode w p).childIndices.getD s 0 + D < w.nodes.length)
    (hD : 0 < D) :
    (bumpChildEntry w p s ((D : Nat) : Int) true).nodes.length =
      w.nodes.length ∧
    (bumpChildEntry w p s ((D : Nat) : Int) true).leafs = w.leafs ∧
    getNode (bumpChildEntry w p s ((D : Nat) : Int) true) p =
      { getNode w p with childIndices :=
          ((getNode w p).childIndices.set s
            ((getNode w p).childIndices.getD s 0 + D)) } ∧
    getNode (bumpChildEntry w p s ((D : Nat) : Int) true)
        (p + (getNode w p).childIndices.getD s 0 + D) =
      { getNode w (p + (getNode w p).childIndices.getD s 0 + D) with
        parentIndex :=
          (((getNode w (p + (getNode w p).childIndices.getD s 0 +
            D)).parentIndex) - D) } ∧
    ∀ j', j' ≠ p → j' ≠ p + (getNode w p).childIndices.getD s 0 + D →
      getNode (bumpChildEntry w p s ((D : Nat) : Int) true) j' =
        getNode w j' := by
  have hBE : bumpChildEntry w p s ((D : Nat) : Int) true =
      setNode
        (setNode w p (fun n =>
          { n with childIndices := (n.childIndices.set s
              (wrap64 (n.childIndices.getD s 0 + ((D : Nat) : Int)))) }))
        (childPtr
          (setNode w p (fun n =>
            { n with childIndices := (n.childIndices.set s
                (wrap64 (n.childIndices.getD s 0 + ((D : Nat) : Int)))) }))
          p s)
        (fun n => { n with parentIndex := (n.parentIndex - ((D : Nat) : Int)) })
      := rfl
  have hwv : wrap64 ((getNode w p).childIndices.getD s 0 + ((D : Nat) : Int))
      = (getNode w p).childIndices.getD s 0 + D := by
    rw [show ((getNode w p).childIndices.getD s 0 + ((D : Nat) : Int)) =
        (((getNode w p).childIndices.getD s 0 + D : Nat) : Int) from by
      push_cast
      ring]
    exact wrap64_of_lt hb
  have hinner : getNode
      (setNode w p (fun n =>
        { n with childIndices := (n.childIndices.set s
            (wrap64 (n.childIndices.getD s 0 + ((D : Nat) : Int)))) })) p =
      { getNode w p with childIndices :=
          ((getNode w p).childIndices.set s
            ((getNode w p).childIndices.getD s 0 + D)) } := by
    rw [getNode_setNode_self _ hp, hwv]
  have htv : childPtr
      (setNode w p (fun n =>
        { n with childIndices := (n.childIndices.set s
            (wrap64 (n.childIndices.getD s 0 + ((D : Nat) : Int)))) })) p s =
      p + (getNode w p).childIndices.getD s 0 + D := by
    unfold childPtr
    rw [hinner]
    show p + ((getNode w p).childIndices.set s
      ((getNode w p).childIndices.getD s 0 + D)).getD s 0 = _
    rw [List.getD_eq_getElem?_getD, List.getElem?_set_self hs]
    simp only [Option.getD_some]
    omega
  have hTne : p + (getNode w p).childIndices.getD s 0 + D ≠ p := by omega
  rw [hBE, htv]
  refine ⟨by rw [setNode_length, setNode_length],
    by rw [setNode_leafs, setNode_leafs], ?_, ?_, ?_⟩
  · rw [getNode_setNode_ne _ (Ne.symm hTne)]
    exact hinner
  · rw [getNode_setNode_self _ (by rw [setNode_length]; exact ht)]
    rw [getNode_setNode_ne _ hTne]
  · intro j' h1 h2
    rw [getNode_setNode_ne _ h2, getNode_setNode_ne _ h1]

/-- Pointwise effect of the inner loop of `updateAncestorChildData`: folding
`bumpChildEntry` over distinct slots of node `p` bumps exactly those entries
and widens the parent offset of exactly the nodes the bumped entries point
at. -/
theorem fold_bumpChildEntry (Dim : Nat) :
    ∀ (L : List Nat) (w : Orthtree α) (p : Nat),
    p < w.nodes.length →
    (getNode w p).childIndices.length = 2 ^ Dim + 1 →
    (∀ s ∈ L, s < 2 ^ Dim) →
    L.Nodup →
    (∀ s ∈ L, (getNode w p).childIndices.getD s 0 + 2 ^ Dim < 2 ^ 64) →
    (∀ s ∈ L, p + (getNode w p).childIndices.getD s 0 + 2 ^ Dim <
      w.nodes.length) →
    (∀ s ∈ L, ∀ s' ∈ L, (getNode w p).childIndices.getD s 0 =
      (getNode w p).childIndices.getD s' 0 → s = s') →
    (L.foldl (fun u s => bumpChildEntry u p s (((2 ^ Dim : Nat) : Int)) true)
        w).nodes.length = w.nodes.length ∧
    (L.foldl (fun u s => bumpChildEntry u p s (((2 ^ Dim : Nat) : Int)) true)
        w).leafs = w.leafs ∧
    ∀ j', getNode
        (L.foldl (fun u s => bumpChildEntry u p s (((2 ^ Dim : Nat) : Int))
          true) w) j' =
      if j' = p then
        { getNode w p with childIndices :=
            ((List.range (2 ^ Dim + 1)).map (fun m =>
              if m ∈ L then (getNode w p).childIndices.getD m 0 + 2 ^ Dim
              else (getNode w p).childIndices.getD m 0)) }
      else if ∃ m, m ∈ L ∧
          j' = p + (getNode w p).childIndices.getD m 0 + 2 ^ Dim then
        { getNode w j' with parentIndex :=
            (((getNode w j').parentIndex) - ((2 ^ Dim : Nat) : Int)) }
      else getNode w j' := by
  intro L
  induction L with
  | nil =>
    intro w p hp hlen _ _ _ _ _
    refine ⟨rfl, rfl, ?_⟩
    intro j'
    rcases eq_or_ne j' p with he | hne
    · rw [he, if_pos rfl]
      have hmap : (List.range (2 ^ Dim + 1)).map (fun m =>
          if m ∈ ([] : List Nat) then
            (getNode w p).childIndices.getD m 0 + 2 ^ Dim
          else (getNode w p).childIndices.getD m 0) =
          (getNode w p).childIndices := by
        rw [show (fun m =>
            if m ∈ ([] : List Nat) then
              (getNode w p).childIndices.getD m 0 + 2 ^ Dim
            else (getNode w p).childIndices.getD m 0) =
            (fun m => (getNode w p).childIndices.getD m 0) from ?_]
        · exact list_eq_map_range_getD _ _ hlen
        · funext m
          simp
      rw [hmap]
      rfl
    · rw [if_neg hne,
        if_neg (by rintro ⟨m, hm, _⟩; exact (List.not_mem_nil m) hm)]
      rfl
  | cons s L' ih =>
    intro w p hp hlen hslots hnodup hbound htar hinj
    have hs2 : s < 2 ^ Dim := hslots s (by simp)
    have hsb := hbound s (by simp)
    have hst := htar s (by simp)
    have hslen : s < (getNode w p).childIndices.length := by omega
    obtain ⟨hw1len, hw1leafs, hw1p, hw1t, hw1o⟩ :=
      bumpChildEntry_spec w p s (2 ^ Dim) hp hslen hsb hst
        (Nat.pos_pow_of_pos Dim (by omega))
    have hnods := List.nodup_cons.mp hnodup
    have hgd : ∀ m, m ≠ s →
        (getNode (bumpChildEntry w p s (((2 ^ Dim : Nat) : Int)) true)
          p).childIndices.getD m 0 = (getNode w p).childIndices.getD m 0 := by
      intro m hne
      rw [hw1p]
      show ((getNode w p).childIndices.set s _).getD m 0 = _
      rw [List.getD_eq_getElem?_getD, List.getElem?_set_ne (Ne.symm hne),
        ← List.getD_eq_getElem?_getD]
    have hgdlen : (getNode (bumpChildEntry w p s (((2 ^ Dim : Nat) : Int))
        true) p).childIndices.length = 2 ^ Dim + 1 := by
      rw [hw1p]
      show ((getNode w p).childIndices.set s _).length = _
      rw [List.length_set]
      exact hlen
    have ihres := ih (bumpChildEntry w p s (((2 ^ Dim : Nat) : Int)) true) p
      (by rw [hw1len]; exact hp) hgdlen
      (fun m hm => hslots m (by simp [hm]))
      hnods.2
      (fun m hm => by
        rw [hgd m (fun he => hnods.1 (he ▸ hm))]
        exact hbound m (by simp [hm]))
      (fun m hm => by
        rw [hgd m (fun he => hnods.1 (he ▸ hm)), hw1len]
        exact htar m (by simp [hm]))
      (fun m1 hm1 m2 hm2 => by
        rw [hgd m1 (fun he => hnods.1 (he ▸ hm1)),
          hgd m2 (fun he => hnods.1 (he ▸ hm2))]
        exact fun h => hinj m1 (by simp [hm1]) m2 (by simp [hm2]) h)
    obtain ⟨ihlen, ihleafs, ihnode⟩ := ihres
    rw [List.foldl_cons]
    refine ⟨by rw [ihlen, hw1len], by rw [ihleafs, hw1leafs], ?_⟩
    intro j'
    rw [ihnode j']
    rcases eq_or_ne j' p with he | hne
    · rw [he, if_pos rfl, if_pos rfl, hw1p]
      have hci : (List.range (2 ^ Dim + 1)).map (fun m =>
          if m ∈ L' then ((getNode w p).childIndices.set s
              ((getNode w p).childIndices.getD s 0 + 2 ^ Dim)).getD m 0 +
              2 ^ Dim
          else ((getNode w p).childIndices.set s
              ((getNode w p).childIndices.getD s 0 + 2 ^ Dim)).getD m 0) =
          (List.range (2 ^ Dim + 1)).map (fun m =>
            if m ∈ s :: L' then (getNode w p).childIndices.getD m 0 + 2 ^ Dim
            else (getNode w p).childIndices.getD m 0) := by
        apply List.map_congr_left
        intro m _
        rcases eq_or_ne m s with hms | hms
        · rw [hms]
          have hgetset : ((getNode w p).childIndices.set s
              ((getNode w p).childIndices.getD s 0 + 2 ^ Dim)).getD s 0 =
              (getNode w p).childIndices.getD s 0 + 2 ^ Dim := by
            rw [List.getD_eq_getElem?_getD, List.getElem?_set_self hslen]
            rfl
          rw [if_neg (by simpa using hnods.1), hgetset,
            if_pos (by simp)]
        · have hset : ((getNode w p).childIndices.set s
              ((getNode w p).childIndices.getD s 0 + 2 ^ Dim)).getD m 0 =
              (getNode w p).childIndices.getD m 0 := by
            rw [List.getD_eq_getElem?_getD, List.getElem?_set_ne (Ne.symm hms),
              ← List.getD_eq_getElem?_getD]
          rw [hset]
          by_cases hmL : m ∈ L'
          · rw [if_pos hmL, if_pos (by simp [hmL])]
          · rw [if_neg hmL, if_neg (by simp [hms, hmL])]
      show ({ getNode w p with childIndices :=
          ((List.range (2 ^ Dim + 1)).map (fun m =>
            if m ∈ L' then ((getNode w p).childIndices.set s
                ((getNode w p).childIndices.getD s 0 + 2 ^ Dim)).getD m 0 +
                2 ^ Dim
            else ((getNode w p).childIndices.set s
                ((getNode w p).childIndices.getD s 0 + 2 ^ Dim)).getD m 0)) } :
          NodeInternal) = _
      rw [hci]
    · rw [if_neg hne, if_neg hne]
      by_cases hT : j' = p + (getNode w p).childIndices.getD s 0 + 2 ^ Dim
      · have hnotex : ¬ ∃ m, m ∈ L' ∧ j' = p +
            (getNode (bumpChildEntry w p s (((2 ^ Dim : Nat) : Int))
              true) p).childIndices.getD m 0 + 2 ^ Dim := by
          rintro ⟨m, hm, he'⟩
          have hne' : m ≠ s := fun he => hnods.1 (he ▸ hm)
          rw [hgd m hne'] at he'
          rw [hT] at he'
          have := hinj s (by simp) m (by simp [hm]) (by omega)
          exact hne' this.symm
        rw [if_neg hnotex]
        rw [if_pos (show ∃ m, m ∈ s :: L' ∧ j' = p +
            (getNode w p).childIndices.getD m 0 + 2 ^ Dim from
          ⟨s, by simp, hT⟩)]
        rw [hT]
        exact hw1t
      · by_cases hex : ∃ m, m ∈ L' ∧ j' = p +
            (getNode (bumpChildEntry w p s (((2 ^ Dim : Nat) : Int))
              true) p).childIndices.getD m 0 + 2 ^ Dim
        · obtain ⟨m, hm, he'⟩ := hex
          have hne' : m ≠ s := fun he => hnods.1 (he ▸ hm)
          rw [if_pos (show ∃ m, m ∈ L' ∧ j' = p +
              (getNode (bumpChildEntry w p s (((2 ^ Dim : Nat) : Int))
                true) p).childIndices.getD m 0 + 2 ^ Dim from ⟨m, hm, he'⟩)]
          rw [hgd m hne'] at he'
          rw [if_pos (show ∃ m, m ∈ s :: L' ∧ j' = p +
              (getNode w p).childIndices.getD m 0 + 2 ^ Dim from
            ⟨m, by simp [hm], he'⟩)]
          rw [hw1o j' hne hT]
        · rw [if_neg hex]
          have hnotex2 : ¬ ∃ m, m ∈ s :: L' ∧ j' = p +
              (getNode w p).childIndices.getD m 0 + 2 ^ Dim := by
            rintro ⟨m, hm, he'⟩
            rcases List.mem_cons.mp hm with he2 | hmem
            · exact hT (by rw [he2] at he'; exact he')
            · exact hex ⟨m, hmem, by
                rw [hgd m (fun he => hnods.1 (he ▸ hmem))]
                exact he'⟩
          rw [if_neg hnotex2]
          exact hw1o j' hne hT

theorem updateAncestorChildData_succ (Dim : Nat) (t : Orthtree α)
    (change : Int) (upd : Bool) (f j : Nat) :
    updateAncestorChildData Dim t change upd (f + 1) j =
      if hasParentB j then
        updateAncestorChildData Dim
          (setNode
            (((List.range (2 ^ Dim)).drop ((getNode t j).siblingIndex +
                1)).foldl
              (fun u s => bumpChildEntry u (parentIdx t j) s change upd) t)
            (parentIdx t j)
            (fun n => { n with childIndices :=
              (n.childIndices.set (2 ^ Dim)
                (wrap64 (n.childIndices.getD (2 ^ Dim) 0 + change))) }))
          change upd f (parentIdx t j)
      else t := rfl

theorem csNodeF_at_lt {Dim : Nat} {t : Orthtree α} {i c j' : Nat}
    (h : j' < i) :
    csNodeF Dim t i c j' =
      { getNode t j' with childIndices :=
          ((List.range (2 ^ Dim + 1)).map (fun s =>
            if c ≤ j' ∧ i < j' + (getNode t j').childIndices.getD s 0 then
              (getNode t j').childIndices.getD s 0 + 2 ^ Dim
            else (getNode t j').childIndices.getD s 0)) } := by
  unfold csNodeF
  rw [if_pos h]

theorem csNodeF_at_eq {Dim : Nat} {t : Orthtree α} {i c : Nat} :
    csNodeF Dim t i c i =
      { getNode t i with
        hasChildren := true
        childIndices := ((List.range (2 ^ Dim + 1)).map (· + 1)) } := by
  unfold csNodeF
  rw [if_neg (lt_irrefl i), if_pos rfl]

theorem csNodeF_at_child {Dim : Nat} {t : Orthtree α} {i c j' : Nat}
    (h1 : i < j') (h2 : j' < i + 1 + 2 ^ Dim) :
    csNodeF Dim t i c j' = allocChild Dim (getNode t i) (j' - (i + 1)) := by
  unfold csNodeF
  rw [if_neg (by omega), if_neg (by omega), if_pos h2]

theorem csNodeF_at_suffix {Dim : Nat} {t : Orthtree α} {i c j' : Nat}
    (h : i + 1 + 2 ^ Dim ≤ j') :
    csNodeF Dim t i c j' =
      if c ≤ parentIdx t (j' - 2 ^ Dim) ∧ parentIdx t (j' - 2 ^ Dim) ≤ i ∧
          i < parentIdx t (j' - 2 ^ Dim) +
            sentinel Dim t (parentIdx t (j' - 2 ^ Dim)) then
        { getNode t (j' - 2 ^ Dim) with parentIndex :=
            ((getNode t (j' - 2 ^ Dim)).parentIndex -
              ((2 ^ Dim : Nat) : Int)) }
      else getNode t (j' - 2 ^ Dim) := by
  have hp : 0 < 2 ^ Dim := Nat.pos_pow_of_pos Dim (by omega)
  unfold csNodeF
  rw [if_neg (by omega), if_neg (by omega), if_neg (by omega)]

theorem csNodeF_noop {Dim : Nat} {t : Orthtree α} {i c j' : Nat}
    (hlt : j' < i)
    (hlen : (getNode t j').childIndices.length = 2 ^ Dim + 1)
    (hcond : ∀ s, ¬(c ≤ j' ∧ i < j' +
      (getNode t j').childIndices.getD s 0)) :
    csNodeF Dim t i c j' = getNode t j' := by
  rw [csNodeF_at_lt hlt]
  have hmap : ((List.range (2 ^ Dim + 1)).map (fun s =>
      if c ≤ j' ∧ i < j' + (getNode t j').childIndices.getD s 0 then
        (getNode t j').childIndices.getD s 0 + 2 ^ Dim
      else (getNode t j').childIndices.getD s 0)) =
      (getNode t j').childIndices := by
    rw [show (fun s =>
        if c ≤ j' ∧ i < j' + (getNode t j').childIndices.getD s 0 then
          (getNode t j').childIndices.getD s 0 + 2 ^ Dim
        else (getNode t j').childIndices.getD s 0) =
        (fun s => (getNode t j').childIndices.getD s 0) from
        funext fun s => if_neg (hcond s)]
    exact list_eq_map_range_getD _ _ hlen
  rw [hmap]

theorem range_drop_eq (n m : Nat) :
    (List.range n).drop m = List.range' m (n - m) := by
  apply List.ext_getElem?
  intro k
  rcases Nat.lt_or_ge k (n - m) with hk | hk
  · rw [List.getElem?_drop, List.getElem?_range (by omega)]
    rw [List.getElem?_eq_getElem (by rw [List.length_range']; omega)]
    simp
  · rw [List.getElem?_drop,
      List.getElem?_eq_none (by rw [List.length_range]; omega),
      List.getElem?_eq_none (by rw [List.length_range']; omega)]

theorem ite_congr_prop {P Q : Prop} [Decidable P] [Decidable Q]
    (h : P ↔ Q) (a b : γ) : (if P then a else b) = (if Q then a else b) := by
  by_cases hp : P
  · rw [if_pos hp, if_pos (h.mp hp)]
  · rw [if_neg hp, if_neg (fun hq => hp (h.mpr hq))]

/-- Setting entry `k` of a map over `range n` yields the map of the
pointwise-updated function. -/
theorem map_range_set (n k : Nat) (hk : k < n) (f g : Nat → Nat) (v : Nat)
    (hne : ∀ m, m < n → m ≠ k → f m = g m) (hv : g k = v) :
    ((List.range n).map f).set k v = (List.range n).map g := by
  apply List.ext_getElem?
  intro m
  rcases Nat.lt_or_ge m n with hm | hm
  · rcases eq_or_ne m k with he | hne2
    · rw [he, List.getElem?_set_self
        (by rw [List.length_map, List.length_range]; omega),
        List.getElem?_map, List.getElem?_range hk, Option.map_some']
      rw [hv]
    · rw [List.getElem?_set_ne (Ne.symm hne2), List.getElem?_map,
        List.getElem?_range hm, List.getElem?_map, List.getElem?_range hm,
        Option.map_some', Option.map_some']
      rw [hne m hm hne2]
  · have hL1 : (((List.range n).map f).set k v).length ≤ m := by
      rw [List.length_set, List.length_map, List.length_range]; omega
    have hL2 : ((List.range n).map g).length ≤ m := by
      rw [List.length_map, List.length_range]; omega
    rw [List.getElem?_eq_none hL1, List.getElem?_eq_none hL2]

theorem foldBCE_config (p : Nat) (ch : Int) (L : List Nat) :
    ∀ w : Orthtree α,
    (L.foldl (fun u s => bumpChildEntry u p s ch true) w).nodeCapacity =
      w.nodeCapacity ∧
    (L.foldl (fun u s => bumpChildEntry u p s ch true) w).maxDepth =
      w.maxDepth ∧
    (L.foldl (fun u s => bumpChildEntry u p s ch true) w).autoAdjust =
      w.autoAdjust := by
  induction L with
  | nil => exact fun w => ⟨rfl, rfl, rfl⟩
  | cons s L' ih =>
    intro w
    rw [List.foldl_cons]
    obtain ⟨h1, h2, h3⟩ := ih (bumpChildEntry w p s ch true)
    exact ⟨h1.trans rfl, h2.trans rfl, h3.trans rfl⟩

/-- One step of the creation walk: at cursor `c`, bumping the parent's
child entries after the cursor's slot and then the parent's sentinel moves
the state description from cursor `c` to cursor `parentIdx t c`. -/
theorem csStep_spec {Dim : Nat} {t : Orthtree α} (S : SkeletonValid Dim t)
    {i : Nat} (hi : i < t.nodes.length)
    (hsz : t.nodes.length + 2 ^ Dim < 2 ^ 64)
    {c : Nat} (hc : c < t.nodes.length) (hci : c ≤ i)
    (hcs : i < c + sentinel Dim t c) (hc0 : c ≠ 0)
    {u : Orthtree α} (hu : csState Dim t i c u) :
    csState Dim t i (parentIdx t c)
      (setNode
        (((List.range (2 ^ Dim)).drop ((getNode t c).siblingIndex + 1)).foldl
          (fun u' s => bumpChildEntry u' (parentIdx t c) s
            ((2 ^ Dim : Nat) : Int) true) u)
        (parentIdx t c)
        (fun n => { n with childIndices :=
          (n.childIndices.set (2 ^ Dim)
            (wrap64 (n.childIndices.getD (2 ^ Dim) 0 +
              ((2 ^ Dim : Nat) : Int)))) })) := by
  obtain ⟨hulen, huleafs, hucap, humax, huauto, huspec⟩ := hu
  obtain ⟨hplen, hpc, hsiblt, hcseq, hplt⟩ := sk_parent_slot S hc hc0
  have hpile : parentIdx t c < i := by omega
  have hcilen := S.ci_len (parentIdx t c) hplen
  have hup : getNode u (parentIdx t c) = getNode t (parentIdx t c) := by
    rw [huspec]
    exact csNodeF_noop hpile hcilen (fun s h => absurd h.1 (by omega))
  have hLmem : ∀ s, s ∈ (List.range (2 ^ Dim)).drop
      ((getNode t c).siblingIndex + 1) ↔
      ((getNode t c).siblingIndex + 1 ≤ s ∧ s < 2 ^ Dim) := by
    intro s
    rw [range_drop_eq, List.mem_range'_1]
    omega
  have hLnodup : ((List.range (2 ^ Dim)).drop
      ((getNode t c).siblingIndex + 1)).Nodup :=
    (List.drop_sublist _ _).nodup (List.nodup_range _)
  have hsub := S.sub_le (parentIdx t c) hplen hpc
  have hgd64 : ∀ s, s ≤ 2 ^ Dim →
      (getNode t (parentIdx t c)).childIndices.getD s 0 + 2 ^ Dim <
        2 ^ 64 := by
    intro s hs
    have h1 := sk_getD_le_sentinel S hplen s hs
    omega
  have hcp := sk_child_in_parent S hplen hpc _ hsiblt
  rw [← hcseq] at hcp
  have hpint : i < parentIdx t c + sentinel Dim t (parentIdx t c) := by
    omega
  obtain ⟨hFlen, hFleafs, hFspec⟩ :=
    fold_bumpChildEntry Dim
      ((List.range (2 ^ Dim)).drop ((getNode t c).siblingIndex + 1)) u
      (parentIdx t c)
      (by omega)
      (by rw [hup]; exact hcilen)
      (fun s hs => ((hLmem s).mp hs).2)
      hLnodup
      (by intro s hs
          rw [hup]
          exact hgd64 s (le_of_lt (((hLmem s).mp hs).2)))
      (by intro s hs
          rw [hup]
          have h2 := sk_childPtr_lt S hplen hpc s (((hLmem s).mp hs).2)
          unfold childPtr at h2
          omega)
      (by intro s hs s' hs' he
          rw [hup] at he
          by_contra hne
          rcases Nat.lt_or_ge s s' with hlt2 | hge2
          · have := sk_ci_strict_mono S hplen hpc hlt2
              (le_of_lt (((hLmem s').mp hs').2))
            omega
          · have hlt2 : s' < s := by omega
            have := sk_ci_strict_mono S hplen hpc hlt2
              (le_of_lt (((hLmem s).mp hs).2))
            omega)
  have hFplen2 : parentIdx t c <
      (((List.range (2 ^ Dim)).drop ((getNode t c).siblingIndex + 1)).foldl
        (fun u' s => bumpChildEntry u' (parentIdx t c) s
          ((2 ^ Dim : Nat) : Int) true) u).nodes.length := by
    rw [hFlen]
    omega
  refine ⟨by rw [setNode_length, hFlen, hulen],
    by rw [setNode_leafs, hFleafs, huleafs],
    ((foldBCE_config (parentIdx t c) ((2 ^ Dim : Nat) : Int)
      ((List.range (2 ^ Dim)).drop ((getNode t c).siblingIndex + 1))
      u).1).trans hucap,
    ((foldBCE_config (parentIdx t c) ((2 ^ Dim : Nat) : Int)
      ((List.range (2 ^ Dim)).drop ((getNode t c).siblingIndex + 1))
      u).2.1).trans humax,
    ((foldBCE_config (parentIdx t c) ((2 ^ Dim : Nat) : Int)
      ((List.range (2 ^ Dim)).drop ((getNode t c).siblingIndex + 1))
      u).2.2).trans huauto, ?_⟩
  have hrec : ∀ (nd : NodeInternal) (l1 l2 : List Nat), l1 = l2 →
      ({ nd with childIndices := l1 } : NodeInternal) =
      { nd with childIndices := l2 } := by
    intro nd l1 l2 h
    rw [h]
  have hcE : c = parentIdx t c +
      (getNode t (parentIdx t c)).childIndices.getD
        (getNode t c).siblingIndex 0 := by
    conv_lhs => rw [hcseq]
    rfl
  have hnext := sk_childPtr_add_sentinel S hplen hpc
    (getNode t c).siblingIndex hsiblt
  rw [← hcseq] at hnext
  have hkey : ∀ m, m ≤ 2 ^ Dim →
      ((i < parentIdx t c +
        (getNode t (parentIdx t c)).childIndices.getD m 0) ↔
        (getNode t c).siblingIndex + 1 ≤ m) := by
    intro m hm
    constructor
    · intro hlt2
      by_contra hle
      have hmono := sk_ci_mono S hplen hpc m (getNode t c).siblingIndex
        (by omega) (le_of_lt hsiblt)
      omega
    · intro hge2
      have hmono := sk_ci_mono S hplen hpc
        ((getNode t c).siblingIndex + 1) m hge2 hm
      omega
  have hTopNot : (2 ^ Dim) ∉ (List.range (2 ^ Dim)).drop
      ((getNode t c).siblingIndex + 1) :=
    fun hmem => absurd ((hLmem _).mp hmem).2 (lt_irrefl _)
  have hDtop : (((List.range (2 ^ Dim + 1)).map (fun m =>
      if m ∈ (List.range (2 ^ Dim)).drop
          ((getNode t c).siblingIndex + 1) then
        (getNode t (parentIdx t c)).childIndices.getD m 0 + 2 ^ Dim
      else (getNode t (parentIdx t c)).childIndices.getD m 0)).getD
        (2 ^ Dim) 0) =
      (getNode t (parentIdx t c)).childIndices.getD (2 ^ Dim) 0 := by
    rw [getD_map_range (2 ^ Dim + 1) (2 ^ Dim) (by omega)]
    show (if (2 ^ Dim) ∈ (List.range (2 ^ Dim)).drop
        ((getNode t c).siblingIndex + 1) then
        (getNode t (parentIdx t c)).childIndices.getD (2 ^ Dim) 0 + 2 ^ Dim
      else (getNode t (parentIdx t c)).childIndices.getD (2 ^ Dim) 0) = _
    rw [if_neg hTopNot]
  have hwv2 : wrap64
      (((getNode t (parentIdx t c)).childIndices.getD (2 ^ Dim) 0 : Int) +
        ((2 ^ Dim : Nat) : Int)) =
      (getNode t (parentIdx t c)).childIndices.getD (2 ^ Dim) 0 +
        2 ^ Dim := by
    rw [show (((getNode t (parentIdx t c)).childIndices.getD
        (2 ^ Dim) 0 : Int) + ((2 ^ Dim : Nat) : Int)) =
        (((getNode t (parentIdx t c)).childIndices.getD (2 ^ Dim) 0 +
          2 ^ Dim : Nat) : Int) from by push_cast; ring]
    exact wrap64_of_lt (hgd64 _ (le_refl _))
  have hTopCond : parentIdx t c ≤ parentIdx t c ∧
      i < parentIdx t c +
        (getNode t (parentIdx t c)).childIndices.getD (2 ^ Dim) 0 :=
    ⟨le_refl _, hpint⟩
  have hciEq : (((List.range (2 ^ Dim + 1)).map (fun m =>
      if m ∈ (List.range (2 ^ Dim)).drop
          ((getNode t c).siblingIndex + 1) then
        (getNode t (parentIdx t c)).childIndices.getD m 0 + 2 ^ Dim
      else (getNode t (parentIdx t c)).childIndices.getD m 0)).set (2 ^ Dim)
      (wrap64 ((((List.range (2 ^ Dim + 1)).map (fun m =>
        if m ∈ (List.range (2 ^ Dim)).drop
            ((getNode t c).siblingIndex + 1) then
          (getNode t (parentIdx t c)).childIndices.getD m 0 + 2 ^ Dim
        else (getNode t (parentIdx t c)).childIndices.getD m 0)).getD
          (2 ^ Dim) 0 : Int) + ((2 ^ Dim : Nat) : Int)))) =
      ((List.range (2 ^ Dim + 1)).map (fun s =>
        if parentIdx t c ≤ parentIdx t c ∧ i < parentIdx t c +
            (getNode t (parentIdx t c)).childIndices.getD s 0 then
          (getNode t (parentIdx t c)).childIndices.getD s 0 + 2 ^ Dim
        else (getNode t (parentIdx t c)).childIndices.getD s 0)) := by
    rw [hDtop, hwv2]
    refine map_range_set (2 ^ Dim + 1) (2 ^ Dim) (by omega) _ _ _ ?_ ?_
    · intro m hm hmne
      show (if m ∈ (List.range (2 ^ Dim)).drop
          ((getNode t c).siblingIndex + 1) then
          (getNode t (parentIdx t c)).childIndices.getD m 0 + 2 ^ Dim
        else (getNode t (parentIdx t c)).childIndices.getD m 0) =
        (if parentIdx t c ≤ parentIdx t c ∧ i < parentIdx t c +
            (getNode t (parentIdx t c)).childIndices.getD m 0 then
          (getNode t (parentIdx t c)).childIndices.getD m 0 + 2 ^ Dim
        else (getNode t (parentIdx t c)).childIndices.getD m 0)
      by_cases hmem : m ∈ (List.range (2 ^ Dim)).drop
          ((getNode t c).siblingIndex + 1)
      · have h1 := (hLmem m).mp hmem
        have h2 : parentIdx t c ≤ parentIdx t c ∧ i < parentIdx t c +
            (getNode t (parentIdx t c)).childIndices.getD m 0 :=
          ⟨le_refl _, (hkey m (by omega)).mpr h1.1⟩
        rw [if_pos hmem, if_pos h2]
      · have h2 : ¬(parentIdx t c ≤ parentIdx t c ∧ i < parentIdx t c +
            (getNode t (parentIdx t c)).childIndices.getD m 0) := by
          intro h
          exact hmem ((hLmem m).mpr ⟨(hkey m (by omega)).mp h.2, by omega⟩)
        rw [if_neg hmem, if_neg h2]
    · show (if parentIdx t c ≤ parentIdx t c ∧ i < parentIdx t c +
          (getNode t (parentIdx t c)).childIndices.getD (2 ^ Dim) 0 then
          (getNode t (parentIdx t c)).childIndices.getD (2 ^ Dim) 0 + 2 ^ Dim
        else (getNode t (parentIdx t c)).childIndices.getD (2 ^ Dim) 0) = _
      rw [if_pos hTopCond]
  intro j'
  rcases eq_or_ne j' (parentIdx t c) with hjp | hjp
  · rw [hjp, getNode_setNode_self _ hFplen2]
    rw [hFspec, if_pos rfl, hup, csNodeF_at_lt hpile]
    exact hrec _ _ _ hciEq
  · rw [getNode_setNode_ne _ hjp, hFspec, if_neg hjp, hup]
    by_cases hT : ∃ m, m ∈ (List.range (2 ^ Dim)).drop
        ((getNode t c).siblingIndex + 1) ∧
        j' = parentIdx t c +
          (getNode t (parentIdx t c)).childIndices.getD m 0 + 2 ^ Dim
    · rw [if_pos hT]
      obtain ⟨m, hmL, hje⟩ := hT
      have hm12 := (hLmem m).mp hmL
      obtain ⟨hir, hrlen, hpr⟩ := sk_children_after_tar S hc hc0 hci hcs m
        (by omega) hm12.2
      have hjE : j' = childPtr t (parentIdx t c) m + 2 ^ Dim := by
        unfold childPtr
        exact hje
      have hsuf : i + 1 + 2 ^ Dim ≤ j' := by
        rw [hjE]
        omega
      have hj2 : j' - 2 ^ Dim = childPtr t (parentIdx t c) m := by
        rw [hjE]
        omega
      have hnc : ¬(c ≤ parentIdx t c ∧ parentIdx t c ≤ i ∧
          i < parentIdx t c + sentinel Dim t (parentIdx t c)) :=
        fun h => absurd h.1 (by omega)
      have hyc : parentIdx t c ≤ parentIdx t c ∧ parentIdx t c ≤ i ∧
          i < parentIdx t c + sentinel Dim t (parentIdx t c) :=
        ⟨le_refl _, by omega, hpint⟩
      rw [huspec, csNodeF_at_suffix hsuf, csNodeF_at_suffix hsuf, hj2, hpr,
        if_neg hnc, if_pos hyc]
    · rw [if_neg hT, huspec]
      rcases Nat.lt_or_ge j' i with hlt | hge
      · rw [csNodeF_at_lt hlt, csNodeF_at_lt hlt]
        apply hrec
        apply List.map_congr_left
        intro s hs
        have hs2 : s < 2 ^ Dim + 1 := List.mem_range.mp hs
        have hjlen' : j' < t.nodes.length := by omega
        have hgdle2 := sk_getD_le_sentinel S hjlen' s (by omega)
        show (if c ≤ j' ∧ i < j' +
            (getNode t j').childIndices.getD s 0 then
            (getNode t j').childIndices.getD s 0 + 2 ^ Dim
          else (getNode t j').childIndices.getD s 0) =
          (if parentIdx t c ≤ j' ∧ i < j' +
              (getNode t j').childIndices.getD s 0 then
            (getNode t j').childIndices.getD s 0 + 2 ^ Dim
          else (getNode t j').childIndices.getD s 0)
        apply ite_congr_prop
        constructor
        · rintro ⟨h1, h2⟩
          exact ⟨by omega, h2⟩
        · rintro ⟨h1, h2⟩
          refine ⟨?_, h2⟩
          by_contra hlt2
          have hbet : parentIdx t c < j' := by omega
          have hble := sk_between_sub_le S hc hc0 hbet (by omega)
          omega
      · rcases eq_or_ne j' i with he | hne
        · rw [he, csNodeF_at_eq, csNodeF_at_eq]
        · rcases Nat.lt_or_ge j' (i + 1 + 2 ^ Dim) with hch | hsu
          · rw [csNodeF_at_child (by omega) hch,
              csNodeF_at_child (by omega) hch]
          · rw [csNodeF_at_suffix hsu, csNodeF_at_suffix hsu]
            apply ite_congr_prop
            constructor
            · rintro ⟨h1, h2, h3⟩
              exact ⟨by omega, h2, h3⟩
            · rintro ⟨h1, h2, h3⟩
              refine ⟨?_, h2, h3⟩
              by_contra hlt2
              have hjlen : j' - 2 ^ Dim < t.nodes.length := by
                by_contra hge2
                have hd := getNode_of_le
                  (show t.nodes.length ≤ j' - 2 ^ Dim by omega)
                have hpd : parentIdx t (j' - 2 ^ Dim) = j' - 2 ^ Dim := by
                  unfold parentIdx
                  rw [hd]
                  show (((j' - 2 ^ Dim : Nat) : Int) + 0).toNat =
                    j' - 2 ^ Dim
                  omega
                rw [hpd] at h2
                omega
              have hij : i < j' - 2 ^ Dim := by omega
              have hpe := (sk_suffix_class S hc hc0 hci hcs hjlen hij).mp
                ⟨⟨h1, h2, h3⟩, fun hcc => absurd hcc.1 (by omega)⟩
              obtain ⟨hb1, hb2, hb3⟩ :=
                sk_children_after_mem S hc hc0 hci hjlen hij hpe
              apply hT
              refine ⟨(getNode t (j' - 2 ^ Dim)).siblingIndex,
                (hLmem _).mpr ⟨by omega, hb2⟩, ?_⟩
              have hb3' : j' - 2 ^ Dim = parentIdx t c +
                  (getNode t (parentIdx t c)).childIndices.getD
                    (getNode t (j' - 2 ^ Dim)).siblingIndex 0 := by
                conv_lhs => rw [hb3]
                rfl
              omega

/-- The `updateAncestorChildData` walk of `updateNodeChildData` on
creation: starting from a state described by `csNodeF · · c` with the
cursor at `c`, it finishes in the state described by `csNodeF · · 0`. -/
theorem walk_csNodeF {Dim : Nat} {t : Orthtree α} (S : SkeletonValid Dim t)
    {i : Nat} (hi : i < t.nodes.length)
    (hsz : t.nodes.length + 2 ^ Dim < 2 ^ 64) :
    ∀ c, c < t.nodes.length → c ≤ i → i < c + sentinel Dim t c →
    ∀ u : Orthtree α, csState Dim t i c u →
    ∀ fuel, c < fuel →
    csState Dim t i 0
      (updateAncestorChildData Dim u ((2 ^ Dim : Nat) : Int) true fuel
        c) := by
  intro c
  induction c using Nat.strong_induction_on with
  | _ c ih =>
  intro hc hci hcs u hu fuel hfuel
  obtain ⟨hulen, huleafs, hucap, humax, huauto, huspec⟩ := hu
  rcases eq_or_ne c 0 with hc0 | hc0
  · obtain ⟨f, rfl⟩ : ∃ f, fuel = f + 1 := ⟨fuel - 1, by omega⟩
    have hnp : ¬ (hasParentB c = true) := by
      rw [hc0]
      unfold hasParentB
      simp
    rw [updateAncestorChildData_succ, if_neg hnp]
    rw [hc0] at huspec
    exact ⟨hulen, huleafs, hucap, humax, huauto, huspec⟩
  · obtain ⟨f, rfl⟩ : ∃ f, fuel = f + 1 := ⟨fuel - 1, by omega⟩
    obtain ⟨hplen, hpc, hsiblt, hcseq, hplt⟩ := sk_parent_slot S hc hc0
    have hsibu : (getNode u c).siblingIndex =
        (getNode t c).siblingIndex := by
      rcases eq_or_ne c i with he | hne
      · rw [huspec, he, csNodeF_at_eq]
      · rw [huspec, csNodeF_at_lt (by omega)]
    have hpu : parentIdx u c = parentIdx t c := by
      unfold parentIdx
      rcases eq_or_ne c i with he | hne
      · rw [huspec, he, csNodeF_at_eq]
      · rw [huspec, csNodeF_at_lt (by omega)]
    have hcp := sk_child_in_parent S hplen hpc _ hsiblt
    rw [← hcseq] at hcp
    have hpp : hasParentB c = true := by
      unfold hasParentB
      simp [hc0]
    rw [updateAncestorChildData_succ, if_pos hpp, hsibu, hpu]
    exact ih (parentIdx t c) hplt hplen (by omega) (by omega) _
      (csStep_spec S hi hsz hc hci hcs hc0
        ⟨hulen, huleafs, hucap, humax, huauto, huspec⟩) f (by omega)

theorem foldl_setNode_config (l : List γ) (g : γ → Nat)
    (F : γ → NodeInternal → NodeInternal) (t : Orthtree α) :
    (l.foldl (fun t x => setNode t (g x) (F x)) t).nodeCapacity =
      t.nodeCapacity ∧
    (l.foldl (fun t x => setNode t (g x) (F x)) t).maxDepth = t.maxDepth ∧
    (l.foldl (fun t x => setNode t (g x) (F x)) t).autoAdjust =
      t.autoAdjust := by
  induction l generalizing t with
  | nil => exact ⟨rfl, rfl, rfl⟩
  | cons a l ih =>
    rw [List.foldl_cons]
    obtain ⟨h1, h2, h3⟩ := ih (setNode t (g a) (F a))
    exact ⟨h1.trans rfl, h2.trans rfl, h3.trans rfl⟩

theorem allocChildren_config (Dim : Nat) (t : Orthtree α) (i : Nat) :
    (allocChildren Dim t i).nodeCapacity = t.nodeCapacity ∧
    (allocChildren Dim t i).maxDepth = t.maxDepth ∧
    (allocChildren Dim t i).autoAdjust = t.autoAdjust := by
  unfold allocChildren
  exact ⟨((foldl_setNode_config _ _ _ _).1).trans rfl,
    ((foldl_setNode_config _ _ _ _).2.1).trans rfl,
    ((foldl_setNode_config _ _ _ _).2.2).trans rfl⟩

/-- The state right after `allocChildren` and the iota rewrite of node `i`
(the start of the `updateNodeChildData` ancestor walk) is described by
`csNodeF` with cursor `i`. -/
theorem csStart_spec {Dim : Nat} {t : Orthtree α} (S : SkeletonValid Dim t)
    {i : Nat} (hi : i < t.nodes.length)
    (hterm : (getNode t i).hasChildren = false) :
    csState Dim t i i
      (setNode (allocChildren Dim t i) i (fun n =>
        { n with
          hasChildren := true
          childIndices := ((List.range (2 ^ Dim + 1)).map (· + 1)) })) := by
  have hlenA : (allocChildren Dim t i).nodes.length =
      t.nodes.length + 2 ^ Dim := allocChildren_length Dim t i hi
  obtain ⟨hca, hma, haa⟩ := allocChildren_config Dim t i
  refine ⟨by rw [setNode_length, hlenA], by rw [setNode_leafs,
    allocChildren_leafs], hca, hma, haa, ?_⟩
  intro j'
  have hilt : i < (allocChildren Dim t i).nodes.length := by
    have h2p : 0 < 2 ^ Dim := Nat.pos_pow_of_pos Dim (by omega)
    omega
  rcases eq_or_ne j' i with he | hne
  · rw [he, getNode_setNode_self _ hilt,
      getNode_allocChildren Dim t i i hi, if_pos (le_refl i), csNodeF_at_eq]
  · rw [getNode_setNode_ne _ hne, getNode_allocChildren Dim t i j' hi]
    rcases Nat.lt_or_ge j' i with hlt | hge
    · rw [if_pos (by omega)]
      exact (csNodeF_noop hlt (S.ci_len j' (by omega))
        (fun s h => absurd h.1 (by omega))).symm
    · rcases Nat.lt_or_ge j' (i + 1 + 2 ^ Dim) with hch | hsu
      · rw [if_neg (by omega), if_pos hch, csNodeF_at_child (by omega) hch]
      · have hncond : ¬(i ≤ parentIdx t (j' - 2 ^ Dim) ∧
            parentIdx t (j' - 2 ^ Dim) ≤ i ∧
            i < parentIdx t (j' - 2 ^ Dim) +
              sentinel Dim t (parentIdx t (j' - 2 ^ Dim))) := by
          rintro ⟨h1, h2, h3⟩
          have hpj : parentIdx t (j' - 2 ^ Dim) = i := by omega
          rcases Nat.lt_or_ge (j' - 2 ^ Dim) t.nodes.length with hjl | hjl
          · obtain ⟨hplen2, hpc2, _, _, _⟩ := sk_parent_slot S hjl (by omega)
            rw [hpj] at hpc2
            exact absurd hpc2 (by simp [hterm])
          · have hd := getNode_of_le hjl
            have hpd : parentIdx t (j' - 2 ^ Dim) = j' - 2 ^ Dim := by
              unfold parentIdx
              rw [hd]
              show (((j' - 2 ^ Dim : Nat) : Int) + 0).toNat = j' - 2 ^ Dim
              omega
            omega
        rw [if_neg (by omega), if_neg (by omega), csNodeF_at_suffix hsu,
          if_neg hncond]

/-- Pointwise characterization of the skeleton-creation composite
`updateNodeChildData (allocChildren t i) i true true` used by both
`createChildren` and `bulkSplitNode`: the final state is described by
`csNodeF` with cursor `0`. -/
theorem createSkeleton_spec {Dim : Nat} {t : Orthtree α}
    (S : SkeletonValid Dim t) {i : Nat} (hi : i < t.nodes.length)
    (hterm : (getNode t i).hasChildren = false)
    (hsz : t.nodes.length + 2 ^ Dim < 2 ^ 64) :
    csState Dim t i 0
      (updateNodeChildData Dim (allocChildren Dim t i) i true true).1 := by
  have hdef : (updateNodeChildData Dim (allocChildren Dim t i) i true
      true).1 =
      updateAncestorChildData Dim
        (setNode (allocChildren Dim t i) i (fun n =>
          { n with
            hasChildren := true
            childIndices := ((List.range (2 ^ Dim + 1)).map (· + 1)) }))
        (((((List.range (2 ^ Dim + 1)).map (· + 1)).getD
            (2 ^ Dim) 0 : Nat) : Int) -
          (((getNode (allocChildren Dim t i) i).childIndices.getD
            (2 ^ Dim) 0 : Nat) : Int))
        true
        (setNode (allocChildren Dim t i) i (fun n =>
          { n with
            hasChildren := true
            childIndices :=
              ((List.range (2 ^ Dim + 1)).map (· + 1)) })).nodes.length
        i := rfl
  have hchange : (((((List.range (2 ^ Dim + 1)).map (· + 1)).getD
      (2 ^ Dim) 0 : Nat) : Int) -
      (((getNode (allocChildren Dim t i) i).childIndices.getD
        (2 ^ Dim) 0 : Nat) : Int)) = ((2 ^ Dim : Nat) : Int) := by
    have h1 : (getNode (allocChildren Dim t i) i).childIndices.getD
        (2 ^ Dim) 0 = 1 := by
      rw [getNode_allocChildren Dim t i i hi, if_pos (le_refl i),
        S.no_children i hi hterm]
      simp [List.getD_eq_getElem?_getD, List.getElem?_replicate,
        show 2 ^ Dim < 2 ^ Dim + 1 by omega]
    have h2 : ((List.range (2 ^ Dim + 1)).map (· + 1)).getD (2 ^ Dim) 0 =
        2 ^ Dim + 1 := by
      rw [getD_map_range (2 ^ Dim + 1) (2 ^ Dim) (by omega)]
    rw [h1, h2]
    push_cast
    ring
  rw [hdef, hchange]
  have hspos := sk_sentinel_pos S hi
  have hcs0 : i < i + sentinel Dim t i := by omega
  have hfuel0 : i < (setNode (allocChildren Dim t i) i (fun n =>
      { n with
        hasChildren := true
        childIndices :=
          ((List.range (2 ^ Dim + 1)).map (· + 1)) })).nodes.length := by
    rw [setNode_length, allocChildren_length Dim t i hi]
    have h2p : 0 < 2 ^ Dim := Nat.pos_pow_of_pos Dim (by omega)
    omega
  exact walk_csNodeF S hi hsz i hi (le_refl i) hcs0 _
    (csStart_spec S hi hterm) _ hfuel0

theorem csF_lt_fields {Dim : Nat} {t : Orthtree α} {i c j' : Nat}
    (h : j' < i) :
    (csNodeF Dim t i c j').hasChildren = (getNode t j').hasChildren ∧
    (csNodeF Dim t i c j').parentIndex = (getNode t j').parentIndex ∧
    (csNodeF Dim t i c j').siblingIndex = (getNode t j').siblingIndex ∧
    (csNodeF Dim t i c j').depth = (getNode t j').depth := by
  rw [csNodeF_at_lt h]
  exact ⟨rfl, rfl, rfl, rfl⟩

theorem csF_lt_ci_len {Dim : Nat} {t : Orthtree α} {i c j' : Nat}
    (h : j' < i) :
    (csNodeF Dim t i c j').childIndices.length = 2 ^ Dim + 1 := by
  rw [csNodeF_at_lt h]
  show ((List.range (2 ^ Dim + 1)).map (fun s =>
      if c ≤ j' ∧ i < j' + (getNode t j').childIndices.getD s 0 then
        (getNode t j').childIndices.getD s 0 + 2 ^ Dim
      else (getNode t j').childIndices.getD s 0)).length = 2 ^ Dim + 1
  rw [List.length_map, List.length_range]

theorem cs0_lt_getD {Dim : Nat} {t : Orthtree α} {i j' s : Nat}
    (h : j' < i) (hs : s < 2 ^ Dim + 1) :
    (csNodeF Dim t i 0 j').childIndices.getD s 0 =
      if i < j' + (getNode t j').childIndices.getD s 0 then
        (getNode t j').childIndices.getD s 0 + 2 ^ Dim
      else (getNode t j').childIndices.getD s 0 := by
  rw [csNodeF_at_lt h]
  show ((List.range (2 ^ Dim + 1)).map (fun s =>
      if 0 ≤ j' ∧ i < j' + (getNode t j').childIndices.getD s 0 then
        (getNode t j').childIndices.getD s 0 + 2 ^ Dim
      else (getNode t j').childIndices.getD s 0)).getD s 0 = _
  rw [getD_map_range (2 ^ Dim + 1) s hs]
  show (if 0 ≤ j' ∧ i < j' + (getNode t j').childIndices.getD s 0 then
      (getNode t j').childIndices.getD s 0 + 2 ^ Dim
    else (getNode t j').childIndices.getD s 0) = _
  exact ite_congr_prop (and_iff_right (Nat.zero_le j')) _ _

theorem csF_eq_fields {Dim : Nat} {t : Orthtree α} {i c : Nat} :
    (csNodeF Dim t i c i).hasChildren = true ∧
    (csNodeF Dim t i c i).parentIndex = (getNode t i).parentIndex ∧
    (csNodeF Dim t i c i).siblingIndex = (getNode t i).siblingIndex ∧
    (csNodeF Dim t i c i).depth = (getNode t i).depth := by
  rw [csNodeF_at_eq]
  exact ⟨rfl, rfl, rfl, rfl⟩

theorem csF_eq_ci_len {Dim : Nat} {t : Orthtree α} {i c : Nat} :
    (csNodeF Dim t i c i).childIndices.length = 2 ^ Dim + 1 := by
  rw [csNodeF_at_eq]
  show ((List.range (2 ^ Dim + 1)).map (· + 1)).length = 2 ^ Dim + 1
  rw [List.length_map, List.length_range]

theorem csF_eq_getD {Dim : Nat} {t : Orthtree α} {i c s : Nat}
    (hs : s < 2 ^ Dim + 1) :
    (csNodeF Dim t i c i).childIndices.getD s 0 = s + 1 := by
  rw [csNodeF_at_eq]
  show ((List.range (2 ^ Dim + 1)).map (· + 1)).getD s 0 = s + 1
  rw [getD_map_range (2 ^ Dim + 1) s hs]

theorem csF_child_node {Dim : Nat} {t : Orthtree α} {i c j' : Nat}
    (h1 : i < j') (h2 : j' < i + 1 + 2 ^ Dim) :
    (csNodeF Dim t i c j').hasChildren = false ∧
    (csNodeF Dim t i c j').childIndices = List.replicate (2 ^ Dim + 1) 1 ∧
    (csNodeF Dim t i c j').depth = (getNode t i).depth + 1 ∧
    (csNodeF Dim t i c j').parentIndex =
      -(((j' - (i + 1) : Nat) : Int) + 1) ∧
    (csNodeF Dim t i c j').siblingIndex = j' - (i + 1) := by
  rw [csNodeF_at_child h1 h2]
  exact ⟨rfl, rfl, rfl, rfl, rfl⟩

theorem cs0_suffix_node {Dim : Nat} {t : Orthtree α} {i j' : Nat}
    (hsu : i + 1 + 2 ^ Dim ≤ j') :
    (csNodeF Dim t i 0 j').hasChildren =
      (getNode t (j' - 2 ^ Dim)).hasChildren ∧
    (csNodeF Dim t i 0 j').childIndices =
      (getNode t (j' - 2 ^ Dim)).childIndices ∧
    (csNodeF Dim t i 0 j').siblingIndex =
      (getNode t (j' - 2 ^ Dim)).siblingIndex ∧
    (csNodeF Dim t i 0 j').depth = (getNode t (j' - 2 ^ Dim)).depth := by
  rw [csNodeF_at_suffix hsu]
  by_cases hcnd : 0 ≤ parentIdx t (j' - 2 ^ Dim) ∧
      parentIdx t (j' - 2 ^ Dim) ≤ i ∧
      i < parentIdx t (j' - 2 ^ Dim) +
        sentinel Dim t (parentIdx t (j' - 2 ^ Dim))
  · rw [if_pos hcnd]
    exact ⟨rfl, rfl, rfl, rfl⟩
  · rw [if_neg hcnd]
    exact ⟨rfl, rfl, rfl, rfl⟩

theorem cs0_suffix_parentIndex {Dim : Nat} {t : Orthtree α} {i j' : Nat}
    (hsu : i + 1 + 2 ^ Dim ≤ j') :
    (csNodeF Dim t i 0 j').parentIndex =
      if parentIdx t (j' - 2 ^ Dim) ≤ i ∧
          i < parentIdx t (j' - 2 ^ Dim) +
            sentinel Dim t (parentIdx t (j' - 2 ^ Dim)) then
        (getNode t (j' - 2 ^ Dim)).parentIndex - ((2 ^ Dim : Nat) : Int)
      else (getNode t (j' - 2 ^ Dim)).parentIndex := by
  rw [csNodeF_at_suffix hsu]
  by_cases hcnd : parentIdx t (j' - 2 ^ Dim) ≤ i ∧
      i < parentIdx t (j' - 2 ^ Dim) +
        sentinel Dim t (parentIdx t (j' - 2 ^ Dim))
  · rw [if_pos (show 0 ≤ parentIdx t (j' - 2 ^ Dim) ∧
      parentIdx t (j' - 2 ^ Dim) ≤ i ∧
      i < parentIdx t (j' - 2 ^ Dim) +
        sentinel Dim t (parentIdx t (j' - 2 ^ Dim)) from
      ⟨Nat.zero_le _, hcnd.1, hcnd.2⟩), if_pos hcnd]
  · rw [if_neg (show ¬(0 ≤ parentIdx t (j' - 2 ^ Dim) ∧
      parentIdx t (j' - 2 ^ Dim) ≤ i ∧
      i < parentIdx t (j' - 2 ^ Dim) +
        sentinel Dim t (parentIdx t (j' - 2 ^ Dim))) from
      fun h => hcnd ⟨h.2.1, h.2.2⟩), if_neg hcnd]

/-- Sentinels of the post-creation state, by index class: prefix nodes keep
their sentinel unless their subtree contains the split node, the split node
gets `2^Dim + 1`, the fresh children are terminal, and shifted nodes keep
theirs. -/
theorem csU_sentinel {Dim : Nat} {t : Orthtree α} {i : Nat} {U : Orthtree α}
    (hus : ∀ j', getNode U j' = csNodeF Dim t i 0 j') :
    (∀ j', j' < i → sentinel Dim U j' =
      (if i < j' + sentinel Dim t j' then sentinel Dim t j' + 2 ^ Dim
       else sentinel Dim t j')) ∧
    sentinel Dim U i = 2 ^ Dim + 1 ∧
    (∀ j', i < j' → j' < i + 1 + 2 ^ Dim → sentinel Dim U j' = 1) ∧
    (∀ j', i + 1 + 2 ^ Dim ≤ j' →
      sentinel Dim U j' = sentinel Dim t (j' - 2 ^ Dim)) := by
  refine ⟨?_, ?_, ?_, ?_⟩
  · intro j' h
    show (getNode U j').childIndices.getD (2 ^ Dim) 0 = _
    rw [hus, cs0_lt_getD h (by omega)]
    rfl
  · show (getNode U i).childIndices.getD (2 ^ Dim) 0 = _
    rw [hus, csF_eq_getD (by omega)]
  · intro j' h1 h2
    show (getNode U j').childIndices.getD (2 ^ Dim) 0 = 1
    rw [hus, (csF_child_node h1 h2).2.1]
    rw [List.getD_eq_getElem?_getD, List.getElem?_replicate,
      if_pos (show 2 ^ Dim < 2 ^ Dim + 1 by omega)]
    rfl
  · intro j' h
    show (getNode U j').childIndices.getD (2 ^ Dim) 0 = _
    rw [hus, (cs0_suffix_node h).2.1]
    rfl

/-- Entry step (`childOffsets[k+1] = childOffsets[k] + subtree slots of
child k`) holds in the post-creation state. -/
theorem csU_ci_step {Dim : Nat} {t : Orthtree α} (S : SkeletonValid Dim t)
    {i : Nat} (hi : i < t.nodes.length)
    (hterm : (getNode t i).hasChildren = false)
    {U : Orthtree α}
    (hULen : U.nodes.length = t.nodes.length + 2 ^ Dim)
    (hus : ∀ j', getNode U j' = csNodeF Dim t i 0 j') :
    ∀ j', j' < U.nodes.length → (getNode U j').hasChildren = true →
    ∀ k, k < 2 ^ Dim →
    (getNode U j').childIndices.getD (k + 1) 0 =
      (getNode U j').childIndices.getD k 0 +
        sentinel Dim U (childPtr U j' k) := by
  obtain ⟨hsL, hsE, hsC, hsS⟩ := csU_sentinel hus
  have h2p : 0 < 2 ^ Dim := Nat.pos_pow_of_pos Dim (by omega)
  have hsent_t_i : sentinel Dim t i = 1 := by
    unfold sentinel
    rw [S.no_children i hi hterm]
    rw [List.getD_eq_getElem?_getD, List.getElem?_replicate,
      if_pos (show 2 ^ Dim < 2 ^ Dim + 1 by omega)]
    rfl
  intro j' hj' hch k hk
  rw [hULen] at hj'
  rcases Nat.lt_or_ge j' i with hlt | hge
  · have hjlen : j' < t.nodes.length := by omega
    have hcht : (getNode t j').hasChildren = true := by
      rw [hus, (csF_lt_fields hlt).1] at hch
      exact hch
    have hstep := S.ci_step j' hjlen hcht k hk
    have hltk := S.ci_lt j' hjlen hcht k hk
    have hcpE : childPtr t j' k =
        j' + (getNode t j').childIndices.getD k 0 := rfl
    have hck := sk_childPtr_lt S hjlen hcht k hk
    have hcpa := sk_childPtr_add_sentinel S hjlen hcht k hk
    have hspos2 := sk_sentinel_pos S hck
    have hcpUE : childPtr U j' k =
        j' + (getNode U j').childIndices.getD k 0 := rfl
    rw [hcpUE, hus, cs0_lt_getD hlt (show k < 2 ^ Dim + 1 by omega),
      cs0_lt_getD hlt (show k + 1 < 2 ^ Dim + 1 by omega)]
    by_cases hBk : i < j' + (getNode t j').childIndices.getD k 0
    · have hBk1 : i < j' + (getNode t j').childIndices.getD (k + 1) 0 := by
        omega
      rw [if_pos hBk, if_pos hBk1,
        hsS (j' + ((getNode t j').childIndices.getD k 0 + 2 ^ Dim))
          (by omega),
        show j' + ((getNode t j').childIndices.getD k 0 + 2 ^ Dim) -
            2 ^ Dim = childPtr t j' k from by rw [hcpE]; omega]
      omega
    · rw [if_neg hBk]
      by_cases hBk1 : i < j' + (getNode t j').childIndices.getD (k + 1) 0
      · rw [if_pos hBk1]
        rcases eq_or_ne (j' + (getNode t j').childIndices.getD k 0) i with
          hceq | hcne
        · rw [hceq, hsE]
          have hE : childPtr t j' k = i := by rw [hcpE]; omega
          rw [hE, hsent_t_i] at hstep
          omega
        · have hlt2 : j' + (getNode t j').childIndices.getD k 0 < i := by
            omega
          rw [hsL _ hlt2]
          have hσE : sentinel Dim t
              (j' + (getNode t j').childIndices.getD k 0) =
              sentinel Dim t (childPtr t j' k) := by
            rw [hcpE]
          rw [hσE, if_pos (show i <
              j' + (getNode t j').childIndices.getD k 0 +
                sentinel Dim t (childPtr t j' k) from by omega)]
          omega
      · rw [if_neg hBk1]
        have hlt2 : j' + (getNode t j').childIndices.getD k 0 < i := by
          rcases eq_or_ne (j' + (getNode t j').childIndices.getD k 0) i with
            hceq | hcne
          · exfalso
            have hE : childPtr t j' k = i := by rw [hcpE]; omega
            rw [hE, hsent_t_i] at hstep
            omega
          · omega
        rw [hsL _ hlt2]
        have hσE : sentinel Dim t
            (j' + (getNode t j').childIndices.getD k 0) =
            sentinel Dim t (childPtr t j' k) := by
          rw [hcpE]
        rw [hσE, if_neg (show ¬(i <
            j' + (getNode t j').childIndices.getD k 0 +
              sentinel Dim t (childPtr t j' k)) from by omega)]
        omega
  · rcases eq_or_ne j' i with he | hne
    · subst he
      have hgE : ∀ s, s < 2 ^ Dim + 1 →
          (getNode U j').childIndices.getD s 0 = s + 1 := fun s hs => by
        rw [hus]
        exact csF_eq_getD hs
      have hcpUE : childPtr U j' k =
          j' + (getNode U j').childIndices.getD k 0 := rfl
      rw [hcpUE, hgE k (by omega), hgE (k + 1) (by omega),
        hsC (j' + (k + 1)) (by omega) (by omega)]
    · rcases Nat.lt_or_ge j' (i + 1 + 2 ^ Dim) with hch2 | hsu
      · rw [hus, (csF_child_node (by omega) hch2).1] at hch
        simp at hch
      · have hj : j' - 2 ^ Dim < t.nodes.length := by omega
        have hcht : (getNode t (j' - 2 ^ Dim)).hasChildren = true := by
          rw [hus, (cs0_suffix_node hsu).1] at hch
          exact hch
        have hstep := S.ci_step _ hj hcht k hk
        have hpos := sk_ci_pos S hj hcht k (by omega)
        have hcpUE : childPtr U j' k =
            j' + (getNode U j').childIndices.getD k 0 := rfl
        have hciE : (getNode U j').childIndices =
            (getNode t (j' - 2 ^ Dim)).childIndices := by
          rw [hus]
          exact (cs0_suffix_node hsu).2.1
        rw [hcpUE, hciE,
          hsS (j' + (getNode t (j' - 2 ^ Dim)).childIndices.getD k 0)
            (by omega),
          show j' + (getNode t (j' - 2 ^ Dim)).childIndices.getD k 0 -
              2 ^ Dim = childPtr t (j' - 2 ^ Dim) k from by
            unfold childPtr
            omega]
        exact hstep

theorem csU_ci_len {Dim : Nat} {t : Orthtree α} (S : SkeletonValid Dim t)
    {i : Nat} (hi : i < t.nodes.length)
    {U : Orthtree α}
    (hULen : U.nodes.length = t.nodes.length + 2 ^ Dim)
    (hus : ∀ j', getNode U j' = csNodeF Dim t i 0 j') :
    ∀ j', j' < U.nodes.length →
    (getNode U j').childIndices.length = 2 ^ Dim + 1 := by
  intro j' hj'
  rw [hULen] at hj'
  rcases Nat.lt_or_ge j' i with hlt | hge
  · rw [hus]
    exact csF_lt_ci_len hlt
  · rcases eq_or_ne j' i with he | hne
    · subst he
      rw [hus]
      exact csF_eq_ci_len
    · rcases Nat.lt_or_ge j' (i + 1 + 2 ^ Dim) with hch2 | hsu
      · rw [hus, (csF_child_node (by omega) hch2).2.1,
          List.length_replicate]
      · rw [hus, (cs0_suffix_node hsu).2.1]
        exact S.ci_len _ (by omega)

theorem csU_depth_le {Dim : Nat} {t : Orthtree α} (S : SkeletonValid Dim t)
    {i : Nat} (hi : i < t.nodes.length)
    (hdepth : (getNode t i).depth < t.maxDepth)
    {U : Orthtree α}
    (hULen : U.nodes.length = t.nodes.length + 2 ^ Dim)
    (hUMax : U.maxDepth = t.maxDepth)
    (hus : ∀ j', getNode U j' = csNodeF Dim t i 0 j') :
    ∀ j', j' < U.nodes.length → (getNode U j').depth ≤ U.maxDepth := by
  intro j' hj'
  rw [hULen] at hj'
  rw [hUMax]
  rcases Nat.lt_or_ge j' i with hlt | hge
  · rw [hus, (csF_lt_fields hlt).2.2.2]
    exact S.depth_le j' (by omega)
  · rcases eq_or_ne j' i with he | hne
    · subst he
      rw [hus, (csF_eq_fields).2.2.2]
      exact S.depth_le j' (by omega)
    · rcases Nat.lt_or_ge j' (i + 1 + 2 ^ Dim) with hch2 | hsu
      · rw [hus, (csF_child_node (by omega) hch2).2.2.1]
        omega
      · rw [hus, (cs0_suffix_node hsu).2.2.2]
        exact S.depth_le _ (by omega)

theorem csU_no_children {Dim : Nat} {t : Orthtree α}
    (S : SkeletonValid Dim t) {i : Nat} (hi : i < t.nodes.length)
    {U : Orthtree α}
    (hULen : U.nodes.length = t.nodes.length + 2 ^ Dim)
    (hus : ∀ j', getNode U j' = csNodeF Dim t i 0 j') :
    ∀ j', j' < U.nodes.length → (getNode U j').hasChildren = false →
    (getNode U j').childIndices = List.replicate (2 ^ Dim + 1) 1 := by
  intro j' hj' hchf
  rw [hULen] at hj'
  rcases Nat.lt_or_ge j' i with hlt | hge
  · have hjlen : j' < t.nodes.length := by omega
    have hchf_t : (getNode t j').hasChildren = false := by
      rw [hus, (csF_lt_fields hlt).1] at hchf
      exact hchf
    have hrep := S.no_children j' hjlen hchf_t
    have hgd1 : ∀ s, (getNode t j').childIndices.getD s 0 ≤ 1 := by
      intro s
      rw [hrep, List.getD_eq_getElem?_getD, List.getElem?_replicate]
      by_cases hs2 : s < 2 ^ Dim + 1
      · rw [if_pos hs2]
        simp
      · rw [if_neg hs2]
        simp
    have hnode : getNode U j' = getNode t j' := by
      rw [hus]
      exact csNodeF_noop hlt (S.ci_len j' hjlen)
        (fun s h => absurd h.2 (by have := hgd1 s; omega))
    rw [hnode]
    exact hrep
  · rcases eq_or_ne j' i with he | hne
    · subst he
      rw [hus, (csF_eq_fields).1] at hchf
      simp at hchf
    · rcases Nat.lt_or_ge j' (i + 1 + 2 ^ Dim) with hch2 | hsu
      · rw [hus, (csF_child_node (by omega) hch2).2.1]
      · have hchf_t : (getNode t (j' - 2 ^ Dim)).hasChildren = false := by
          rw [hus, (cs0_suffix_node hsu).1] at hchf
          exact hchf
        rw [hus, (cs0_suffix_node hsu).2.1]
        exact S.no_children _ (by omega) hchf_t

theorem csU_ci_zero {Dim : Nat} {t : Orthtree α} (S : SkeletonValid Dim t)
    {i : Nat} (hi : i < t.nodes.length)
    {U : Orthtree α}
    (hULen : U.nodes.length = t.nodes.length + 2 ^ Dim)
    (hus : ∀ j', getNode U j' = csNodeF Dim t i 0 j') :
    ∀ j', j' < U.nodes.length → (getNode U j').hasChildren = true →
    (getNode U j').childIndices.getD 0 0 = 1 := by
  intro j' hj' hch
  rw [hULen] at hj'
  rcases Nat.lt_or_ge j' i with hlt | hge
  · have hjlen : j' < t.nodes.length := by omega
    have hcht : (getNode t j').hasChildren = true := by
      rw [hus, (csF_lt_fields hlt).1] at hch
      exact hch
    have hz := S.ci_zero j' hjlen hcht
    rw [hus, cs0_lt_getD hlt (Nat.succ_pos _), hz,
      if_neg (show ¬(i < j' + 1) by omega)]
  · rcases eq_or_ne j' i with he | hne
    · subst he
      rw [hus, csF_eq_getD (Nat.succ_pos _)]
    · rcases Nat.lt_or_ge j' (i + 1 + 2 ^ Dim) with hch2 | hsu
      · rw [hus, (csF_child_node (by omega) hch2).1] at hch
        simp at hch
      · have hcht : (getNode t (j' - 2 ^ Dim)).hasChildren = true := by
          rw [hus, (cs0_suffix_node hsu).1] at hch
          exact hch
        rw [hus, (cs0_suffix_node hsu).2.1]
        exact S.ci_zero _ (by omega) hcht

theorem csU_ci_lt {Dim : Nat} {t : Orthtree α} (S : SkeletonValid Dim t)
    {i : Nat} (hi : i < t.nodes.length)
    {U : Orthtree α}
    (hULen : U.nodes.length = t.nodes.length + 2 ^ Dim)
    (hus : ∀ j', getNode U j' = csNodeF Dim t i 0 j') :
    ∀ j', j' < U.nodes.length → (getNode U j').hasChildren = true →
    ∀ k, k < 2 ^ Dim →
    (getNode U j').childIndices.getD k 0 <
      (getNode U j').childIndices.getD (k + 1) 0 := by
  intro j' hj' hch k hk
  rw [hULen] at hj'
  rcases Nat.lt_or_ge j' i with hlt | hge
  · have hjlen : j' < t.nodes.length := by omega
    have hcht : (getNode t j').hasChildren = true := by
      rw [hus, (csF_lt_fields hlt).1] at hch
      exact hch
    have hltk := S.ci_lt j' hjlen hcht k hk
    rw [hus, cs0_lt_getD hlt (show k < 2 ^ Dim + 1 by omega),
      cs0_lt_getD hlt (show k + 1 < 2 ^ Dim + 1 by omega)]
    by_cases hBk : i < j' + (getNode t j').childIndices.getD k 0
    · rw [if_pos hBk, if_pos (show i < j' +
        (getNode t j').childIndices.getD (k + 1) 0 by omega)]
      omega
    · rw [if_neg hBk]
      by_cases hBk1 : i < j' + (getNode t j').childIndices.getD (k + 1) 0
      · rw [if_pos hBk1]
        omega
      · rw [if_neg hBk1]
        omega
  · rcases eq_or_ne j' i with he | hne
    · subst he
      rw [hus, csF_eq_getD (show k < 2 ^ Dim + 1 by omega),
        csF_eq_getD (show k + 1 < 2 ^ Dim + 1 by omega)]
      omega
    · rcases Nat.lt_or_ge j' (i + 1 + 2 ^ Dim) with hch2 | hsu
      · rw [hus, (csF_child_node (by omega) hch2).1] at hch
        simp at hch
      · have hcht : (getNode t (j' - 2 ^ Dim)).hasChildren = true := by
          rw [hus, (cs0_suffix_node hsu).1] at hch
          exact hch
        rw [hus, (cs0_suffix_node hsu).2.1]
        exact S.ci_lt _ (by omega) hcht k hk

theorem csU_sub_le {Dim : Nat} {t : Orthtree α} (S : SkeletonValid Dim t)
    {i : Nat} (hi : i < t.nodes.length)
    {U : Orthtree α}
    (hULen : U.nodes.length = t.nodes.length + 2 ^ Dim)
    (hus : ∀ j', getNode U j' = csNodeF Dim t i 0 j') :
    ∀ j', j' < U.nodes.length → (getNode U j').hasChildren = true →
    j' + sentinel Dim U j' ≤ U.nodes.length := by
  obtain ⟨hsL, hsE, hsC, hsS⟩ := csU_sentinel hus
  have h2p : 0 < 2 ^ Dim := Nat.pos_pow_of_pos Dim (by omega)
  intro j' hj' hch
  rw [hULen] at hj' ⊢
  rcases Nat.lt_or_ge j' i with hlt | hge
  · have hjlen : j' < t.nodes.length := by omega
    have hcht : (getNode t j').hasChildren = true := by
      rw [hus, (csF_lt_fields hlt).1] at hch
      exact hch
    have hsub := S.sub_le j' hjlen hcht
    rw [hsL j' hlt]
    by_cases hB : i < j' + sentinel Dim t j'
    · rw [if_pos hB]
      omega
    · rw [if_neg hB]
      omega
  · rcases eq_or_ne j' i with he | hne
    · subst he
      rw [hsE]
      omega
    · rcases Nat.lt_or_ge j' (i + 1 + 2 ^ Dim) with hch2 | hsu
      · rw [hus, (csF_child_node (by omega) hch2).1] at hch
        simp at hch
      · have hcht : (getNode t (j' - 2 ^ Dim)).hasChildren = true := by
          rw [hus, (cs0_suffix_node hsu).1] at hch
          exact hch
        have hsub := S.sub_le _ (show j' - 2 ^ Dim < t.nodes.length by
          omega) hcht
        rw [hsS j' hsu]
        omega

theorem csU_child_parentIndex {Dim : Nat} {t : Orthtree α}
    (S : SkeletonValid Dim t) {i : Nat} (hi : i < t.nodes.length)
    (hterm : (getNode t i).hasChildren = false)
    {U : Orthtree α}
    (hULen : U.nodes.length = t.nodes.length + 2 ^ Dim)
    (hus : ∀ j', getNode U j' = csNodeF Dim t i 0 j') :
    ∀ j', j' < U.nodes.length → (getNode U j').hasChildren = true →
    ∀ k, k < 2 ^ Dim →
    (getNode U (childPtr U j' k)).parentIndex =
      -((getNode U j').childIndices.getD k 0 : Int) := by
  have h2p : 0 < 2 ^ Dim := Nat.pos_pow_of_pos Dim (by omega)
  intro j' hj' hch k hk
  rw [hULen] at hj'
  rcases Nat.lt_or_ge j' i with hlt | hge
  · have hjlen : j' < t.nodes.length := by omega
    have hcht : (getNode t j').hasChildren = true := by
      rw [hus, (csF_lt_fields hlt).1] at hch
      exact hch
    have hcpE : childPtr t j' k =
        j' + (getNode t j').childIndices.getD k 0 := rfl
    have hck := sk_childPtr_lt S hjlen hcht k hk
    have hcp := S.child_parentIndex j' hjlen hcht k hk
    have hgU : (getNode U j').childIndices.getD k 0 =
        (if i < j' + (getNode t j').childIndices.getD k 0 then
          (getNode t j').childIndices.getD k 0 + 2 ^ Dim
        else (getNode t j').childIndices.getD k 0) := by
      rw [hus, cs0_lt_getD hlt (by omega)]
    by_cases hBk : i < j' + (getNode t j').childIndices.getD k 0
    · have hidx : childPtr U j' k = childPtr t j' k + 2 ^ Dim := by
        show j' + (getNode U j').childIndices.getD k 0 = _
        rw [hgU, if_pos hBk, hcpE]
        omega
      rw [hidx, hus (childPtr t j' k + 2 ^ Dim),
        cs0_suffix_parentIndex (show i + 1 + 2 ^ Dim ≤
          childPtr t j' k + 2 ^ Dim from by omega),
        show childPtr t j' k + 2 ^ Dim - 2 ^ Dim = childPtr t j' k from by
          omega,
        sk_parentIdx_childPtr S hjlen hcht k hk]
      have hcondT : j' ≤ i ∧ i < j' + sentinel Dim t j' := ⟨by omega, by
        have := sk_getD_le_sentinel S hjlen k (by omega)
        omega⟩
      rw [if_pos hcondT, hcp, hgU, if_pos hBk]
      push_cast
      ring
    · have hidx : childPtr U j' k = childPtr t j' k := by
        show j' + (getNode U j').childIndices.getD k 0 = _
        rw [hgU, if_neg hBk, hcpE]
      rw [hidx, hgU, if_neg hBk]
      rcases eq_or_ne (childPtr t j' k) i with hceq | hcne
      · rw [hceq, hus i, (csF_eq_fields).2.1]
        rw [hceq] at hcp
        exact hcp
      · have hclt : childPtr t j' k < i := by omega
        rw [hus (childPtr t j' k), (csF_lt_fields hclt).2.1]
        exact hcp
  · rcases eq_or_ne j' i with he | hne
    · subst he
      have hgU : (getNode U j').childIndices.getD k 0 = k + 1 := by
        rw [hus]
        exact csF_eq_getD (by omega)
      have hidx : childPtr U j' k = j' + (k + 1) := by
        show j' + (getNode U j').childIndices.getD k 0 = _
        rw [hgU]
      rw [hidx, hus (j' + (k + 1)),
        (csF_child_node (by omega) (by omega)).2.2.2.1, hgU]
      omega
    · rcases Nat.lt_or_ge j' (i + 1 + 2 ^ Dim) with hch2 | hsu
      · rw [hus, (csF_child_node (by omega) hch2).1] at hch
        simp at hch
      · have hj : j' - 2 ^ Dim < t.nodes.length := by omega
        have hcht : (getNode t (j' - 2 ^ Dim)).hasChildren = true := by
          rw [hus, (cs0_suffix_node hsu).1] at hch
          exact hch
        have hgU : (getNode U j').childIndices.getD k 0 =
            (getNode t (j' - 2 ^ Dim)).childIndices.getD k 0 := by
          rw [hus, (cs0_suffix_node hsu).2.1]
        have hjc := sk_lt_childPtr S hj hcht k (le_of_lt hk)
        have hcpE2 : childPtr t (j' - 2 ^ Dim) k =
            (j' - 2 ^ Dim) + (getNode t (j' - 2 ^ Dim)).childIndices.getD
              k 0 := rfl
        have hidx : childPtr U j' k =
            childPtr t (j' - 2 ^ Dim) k + 2 ^ Dim := by
          show j' + (getNode U j').childIndices.getD k 0 = _
          rw [hgU, hcpE2]
          omega
        rw [hidx, hus (childPtr t (j' - 2 ^ Dim) k + 2 ^ Dim),
          cs0_suffix_parentIndex (show i + 1 + 2 ^ Dim ≤
            childPtr t (j' - 2 ^ Dim) k + 2 ^ Dim from by omega),
          show childPtr t (j' - 2 ^ Dim) k + 2 ^ Dim - 2 ^ Dim =
            childPtr t (j' - 2 ^ Dim) k from by omega,
          sk_parentIdx_childPtr S hj hcht k hk]
        have hncond : ¬((j' - 2 ^ Dim) ≤ i ∧
            i < (j' - 2 ^ Dim) + sentinel Dim t (j' - 2 ^ Dim)) :=
          fun h => absurd h.1 (by omega)
        rw [if_neg hncond, hgU]
        exact S.child_parentIndex _ hj hcht k hk

theorem csU_child_sibling {Dim : Nat} {t : Orthtree α}
    (S : SkeletonValid Dim t) {i : Nat} (hi : i < t.nodes.length)
    {U : Orthtree α}
    (hULen : U.nodes.length = t.nodes.length + 2 ^ Dim)
    (hus : ∀ j', getNode U j' = csNodeF Dim t i 0 j') :
    ∀ j', j' < U.nodes.length → (getNode U j').hasChildren = true →
    ∀ k, k < 2 ^ Dim →
    (getNode U (childPtr U j' k)).siblingIndex = k := by
  have h2p : 0 < 2 ^ Dim := Nat.pos_pow_of_pos Dim (by omega)
  intro j' hj' hch k hk
  rw [hULen] at hj'
  rcases Nat.lt_or_ge j' i with hlt | hge
  · have hjlen : j' < t.nodes.length := by omega
    have hcht : (getNode t j').hasChildren = true := by
      rw [hus, (csF_lt_fields hlt).1] at hch
      exact hch
    have hcpE : childPtr t j' k =
        j' + (getNode t j').childIndices.getD k 0 := rfl
    have hck := sk_childPtr_lt S hjlen hcht k hk
    have hcs := S.child_sibling j' hjlen hcht k hk
    have hgU : (getNode U j').childIndices.getD k 0 =
        (if i < j' + (getNode t j').childIndices.getD k 0 then
          (getNode t j').childIndices.getD k 0 + 2 ^ Dim
        else (getNode t j').childIndices.getD k 0) := by
      rw [hus, cs0_lt_getD hlt (by omega)]
    by_cases hBk : i < j' + (getNode t j').childIndices.getD k 0
    · have hidx : childPtr U j' k = childPtr t j' k + 2 ^ Dim := by
        show j' + (getNode U j').childIndices.getD k 0 = _
        rw [hgU, if_pos hBk, hcpE]
        omega
      rw [hidx, hus (childPtr t j' k + 2 ^ Dim),
        (cs0_suffix_node (show i + 1 + 2 ^ Dim ≤
          childPtr t j' k + 2 ^ Dim from by omega)).2.2.1,
        show childPtr t j' k + 2 ^ Dim - 2 ^ Dim = childPtr t j' k from by
          omega]
      exact hcs
    · have hidx : childPtr U j' k = childPtr t j' k := by
        show j' + (getNode U j').childIndices.getD k 0 = _
        rw [hgU, if_neg hBk, hcpE]
      rw [hidx]
      rcases eq_or_ne (childPtr t j' k) i with hceq | hcne
      · rw [hceq, hus i, (csF_eq_fields).2.2.1]
        rw [hceq] at hcs
        exact hcs
      · have hclt : childPtr t j' k < i := by omega
        rw [hus (childPtr t j' k), (csF_lt_fields hclt).2.2.1]
        exact hcs
  · rcases eq_or_ne j' i with he | hne
    · subst he
      have hgU : (getNode U j').childIndices.getD k 0 = k + 1 := by
        rw [hus]
        exact csF_eq_getD (by omega)
      have hidx : childPtr U j' k = j' + (k + 1) := by
        show j' + (getNode U j').childIndices.getD k 0 = _
        rw [hgU]
      rw [hidx, hus (j' + (k + 1)),
        (csF_child_node (by omega) (by omega)).2.2.2.2]
      omega
    · rcases Nat.lt_or_ge j' (i + 1 + 2 ^ Dim) with hch2 | hsu
      · rw [hus, (csF_child_node (by omega) hch2).1] at hch
        simp at hch
      · have hj : j' - 2 ^ Dim < t.nodes.length := by omega
        have hcht : (getNode t (j' - 2 ^ Dim)).hasChildren = true := by
          rw [hus, (cs0_suffix_node hsu).1] at hch
          exact hch
        have hgU : (getNode U j').childIndices.getD k 0 =
            (getNode t (j' - 2 ^ Dim)).childIndices.getD k 0 := by
          rw [hus, (cs0_suffix_node hsu).2.1]
        have hjc := sk_lt_childPtr S hj hcht k (le_of_lt hk)
        have hcpE2 : childPtr t (j' - 2 ^ Dim) k =
            (j' - 2 ^ Dim) + (getNode t (j' - 2 ^ Dim)).childIndices.getD
              k 0 := rfl
        have hidx : childPtr U j' k =
            childPtr t (j' - 2 ^ Dim) k + 2 ^ Dim := by
          show j' + (getNode U j').childIndices.getD k 0 = _
          rw [hgU, hcpE2]
          omega
        rw [hidx, hus (childPtr t (j' - 2 ^ Dim) k + 2 ^ Dim),
          (cs0_suffix_node (show i + 1 + 2 ^ Dim ≤
            childPtr t (j' - 2 ^ Dim) k + 2 ^ Dim from by omega)).2.2.1,
          show childPtr t (j' - 2 ^ Dim) k + 2 ^ Dim - 2 ^ Dim =
            childPtr t (j' - 2 ^ Dim) k from by omega]
        exact S.child_sibling _ hj hcht k hk

theorem csU_child_depth {Dim : Nat} {t : Orthtree α}
    (S : SkeletonValid Dim t) {i : Nat} (hi : i < t.nodes.length)
    {U : Orthtree α}
    (hULen : U.nodes.length = t.nodes.length + 2 ^ Dim)
    (hus : ∀ j', getNode U j' = csNodeF Dim t i 0 j') :
    ∀ j', j' < U.nodes.length → (getNode U j').hasChildren = true →
    ∀ k, k < 2 ^ Dim →
    (getNode U (childPtr U j' k)).depth = (getNode U j').depth + 1 := by
  have h2p : 0 < 2 ^ Dim := Nat.pos_pow_of_pos Dim (by omega)
  intro j' hj' hch k hk
  rw [hULen] at hj'
  rcases Nat.lt_or_ge j' i with hlt | hge
  · have hjlen : j' < t.nodes.length := by omega
    have hcht : (getNode t j').hasChildren = true := by
      rw [hus, (csF_lt_fields hlt).1] at hch
      exact hch
    have hcpE : childPtr t j' k =
        j' + (getNode t j').childIndices.getD k 0 := rfl
    have hck := sk_childPtr_lt S hjlen hcht k hk
    have hcd := S.child_depth j' hjlen hcht k hk
    have hdU : (getNode U j').depth = (getNode t j').depth := by
      rw [hus]
      exact (csF_lt_fields hlt).2.2.2
    have hgU : (getNode U j').childIndices.getD k 0 =
        (if i < j' + (getNode t j').childIndices.getD k 0 then
          (getNode t j').childIndices.getD k 0 + 2 ^ Dim
        else (getNode t j').childIndices.getD k 0) := by
      rw [hus, cs0_lt_getD hlt (by omega)]
    by_cases hBk : i < j' + (getNode t j').childIndices.getD k 0
    · have hidx : childPtr U j' k = childPtr t j' k + 2 ^ Dim := by
        show j' + (getNode U j').childIndices.getD k 0 = _
        rw [hgU, if_pos hBk, hcpE]
        omega
      rw [hidx, hus (childPtr t j' k + 2 ^ Dim),
        (cs0_suffix_node (show i + 1 + 2 ^ Dim ≤
          childPtr t j' k + 2 ^ Dim from by omega)).2.2.2,
        show childPtr t j' k + 2 ^ Dim - 2 ^ Dim = childPtr t j' k from by
          omega, hdU]
      exact hcd
    · have hidx : childPtr U j' k = childPtr t j' k := by
        show j' + (getNode U j').childIndices.getD k 0 = _
        rw [hgU, if_neg hBk, hcpE]
      rw [hidx, hdU]
      rcases eq_or_ne (childPtr t j' k) i with hceq | hcne
      · rw [hceq, hus i, (csF_eq_fields).2.2.2]
        rw [hceq] at hcd
        exact hcd
      · have hclt : childPtr t j' k < i := by omega
        rw [hus (childPtr t j' k), (csF_lt_fields hclt).2.2.2]
        exact hcd
  · rcases eq_or_ne j' i with he | hne
    · subst he
      have hgU : (getNode U j').childIndices.getD k 0 = k + 1 := by
        rw [hus]
        exact csF_eq_getD (by omega)
      have hidx : childPtr U j' k = j' + (k + 1) := by
        show j' + (getNode U j').childIndices.getD k 0 = _
        rw [hgU]
      rw [hidx, hus (j' + (k + 1)),
        (csF_child_node (by omega) (by omega)).2.2.1, hus j',
        (csF_eq_fields).2.2.2]
    · rcases Nat.lt_or_ge j' (i + 1 + 2 ^ Dim) with hch2 | hsu
      · rw [hus, (csF_child_node (by omega) hch2).1] at hch
        simp at hch
      · have hj : j' - 2 ^ Dim < t.nodes.length := by omega
        have hcht : (getNode t (j' - 2 ^ Dim)).hasChildren = true := by
          rw [hus, (cs0_suffix_node hsu).1] at hch
          exact hch
        have hgU : (getNode U j').childIndices.getD k 0 =
            (getNode t (j' - 2 ^ Dim)).childIndices.getD k 0 := by
          rw [hus, (cs0_suffix_node hsu).2.1]
        have hjc := sk_lt_childPtr S hj hcht k (le_of_lt hk)
        have hcpE2 : childPtr t (j' - 2 ^ Dim) k =
            (j' - 2 ^ Dim) + (getNode t (j' - 2 ^ Dim)).childIndices.getD
              k 0 := rfl
        have hidx : childPtr U j' k =
            childPtr t (j' - 2 ^ Dim) k + 2 ^ Dim := by
          show j' + (getNode U j').childIndices.getD k 0 = _
          rw [hgU, hcpE2]
          omega
        rw [hidx, hus (childPtr t (j' - 2 ^ Dim) k + 2 ^ Dim),
          (cs0_suffix_node (show i + 1 + 2 ^ Dim ≤
            childPtr t (j' - 2 ^ Dim) k + 2 ^ Dim from by omega)).2.2.2,
          show childPtr t (j' - 2 ^ Dim) k + 2 ^ Dim - 2 ^ Dim =
            childPtr t (j' - 2 ^ Dim) k from by omega,
          hus j', (cs0_suffix_node hsu).2.2.2]
        exact S.child_depth _ hj hcht k hk

theorem csU_parent_ex {Dim : Nat} {t : Orthtree α}
    (S : SkeletonValid Dim t) {i : Nat} (hi : i < t.nodes.length)
    (hterm : (getNode t i).hasChildren = false)
    {U : Orthtree α}
    (hULen : U.nodes.length = t.nodes.length + 2 ^ Dim)
    (hus : ∀ j', getNode U j' = csNodeF Dim t i 0 j') :
    ∀ j, j < U.nodes.length → j ≠ 0 →
    ∃ p, p < U.nodes.length ∧ ∃ k, k < 2 ^ Dim ∧
      (getNode U p).hasChildren = true ∧ j = childPtr U p k := by
  have h2p : 0 < 2 ^ Dim := Nat.pos_pow_of_pos Dim (by omega)
  intro j hj hj0
  rw [hULen] at hj
  rcases Nat.lt_or_ge j (i + 1) with hle | hgt
  · obtain ⟨hplen2, hpc2, hsib2, hcs2, hplt2⟩ :=
      sk_parent_slot S (show j < t.nodes.length by omega) hj0
    have hpE : j = parentIdx t j +
        (getNode t (parentIdx t j)).childIndices.getD
          (getNode t j).siblingIndex 0 := by
      conv_lhs => rw [hcs2]
      rfl
    refine ⟨parentIdx t j, by omega, (getNode t j).siblingIndex, hsib2,
      ?_, ?_⟩
    · rw [hus, (csF_lt_fields (show parentIdx t j < i by omega)).1]
      exact hpc2
    · show j = parentIdx t j +
        (getNode U (parentIdx t j)).childIndices.getD
          (getNode t j).siblingIndex 0
      rw [hus, cs0_lt_getD (show parentIdx t j < i by omega) (by omega)]
      rw [if_neg (show ¬(i < parentIdx t j +
        (getNode t (parentIdx t j)).childIndices.getD
          (getNode t j).siblingIndex 0) from by omega)]
      exact hpE
  · rcases Nat.lt_or_ge j (i + 1 + 2 ^ Dim) with hch2 | hsu
    · refine ⟨i, by omega, j - (i + 1), by omega, ?_, ?_⟩
      · rw [hus, (csF_eq_fields).1]
      · show j = i + (getNode U i).childIndices.getD (j - (i + 1)) 0
        rw [hus, csF_eq_getD (by omega)]
        omega
    · have hjlen : j - 2 ^ Dim < t.nodes.length := by omega
      obtain ⟨hplen2, hpc2, hsib2, hcs2, hplt2⟩ :=
        sk_parent_slot S hjlen (by omega)
      have hpE : j - 2 ^ Dim = parentIdx t (j - 2 ^ Dim) +
          (getNode t (parentIdx t (j - 2 ^ Dim))).childIndices.getD
            (getNode t (j - 2 ^ Dim)).siblingIndex 0 := by
        conv_lhs => rw [hcs2]
        rfl
      rcases Nat.lt_or_ge (parentIdx t (j - 2 ^ Dim)) i with hplt3 | hpge
      · refine ⟨parentIdx t (j - 2 ^ Dim), by omega,
          (getNode t (j - 2 ^ Dim)).siblingIndex, hsib2, ?_, ?_⟩
        · rw [hus, (csF_lt_fields hplt3).1]
          exact hpc2
        · show j = parentIdx t (j - 2 ^ Dim) +
            (getNode U (parentIdx t (j - 2 ^ Dim))).childIndices.getD
              (getNode t (j - 2 ^ Dim)).siblingIndex 0
          rw [hus, cs0_lt_getD hplt3 (by omega)]
          rw [if_pos (show i < parentIdx t (j - 2 ^ Dim) +
            (getNode t (parentIdx t (j - 2 ^ Dim))).childIndices.getD
              (getNode t (j - 2 ^ Dim)).siblingIndex 0 from by omega)]
          omega
      · have hpne : parentIdx t (j - 2 ^ Dim) ≠ i := by
          intro he2
          rw [he2] at hpc2
          exact absurd hpc2 (by simp [hterm])
        refine ⟨parentIdx t (j - 2 ^ Dim) + 2 ^ Dim, by omega,
          (getNode t (j - 2 ^ Dim)).siblingIndex, hsib2, ?_, ?_⟩
        · rw [hus, (cs0_suffix_node (show i + 1 + 2 ^ Dim ≤
            parentIdx t (j - 2 ^ Dim) + 2 ^ Dim from by omega)).1,
            show parentIdx t (j - 2 ^ Dim) + 2 ^ Dim - 2 ^ Dim =
              parentIdx t (j - 2 ^ Dim) from by omega]
          exact hpc2
        · show j = parentIdx t (j - 2 ^ Dim) + 2 ^ Dim +
            (getNode U (parentIdx t (j - 2 ^ Dim) +
              2 ^ Dim)).childIndices.getD
              (getNode t (j - 2 ^ Dim)).siblingIndex 0
          rw [hus, (cs0_suffix_node (show i + 1 + 2 ^ Dim ≤
            parentIdx t (j - 2 ^ Dim) + 2 ^ Dim from by omega)).2.1,
            show parentIdx t (j - 2 ^ Dim) + 2 ^ Dim - 2 ^ Dim =
              parentIdx t (j - 2 ^ Dim) from by omega]
          omega

/-- The skeleton-creation composite preserves structural validity of the
node skeleton. -/
theorem skeletonValid_cs {Dim : Nat} {t : Orthtree α}
    (S : SkeletonValid Dim t) {i : Nat} (hi : i < t.nodes.length)
    (hterm : (getNode t i).hasChildren = false)
    (hsz : t.nodes.length + 2 ^ Dim < 2 ^ 64)
    (hdepth : (getNode t i).depth < t.maxDepth)
    {U : Orthtree α} (hU : csState Dim t i 0 U) :
    SkeletonValid Dim U := by
  obtain ⟨hULen, hULeafs, hUCap, hUMax, hUAuto, hus⟩ := hU
  have h2p : 0 < 2 ^ Dim := Nat.pos_pow_of_pos Dim (by omega)
  have hlp := S.len_pos
  exact {
    dim_pos := S.dim_pos
    len_pos := by rw [hULen]; omega
    nodes_lt := by rw [hULen]; exact hsz
    ci_len := csU_ci_len S hi hULen hus
    depth_le := csU_depth_le S hi (by omega) hULen hUMax hus
    no_children := csU_no_children S hi hULen hus
    ci_zero := csU_ci_zero S hi hULen hus
    ci_step := csU_ci_step S hi hterm hULen hus
    ci_lt := csU_ci_lt S hi hULen hus
    sub_le := csU_sub_le S hi hULen hus
    child_parentIndex := csU_child_parentIndex S hi hterm hULen hus
    child_sibling := csU_child_sibling S hi hULen hus
    child_depth := csU_child_depth S hi hULen hus
    parent_ex := csU_parent_ex S hi hterm hULen hus }

theorem sk_sentinel_terminal {Dim : Nat} {t : Orthtree α}
    (S : SkeletonValid Dim t) {x : Nat} (hx : x < t.nodes.length)
    (hterm : (getNode t x).hasChildren = false) :
    sentinel Dim t x = 1 := by
  unfold sentinel
  rw [S.no_children x hx hterm]
  simp [List.getD_eq_getElem?_getD, List.getElem?_replicate]

/-- Every node lies inside the root's subtree interval. -/
theorem sk_root_cover {Dim : Nat} {t : Orthtree α}
    (S : SkeletonValid Dim t) :
    ∀ j, j < t.nodes.length → j < sentinel Dim t 0 := by
  intro j
  induction j using Nat.strong_induction_on with
  | _ j ih =>
  intro hj
  rcases eq_or_ne j 0 with h0 | h0
  · rw [h0]
    exact sk_sentinel_pos S (by omega)
  · obtain ⟨hplen, hpc, hsiblt, hcseq, hplt⟩ := sk_parent_slot S hj h0
    have hih := ih (parentIdx t j) hplt hplen
    have hsub := (sk_subtree_sub S (sentinel Dim t 0) 0 (parentIdx t j)
      (le_refl _) S.len_pos (Nat.zero_le _) (by omega)).2
    have hcp := sk_child_in_parent S hplen hpc _ hsiblt
    rw [← hcseq] at hcp
    have hsp := sk_sentinel_pos S hj
    omega

/-- The leaf range of child `k` starts no earlier than the parent's. -/
theorem leaf_child_lo {Dim : Nat} {t : Orthtree α} (V : Valid Dim t)
    {q : Nat} (hq : q < t.nodes.length)
    (hqc : (getNode t q).hasChildren = true) :
    ∀ k, k < 2 ^ Dim →
    (getNode t q).leafIndex ≤ (getNode t (childPtr t q k)).leafIndex := by
  intro k
  induction k with
  | zero =>
    intro hk
    rw [V.child_leafIndex0 q hq hqc]
  | succ m ihm =>
    intro hk
    have hstep := V.child_leaf_step q hq hqc m (by omega)
    rw [if_pos hk] at hstep
    have := ihm (by omega)
    omega

/-- The leaf range of child `k` ends no later than the parent's. -/
theorem leaf_child_hi {Dim : Nat} {t : Orthtree α} (V : Valid Dim t)
    {q : Nat} (hq : q < t.nodes.length)
    (hqc : (getNode t q).hasChildren = true) :
    ∀ d k, k < 2 ^ Dim → 2 ^ Dim - k ≤ d →
    (getNode t (childPtr t q k)).leafIndex +
        (getNode t (childPtr t q k)).leafCount ≤
      (getNode t q).leafIndex + (getNode t q).leafCount := by
  intro d
  induction d with
  | zero =>
    intro k hk hd
    omega
  | succ m ihm =>
    intro k hk hd
    have hstep := V.child_leaf_step q hq hqc k hk
    by_cases hk1 : k + 1 < 2 ^ Dim
    · rw [if_pos hk1] at hstep
      have := ihm (k + 1) hk1 (by omega)
      omega
    · rw [if_neg hk1] at hstep
      omega

/-- Later siblings have later leaf ranges. -/
theorem leaf_child_mono {Dim : Nat} {t : Orthtree α} (V : Valid Dim t)
    {q : Nat} (hq : q < t.nodes.length)
    (hqc : (getNode t q).hasChildren = true) :
    ∀ k k', k < k' → k' < 2 ^ Dim →
    (getNode t (childPtr t q k)).leafIndex +
        (getNode t (childPtr t q k)).leafCount ≤
      (getNode t (childPtr t q k')).leafIndex := by
  intro k k' hkk
  induction k' with
  | zero =>
    intro hk'
    omega
  | succ m ihm =>
    intro hk'
    have hstep := V.child_leaf_step q hq hqc m (by omega)
    rw [if_pos hk'] at hstep
    rcases Nat.lt_or_ge k m with h | h
    · have := ihm h (by omega)
      omega
    · have hkm : k = m := by omega
      rw [hkm]
      omega

/-- Leaf ranges are nested along subtrees: a node inside `q`'s subtree
interval has its leaf range inside `q`'s. -/
theorem leaf_sub {Dim : Nat} {t : Orthtree α} (V : Valid Dim t) :
    ∀ n q j, sentinel Dim t q ≤ n → q < t.nodes.length → q ≤ j →
    j < q + sentinel Dim t q →
    (getNode t q).leafIndex ≤ (getNode t j).leafIndex ∧
    (getNode t j).leafIndex + (getNode t j).leafCount ≤
      (getNode t q).leafIndex + (getNode t q).leafCount := by
  have S := V.skel
  intro n
  induction n with
  | zero =>
    intro q j hn hq h1 h2
    have := sk_sentinel_pos S hq
    omega
  | succ m ih =>
    intro q j hn hq h1 h2
    rcases eq_or_ne j q with he | hne
    · rw [he]
      exact ⟨le_refl _, le_refl _⟩
    · have hqc : (getNode t q).hasChildren = true := by
        by_contra hcc
        have hs := sk_sentinel_terminal S hq (by simpa using hcc)
        omega
      obtain ⟨k, hk, hb1, hb2⟩ := sk_child_bracket S hq hqc (by omega) h2
      have hclt := sk_childPtr_lt S hq hqc k hk
      have hsm : sentinel Dim t (childPtr t q k) ≤ m := by
        have hgt := sk_lt_childPtr S hq hqc k (le_of_lt hk)
        have hcsub : childPtr t q k + sentinel Dim t (childPtr t q k) ≤
            q + sentinel Dim t q := sk_child_in_parent S hq hqc k hk
        omega
      obtain ⟨hl, hh⟩ := ih (childPtr t q k) j hsm hclt hb1 hb2
      have hlo := leaf_child_lo V hq hqc k hk
      have hhi := leaf_child_hi V hq hqc (2 ^ Dim) k hk (by omega)
      exact ⟨le_trans hlo hl, le_trans hh hhi⟩

/-- Nodes on disjoint subtrees have disjoint leaf ranges. -/
theorem leaf_disjoint_in {Dim : Nat} {t : Orthtree α} (V : Valid Dim t) :
    ∀ n q a b, sentinel Dim t q ≤ n → q < t.nodes.length →
    q ≤ a → a < q + sentinel Dim t q →
    q ≤ b → b < q + sentinel Dim t q →
    ¬(a ≤ b ∧ b < a + sentinel Dim t a) →
    ¬(b ≤ a ∧ a < b + sentinel Dim t b) →
    (getNode t a).leafIndex + (getNode t a).leafCount ≤
      (getNode t b).leafIndex ∨
    (getNode t b).leafIndex + (getNode t b).leafCount ≤
      (getNode t a).leafIndex := by
  have S := V.skel
  intro n
  induction n with
  | zero =>
    intro q a b hn hq _ _ _ _ _ _
    have := sk_sentinel_pos S hq
    omega
  | succ m ih =>
    intro q a b hn hq ha1 ha2 hb1 hb2 hnab hnba
    have hsa := sk_sentinel_pos S (show a < t.nodes.length by
      exact (sk_subtree_sub S _ q a (le_refl _) hq ha1 ha2).1)
    have hsb := sk_sentinel_pos S (show b < t.nodes.length by
      exact (sk_subtree_sub S _ q b (le_refl _) hq hb1 hb2).1)
    have hqa : q ≠ a := by
      intro he
      rw [← he] at hnab
      exact hnab ⟨hb1, hb2⟩
    have hqb : q ≠ b := by
      intro he
      rw [← he] at hnba
      exact hnba ⟨ha1, ha2⟩
    have hqc : (getNode t q).hasChildren = true := by
      by_contra hcc
      have hs := sk_sentinel_terminal S hq (by simpa using hcc)
      omega
    obtain ⟨k, hk, hak1, hak2⟩ := sk_child_bracket S hq hqc (by omega) ha2
    obtain ⟨k', hk', hbk1, hbk2⟩ := sk_child_bracket S hq hqc (by omega) hb2
    have hclt := sk_childPtr_lt S hq hqc k hk
    have hclt' := sk_childPtr_lt S hq hqc k' hk'
    rcases Nat.lt_trichotomy k k' with hlt | heq | hgt
    · left
      have h1 := (leaf_sub V _ _ a (le_refl _) hclt hak1 hak2).2
      have h2 := (leaf_sub V _ _ b (le_refl _) hclt' hbk1 hbk2).1
      have h3 := leaf_child_mono V hq hqc k k' hlt hk'
      omega
    · rw [← heq] at hbk1 hbk2
      have hsm : sentinel Dim t (childPtr t q k) ≤ m := by
        have hgt2 := sk_lt_childPtr S hq hqc k (le_of_lt hk)
        have hcsub := sk_child_in_parent S hq hqc k hk
        omega
      exact ih (childPtr t q k) a b hsm hclt hak1 hak2 hbk1 hbk2 hnab hnba
    · right
      have h1 := (leaf_sub V _ _ b (le_refl _) hclt' hbk1 hbk2).2
      have h2 := (leaf_sub V _ _ a (le_refl _) hclt hak1 hak2).1
      have h3 := leaf_child_mono V hq hqc k' k hgt hk
      omega

/-- Distinct terminal nodes have disjoint leaf ranges. -/
theorem terminal_leaf_disjoint {Dim : Nat} {t : Orthtree α}
    (V : Valid Dim t) {a b : Nat} (ha : a < t.nodes.length)
    (hb : b < t.nodes.length) (hab : a ≠ b)
    (hta : (getNode t a).hasChildren = false)
    (htb : (getNode t b).hasChildren = false) :
    (getNode t a).leafIndex + (getNode t a).leafCount ≤
      (getNode t b).leafIndex ∨
    (getNode t b).leafIndex + (getNode t b).leafCount ≤
      (getNode t a).leafIndex := by
  have S := V.skel
  have hsa := sk_sentinel_terminal S ha hta
  have hsb := sk_sentinel_terminal S hb htb
  have hra := sk_root_cover S a ha
  have hrb := sk_root_cover S b hb
  exact leaf_disjoint_in V (sentinel Dim t 0) 0 a b (le_refl _) S.len_pos
    (Nat.zero_le _) (by omega) (Nat.zero_le _) (by omega)
    (by intro h; omega) (by intro h; omega)

theorem sum_map_range_succ (f : Nat → Nat) (k : Nat) :
    ((List.range (k + 1)).map f).sum = ((List.range k).map f).sum + f k := by
  rw [List.range_succ, List.map_append, List.sum_append]
  simp

theorem sum_map_range_le (f : Nat → Nat) : ∀ n k, k ≤ n →
    ((List.range k).map f).sum ≤ ((List.range n).map f).sum := by
  intro n
  induction n with
  | zero =>
    intro k hk
    rw [Nat.le_zero.mp hk]
  | succ m ih =>
    intro k hk
    rcases eq_or_ne k (m + 1) with he | hne
    · rw [he]
    · have := ih k (by omega)
      rw [sum_map_range_succ]
      omega

/-- Prepending an element to exactly one bucket permutes the flattening by
a cons. -/
theorem flatten_cons_bucket {β : Type} (x : β) (g : Nat → List β)
    (fx : Nat) :
    ∀ L : List Nat, L.Nodup → fx ∈ L →
    ((L.map (fun k => if fx = k then x :: g k else g k)).flatten).Perm
      (x :: (L.map g).flatten) := by
  intro L
  induction L with
  | nil =>
    intro _ h
    exact absurd h (List.not_mem_nil fx)
  | cons a L' ih =>
    intro hnd hmem
    simp only [List.map_cons, List.flatten_cons]
    rcases eq_or_ne fx a with he | hne
    · have hfa : fx ∉ L' := by
        rw [he]
        exact (List.nodup_cons.mp hnd).1
      have hmap : L'.map (fun k => if fx = k then x :: g k else g k) =
          L'.map g :=
        List.map_congr_left (fun b hb =>
          if_neg (fun hc => hfa (by rw [hc]; exact hb)))
      rw [if_pos he, hmap, List.cons_append]
    · rw [if_neg hne]
      have hx := ih (List.nodup_cons.mp hnd).2
        (by
          rcases List.mem_cons.mp hmem with h | h
          · exact absurd h hne
          · exact h)
      exact ((hx).append_left (g a)).trans List.perm_middle

/-- Bucketing a list by a key below `n` and flattening permutes the
list. -/
theorem flatten_filter_perm {β : Type} (f : β → Nat) :
    ∀ (l : List β) (n : Nat), (∀ x ∈ l, f x < n) →
    (((List.range n).map (fun k =>
      l.filter (fun x => decide (f x = k)))).flatten).Perm l := by
  intro l
  induction l with
  | nil =>
    intro n _
    have hmap : (List.range n).map (fun k =>
        ([] : List β).filter (fun x => decide (f x = k))) =
        (List.range n).map (fun _ => ([] : List β)) :=
      List.map_congr_left (fun k _ => rfl)
    rw [hmap]
    have hflat : ∀ L : List Nat,
        ((L.map (fun _ => ([] : List β))).flatten) = [] := by
      intro L
      induction L with
      | nil => rfl
      | cons a L ihh => simpa using ihh
    rw [hflat]
  | cons x xs ihl =>
    intro n hf
    have hx := hf x (by simp)
    have hmem : f x ∈ List.range n := List.mem_range.mpr hx
    have hnd := List.nodup_range n
    have hcongr : (List.range n).map (fun k =>
        (x :: xs).filter (fun y => decide (f y = k))) =
        (List.range n).map (fun k =>
          if f x = k then x :: xs.filter (fun y => decide (f y = k))
          else xs.filter (fun y => decide (f y = k))) := by
      apply List.map_congr_left
      intro k _
      rw [List.filter_cons]
      by_cases he : f x = k
      · rw [if_pos (by simp [he]), if_pos he]
      · rw [if_neg (by simp [he]), if_neg he]
    rw [hcongr]
    exact (flatten_cons_bucket x
      (fun k => xs.filter (fun y => decide (f y = k))) (f x) (List.range n)
      hnd hmem).trans ((ihl n (fun y hy => hf y (by simp [hy]))).cons x)

/-- Indexing into a flattened bucket list: position (bucket offset sum) +
`r` of the flattening is entry `r` of bucket `k`. -/
theorem flatten_getD_bucket {β : Type} (x : β) :
    ∀ (Ls : List (List β)) (k r : Nat), k < Ls.length →
    r < (Ls.getD k []).length →
    Ls.flatten.getD (((Ls.take k).map List.length).sum + r) x =
      (Ls.getD k []).getD r x := by
  intro Ls
  induction Ls with
  | nil =>
    intro k r hk hr
    simp at hk
  | cons l Ls' ih =>
    intro k r hk hr
    cases k with
    | zero =>
      rw [List.flatten_cons]
      have hrl : r < l.length := hr
      rw [List.getD_eq_getElem?_getD]
      rw [show (((l :: Ls').take 0).map List.length).sum + r = r from by
        rw [List.take_zero]
        simp]
      rw [List.getElem?_append_left hrl, ← List.getD_eq_getElem?_getD]
      rfl
    | succ k' =>
      rw [List.flatten_cons]
      have hsum : (((l :: Ls').take (k' + 1)).map List.length).sum =
          l.length + ((Ls'.take k').map List.length).sum := by
        rw [List.take_succ_cons, List.map_cons, List.sum_cons]
      rw [hsum, List.getD_eq_getElem?_getD,
        List.getElem?_append_right (by omega),
        show l.length + ((Ls'.take k').map List.length).sum + r - l.length =
          ((Ls'.take k').map List.length).sum + r from by omega,
        ← List.getD_eq_getElem?_getD]
      exact ih k' r (by simp at hk; omega) hr

theorem containsPoint_fields_congr (Dim : Nat) {n n' : NodeInternal}
    (hp : n.position = n'.position) (hd : n.dimensions = n'.dimensions)
    (p : Vec) : containsPoint Dim n p = containsPoint Dim n' p := by
  unfold containsPoint
  rw [hp, hd]

theorem childIndexOfPoint_fields_congr (Dim : Nat) {n n' : NodeInternal}
    (hp : n.position = n'.position) (hd : n.dimensions = n'.dimensions)
    (p : Vec) : childIndexOfPoint Dim n p = childIndexOfPoint Dim n' p := by
  unfold childIndexOfPoint
  rw [hp, hd]

theorem childPos_fields_congr (Dim : Nat) {n n' : NodeInternal}
    (hp : n.position = n'.position) (hd : n.dimensions = n'.dimensions)
    (k : Nat) : childPos Dim n k = childPos Dim n' k := by
  unfold childPos
  rw [hp, hd]

theorem childDims_fields_congr (Dim : Nat) {n n' : NodeInternal}
    (hd : n.dimensions = n'.dimensions) :
    childDims Dim n = childDims Dim n' := by
  unfold childDims
  rw [hd]

/-- The effect of the bulk constructor's child leaf-slice assignment loop:
each fresh child `k` receives leaf index `base + Σ_{m<k} cnt m` and count
`cnt k`; nothing else changes. -/
theorem fold_assignLeafs (i : Nat) (cntF : Nat → Nat) :
    ∀ (n : Nat) (w : Orthtree α) (base : Nat),
    (∀ k, k < n → (getNode w i).childIndices.getD k 0 = k + 1) →
    i + 1 + n ≤ w.nodes.length →
    ((List.range n).foldl
      (fun acc k =>
        (setNode acc.1 (childPtr acc.1 i k)
          (fun nd => { nd with leafIndex := acc.2, leafCount := cntF k }),
          acc.2 + cntF k))
      (w, base)).2 = base + ((List.range n).map cntF).sum ∧
    ((List.range n).foldl
      (fun acc k =>
        (setNode acc.1 (childPtr acc.1 i k)
          (fun nd => { nd with leafIndex := acc.2, leafCount := cntF k }),
          acc.2 + cntF k))
      (w, base)).1.nodes.length = w.nodes.length ∧
    ((List.range n).foldl
      (fun acc k =>
        (setNode acc.1 (childPtr acc.1 i k)
          (fun nd => { nd with leafIndex := acc.2, leafCount := cntF k }),
          acc.2 + cntF k))
      (w, base)).1.leafs = w.leafs ∧
    ((List.range n).foldl
      (fun acc k =>
        (setNode acc.1 (childPtr acc.1 i k)
          (fun nd => { nd with leafIndex := acc.2, leafCount := cntF k }),
          acc.2 + cntF k))
      (w, base)).1.nodeCapacity = w.nodeCapacity ∧
    ((List.range n).foldl
      (fun acc k =>
        (setNode acc.1 (childPtr acc.1 i k)
          (fun nd => { nd with leafIndex := acc.2, leafCount := cntF k }),
          acc.2 + cntF k))
      (w, base)).1.maxDepth = w.maxDepth ∧
    ((List.range n).foldl
      (fun acc k =>
        (setNode acc.1 (childPtr acc.1 i k)
          (fun nd => { nd with leafIndex := acc.2, leafCount := cntF k }),
          acc.2 + cntF k))
      (w, base)).1.autoAdjust = w.autoAdjust ∧
    ∀ j, getNode ((List.range n).foldl
      (fun acc k =>
        (setNode acc.1 (childPtr acc.1 i k)
          (fun nd => { nd with leafIndex := acc.2, leafCount := cntF k }),
          acc.2 + cntF k))
      (w, base)).1 j =
      if i + 1 ≤ j ∧ j < i + 1 + n then
        { getNode w j with
          leafIndex := base + ((List.range (j - (i + 1))).map cntF).sum
          leafCount := cntF (j - (i + 1)) }
      else getNode w j := by
  intro n
  induction n with
  | zero =>
    intro w base hci hbound
    refine ⟨by simp, rfl, rfl, rfl, rfl, rfl, ?_⟩
    intro j
    rw [if_neg (by omega)]
    rfl
  | succ m ih =>
    intro w base hci hbound
    rw [List.range_succ, List.foldl_append, List.foldl_cons, List.foldl_nil]
    obtain ⟨h2, hlen, hleafs, hc1, hc2, hc3, hpt⟩ :=
      ih w base (fun k hk => hci k (by omega)) (by omega)
    have hni : getNode ((List.range m).foldl
        (fun acc k =>
          (setNode acc.1 (childPtr acc.1 i k)
            (fun nd => { nd with leafIndex := acc.2, leafCount := cntF k }),
            acc.2 + cntF k))
        (w, base)).1 i = getNode w i := by
      rw [hpt i, if_neg (by omega)]
    have hcpm : childPtr ((List.range m).foldl
        (fun acc k =>
          (setNode acc.1 (childPtr acc.1 i k)
            (fun nd => { nd with leafIndex := acc.2, leafCount := cntF k }),
            acc.2 + cntF k))
        (w, base)).1 i m = i + 1 + m := by
      show i + (getNode ((List.range m).foldl
        (fun acc k =>
          (setNode acc.1 (childPtr acc.1 i k)
            (fun nd => { nd with leafIndex := acc.2, leafCount := cntF k }),
            acc.2 + cntF k))
        (w, base)).1 i).childIndices.getD m 0 = i + 1 + m
      rw [hni, hci m (by omega)]
      omega
    refine ⟨?_, ?_, ?_, ?_, ?_, ?_, ?_⟩
    · show ((List.range m).foldl _ (w, base)).2 + cntF m = _
      rw [h2, List.map_append, List.sum_append]
      simp
      omega
    · show (setNode _ _ _).nodes.length = _
      rw [setNode_length, hlen]
    · show (setNode _ _ _).leafs = _
      rw [setNode_leafs, hleafs]
    · exact hc1
    · exact hc2
    · exact hc3
    · intro j
      show getNode (setNode _ (childPtr _ i m) _) j = _
      rw [hcpm]
      rcases eq_or_ne j (i + 1 + m) with he | hne
      · subst he
        rw [getNode_setNode_self _ (by rw [hlen]; omega), hpt,
          if_neg (by omega), if_pos (by omega), h2,
          show i + 1 + m - (i + 1) = m from by omega]
      · rw [getNode_setNode_ne _ hne, hpt]
        by_cases hin : i + 1 ≤ j ∧ j < i + 1 + m
        · rw [if_pos hin, if_pos (by omega)]
        · rw [if_neg hin, if_neg (by omega)]

theorem bulkSplitNode_eq_body (Dim : Nat) (t : Orthtree α) (i : Nat) :
    bulkSplitNode Dim t i =
      bulkSplitBody Dim
        ((updateNodeChildData Dim (allocChildren Dim t i) i true true).1)
        i := rfl

/-- Full description of `bulkSplitBody` over a skeleton-created state: the
leaf window of node `i` is replaced by the flattened buckets and each fresh
child is assigned its bucket slice. -/
theorem bulkSplitBody_spec {Dim : Nat} {t : Orthtree α}
    (S : SkeletonValid Dim t) {i : Nat} (hi : i < t.nodes.length)
    (hrange : (getNode t i).leafIndex + (getNode t i).leafCount ≤
      t.leafs.length)
    {T2 : Orthtree α}
    (hT2len : T2.nodes.length = t.nodes.length + 2 ^ Dim)
    (hT2leafs : T2.leafs = t.leafs)
    (ht2 : ∀ j', getNode T2 j' = csNodeF Dim t i 0 j') :
    (bulkSplitBody Dim T2 i).nodes.length = t.nodes.length + 2 ^ Dim ∧
    (bulkSplitBody Dim T2 i).nodeCapacity = T2.nodeCapacity ∧
    (bulkSplitBody Dim T2 i).maxDepth = T2.maxDepth ∧
    (bulkSplitBody Dim T2 i).autoAdjust = T2.autoAdjust ∧
    (bulkSplitBody Dim T2 i).leafs =
      t.leafs.take (getNode t i).leafIndex ++
        ((List.range (2 ^ Dim)).map (bsBucket Dim t i)).flatten ++
        t.leafs.drop ((getNode t i).leafIndex + (getNode t i).leafCount) ∧
    ∀ j, getNode (bulkSplitBody Dim T2 i) j =
      if i + 1 ≤ j ∧ j < i + 1 + 2 ^ Dim then
        { allocChild Dim (getNode t i) (j - (i + 1)) with
          leafIndex := (getNode t i).leafIndex +
            bsPsum Dim t i (j - (i + 1))
          leafCount := (bsBucket Dim t i (j - (i + 1))).length }
      else csNodeF Dim t i 0 j := by
  have h2p : 0 < 2 ^ Dim := Nat.pos_pow_of_pos Dim (by omega)
  have hnE : getNode T2 i = { getNode t i with
      hasChildren := true
      childIndices := ((List.range (2 ^ Dim + 1)).map (· + 1)) } := by
    rw [ht2]
    exact csNodeF_at_eq
  have hli : (getNode T2 i).leafIndex = (getNode t i).leafIndex := by
    rw [hnE]
  have hct : (getNode T2 i).leafCount = (getNode t i).leafCount := by
    rw [hnE]
  have hpred : ∀ k : Nat, (fun l : LeafInternal α =>
      decide ((getNode T2 (findChildPoint Dim T2 i
        l.position)).siblingIndex = k)) =
      (fun l => decide (bsMask Dim t i l = k)) := by
    intro k
    funext l
    have hmask : childIndexOfPoint Dim (getNode T2 i) l.position =
        bsMask Dim t i l := by
      unfold bsMask
      exact childIndexOfPoint_fields_congr Dim (by rw [hnE]) (by rw [hnE]) _
    have hmlt := childIndexOfPoint_lt Dim (getNode T2 i) l.position
    have hmlt2 : bsMask Dim t i l < 2 ^ Dim := by
      rw [← hmask]
      exact hmlt
    have hfc : findChildPoint Dim T2 i l.position =
        i + 1 + bsMask Dim t i l := by
      unfold findChildPoint
      show i + (getNode T2 i).childIndices.getD
        (childIndexOfPoint Dim (getNode T2 i) l.position) 0 = _
      rw [hmask, ht2, csF_eq_getD (show bsMask Dim t i l < 2 ^ Dim + 1
        from by omega)]
      omega
    rw [hfc, ht2, (csF_child_node
      (show i < i + 1 + bsMask Dim t i l from by omega)
      (show i + 1 + bsMask Dim t i l < i + 1 + 2 ^ Dim from by
        omega)).2.2.2.2,
      show i + 1 + bsMask Dim t i l - (i + 1) = bsMask Dim t i l from by
        omega]
  have hperm : (((List.range (2 ^ Dim)).map
      (bsBucket Dim t i)).flatten).Perm (bsSlice t i) := by
    rw [show bsBucket Dim t i = (fun k => (bsSlice t i).filter
      (fun l => decide (bsMask Dim t i l = k))) from funext fun k => rfl]
    exact flatten_filter_perm (bsMask Dim t i) (bsSlice t i) (2 ^ Dim)
      (fun x _ => childIndexOfPoint_lt Dim (getNode t i) x.position)
  have hslicelen : (bsSlice t i).length = (getNode t i).leafCount := by
    unfold bsSlice
    rw [List.length_take, List.length_drop]
    omega
  have hflatlen : (((List.range (2 ^ Dim)).map
      (bsBucket Dim t i)).flatten).length = (getNode t i).leafCount := by
    rw [hperm.length_eq, hslicelen]
  simp only [bulkSplitBody]
  rw [hT2leafs, hli, hct]
  rw [show (t.leafs.drop (getNode t i).leafIndex).take
    (getNode t i).leafCount = bsSlice t i from rfl]
  rw [show (fun k => (bsSlice t i).filter (fun l =>
      decide ((getNode T2 (findChildPoint Dim T2 i
        l.position)).siblingIndex = k))) = bsBucket Dim t i from
    funext fun k => by
      rw [hpred k]
      rfl]
  obtain ⟨hf2, hflen, hfleafs, hfc1, hfc2, hfc3, hfpt⟩ :=
    fold_assignLeafs i
      (fun k => (((List.range (2 ^ Dim)).map
        (bsBucket Dim t i)).getD k []).length)
      (2 ^ Dim)
      { T2 with leafs :=
          (t.leafs.take (getNode t i).leafIndex ++
            ((List.range (2 ^ Dim)).map (bsBucket Dim t i)).flatten ++
            t.leafs.drop ((getNode t i).leafIndex +
              ((List.range (2 ^ Dim)).map
                (bsBucket Dim t i)).flatten.length)) }
      (getNode t i).leafIndex
      (fun k hk => by
        show (getNode T2 i).childIndices.getD k 0 = k + 1
        rw [ht2]
        exact csF_eq_getD (by omega))
      (by
        show i + 1 + 2 ^ Dim ≤ T2.nodes.length
        omega)
  refine ⟨by rw [hflen]; show T2.nodes.length = _; omega,
    by rw [hfc1], by rw [hfc2], by rw [hfc3],
    by rw [hfleafs]; show _ ++ _ ++ t.leafs.drop (_ + _) = _;
       rw [hflatlen],
    ?_⟩
  intro j
  rw [hfpt j]
  by_cases hin : i + 1 ≤ j ∧ j < i + 1 + 2 ^ Dim
  · rw [if_pos hin, if_pos hin]
    have hbase : getNode { T2 with leafs :=
        (t.leafs.take (getNode t i).leafIndex ++
          ((List.range (2 ^ Dim)).map (bsBucket Dim t i)).flatten ++
          t.leafs.drop ((getNode t i).leafIndex +
            ((List.range (2 ^ Dim)).map
              (bsBucket Dim t i)).flatten.length)) } j =
        allocChild Dim (getNode t i) (j - (i + 1)) := by
      show getNode T2 j = _
      rw [ht2]
      exact csNodeF_at_child (by omega) (by omega)
    rw [hbase]
    have hcnt : (((List.range (2 ^ Dim)).map
        (bsBucket Dim t i)).getD (j - (i + 1)) []).length =
        (bsBucket Dim t i (j - (i + 1))).length := by
      rw [getD_map_range (2 ^ Dim) (j - (i + 1)) (by omega)]
    have hsum : ((List.range (j - (i + 1))).map
        (fun k => (((List.range (2 ^ Dim)).map
          (bsBucket Dim t i)).getD k []).length)).sum =
        bsPsum Dim t i (j - (i + 1)) := by
      unfold bsPsum
      congr 1
      apply List.map_congr_left
      intro m hm
      have hm2 : m < j - (i + 1) := List.mem_range.mp hm
      rw [getD_map_range (2 ^ Dim) m (by omega)]
    rw [hcnt, hsum]
  · rw [if_neg hin, if_neg hin]
    show getNode T2 j = _
    rw [ht2]

theorem csF_lt_leafbox {Dim : Nat} {t : Orthtree α} {i c j' : Nat}
    (h : j' < i) :
    (csNodeF Dim t i c j').leafIndex = (getNode t j').leafIndex ∧
    (csNodeF Dim t i c j').leafCount = (getNode t j').leafCount ∧
    (csNodeF Dim t i c j').position = (getNode t j').position ∧
    (csNodeF Dim t i c j').dimensions = (getNode t j').dimensions := by
  rw [csNodeF_at_lt h]
  exact ⟨rfl, rfl, rfl, rfl⟩

theorem csF_eq_leafbox {Dim : Nat} {t : Orthtree α} {i c : Nat} :
    (csNodeF Dim t i c i).leafIndex = (getNode t i).leafIndex ∧
    (csNodeF Dim t i c i).leafCount = (getNode t i).leafCount ∧
    (csNodeF Dim t i c i).position = (getNode t i).position ∧
    (csNodeF Dim t i c i).dimensions = (getNode t i).dimensions := by
  rw [csNodeF_at_eq]
  exact ⟨rfl, rfl, rfl, rfl⟩

theorem cs0_suffix_leafbox {Dim : Nat} {t : Orthtree α} {i j' : Nat}
    (hsu : i + 1 + 2 ^ Dim ≤ j') :
    (csNodeF Dim t i 0 j').leafIndex =
      (getNode t (j' - 2 ^ Dim)).leafIndex ∧
    (csNodeF Dim t i 0 j').leafCount =
      (getNode t (j' - 2 ^ Dim)).leafCount ∧
    (csNodeF Dim t i 0 j').position =
      (getNode t (j' - 2 ^ Dim)).position ∧
    (csNodeF Dim t i 0 j').dimensions =
      (getNode t (j' - 2 ^ Dim)).dimensions := by
  rw [csNodeF_at_suffix hsu]
  by_cases hcnd : 0 ≤ parentIdx t (j' - 2 ^ Dim) ∧
      parentIdx t (j' - 2 ^ Dim) ≤ i ∧
      i < parentIdx t (j' - 2 ^ Dim) +
        sentinel Dim t (parentIdx t (j' - 2 ^ Dim))
  · rw [if_pos hcnd]
    exact ⟨rfl, rfl, rfl, rfl⟩
  · rw [if_neg hcnd]
    exact ⟨rfl, rfl, rfl, rfl⟩

theorem bsPsum_succ (Dim : Nat) (t : Orthtree α) (i k : Nat) :
    bsPsum Dim t i (k + 1) =
      bsPsum Dim t i k + (bsBucket Dim t i k).length := by
  unfold bsPsum
  rw [sum_map_range_succ]

theorem bsPsum_mono (Dim : Nat) (t : Orthtree α) (i : Nat) {k k' : Nat}
    (h : k ≤ k') : bsPsum Dim t i k ≤ bsPsum Dim t i k' :=
  sum_map_range_le _ k' k h

theorem bsSlice_length {t : Orthtree α} {i : Nat}
    (hrange : (getNode t i).leafIndex + (getNode t i).leafCount ≤
      t.leafs.length) :
    (bsSlice t i).length = (getNode t i).leafCount := by
  unfold bsSlice
  rw [List.length_take, List.length_drop]
  omega

theorem bsFlat_perm (Dim : Nat) (t : Orthtree α) (i : Nat) :
    (((List.range (2 ^ Dim)).map (bsBucket Dim t i)).flatten).Perm
      (bsSlice t i) := by
  rw [show bsBucket Dim t i = (fun k => (bsSlice t i).filter
    (fun l => decide (bsMask Dim t i l = k))) from funext fun k => rfl]
  exact flatten_filter_perm (bsMask Dim t i) (bsSlice t i) (2 ^ Dim)
    (fun x _ => childIndexOfPoint_lt Dim (getNode t i) x.position)

theorem bsFlat_len {Dim : Nat} {t : Orthtree α} {i : Nat}
    (hrange : (getNode t i).leafIndex + (getNode t i).leafCount ≤
      t.leafs.length) :
    (((List.range (2 ^ Dim)).map (bsBucket Dim t i)).flatten).length =
      (getNode t i).leafCount := by
  rw [(bsFlat_perm Dim t i).length_eq, bsSlice_length hrange]

theorem bsPsum_total {Dim : Nat} {t : Orthtree α} {i : Nat}
    (hrange : (getNode t i).leafIndex + (getNode t i).leafCount ≤
      t.leafs.length) :
    bsPsum Dim t i (2 ^ Dim) = (getNode t i).leafCount := by
  have h := @bsFlat_len α Dim t i hrange
  rw [List.length_flatten, List.map_map] at h
  unfold bsPsum
  rw [show ((List.range (2 ^ Dim)).map (fun m =>
      (bsBucket Dim t i m).length)) = (List.range (2 ^ Dim)).map
      (List.length ∘ bsBucket Dim t i) from
    List.map_congr_left (fun m _ => rfl)]
  exact h

theorem bulkSplitNode_descr {Dim : Nat} {t : Orthtree α}
    (S : SkeletonValid Dim t) {i : Nat} (hi : i < t.nodes.length)
    (hterm : (getNode t i).hasChildren = false)
    (hsz : t.nodes.length + 2 ^ Dim < 2 ^ 64)
    (hrange : (getNode t i).leafIndex + (getNode t i).leafCount ≤
      t.leafs.length) :
    bsDescr Dim t i (bulkSplitNode Dim t i) := by
  obtain ⟨hT2len, hT2leafs, hT2cap, hT2max, hT2auto, ht2⟩ :=
    createSkeleton_spec S hi hterm hsz
  obtain ⟨h1, h2, h3, h4, h5, h6⟩ :=
    bulkSplitBody_spec S hi hrange hT2len hT2leafs ht2
  rw [bulkSplitNode_eq_body]
  exact ⟨h1, h2.trans hT2cap, h3.trans hT2max, h4.trans hT2auto, h5, h6⟩

theorem bsDescr_leafs_perm {Dim : Nat} {t : Orthtree α} {i : Nat}
    {B : Orthtree α}
    (hrange : (getNode t i).leafIndex + (getNode t i).leafCount ≤
      t.leafs.length)
    (hBleafs : B.leafs = (t.leafs.take (getNode t i).leafIndex ++
      ((List.range (2 ^ Dim)).map (bsBucket Dim t i)).flatten ++
      t.leafs.drop ((getNode t i).leafIndex + (getNode t i).leafCount))) :
    B.leafs.Perm t.leafs := by
  have hdd : t.leafs.drop (getNode t i).leafIndex =
      bsSlice t i ++ t.leafs.drop ((getNode t i).leafIndex +
        (getNode t i).leafCount) := by
    conv_lhs => rw [← List.take_append_drop (getNode t i).leafCount
      (t.leafs.drop (getNode t i).leafIndex)]
    rw [List.drop_drop]
    rfl
  have hsplit : t.leafs = t.leafs.take (getNode t i).leafIndex ++
      (bsSlice t i ++
        t.leafs.drop ((getNode t i).leafIndex +
          (getNode t i).leafCount)) := by
    conv_lhs => rw [← List.take_append_drop (getNode t i).leafIndex t.leafs,
      hdd]
  rw [hBleafs, List.append_assoc]
  conv_rhs => rw [hsplit]
  exact ((bsFlat_perm Dim t i).append_right _).append_left _

theorem bsDescr_leafs_length {Dim : Nat} {t : Orthtree α} {i : Nat}
    {B : Orthtree α}
    (hrange : (getNode t i).leafIndex + (getNode t i).leafCount ≤
      t.leafs.length)
    (hBleafs : B.leafs = (t.leafs.take (getNode t i).leafIndex ++
      ((List.range (2 ^ Dim)).map (bsBucket Dim t i)).flatten ++
      t.leafs.drop ((getNode t i).leafIndex + (getNode t i).leafCount))) :
    B.leafs.length = t.leafs.length :=
  (bsDescr_leafs_perm hrange hBleafs).length_eq

/-- Structural validity of the node skeleton transfers along pointwise
equality of the skeleton fields. -/
theorem valid_node_frame {Dim : Nat} {u v : Orthtree α}
    (hlen : v.nodes.length = u.nodes.length)
    (hmax : v.maxDepth = u.maxDepth)
    (hf : ∀ j, (getNode v j).hasChildren = (getNode u j).hasChildren ∧
      (getNode v j).childIndices = (getNode u j).childIndices ∧
      (getNode v j).parentIndex = (getNode u j).parentIndex ∧
      (getNode v j).siblingIndex = (getNode u j).siblingIndex ∧
      (getNode v j).depth = (getNode u j).depth)
    (S : SkeletonValid Dim u) : SkeletonValid Dim v := by
  have hsent : ∀ j, sentinel Dim v j = sentinel Dim u j := by
    intro j
    unfold sentinel
    rw [(hf j).2.1]
  have hcp : ∀ j k, childPtr v j k = childPtr u j k := by
    intro j k
    unfold childPtr
    rw [(hf j).2.1]
  have hpar : ∀ j, parentIdx v j = parentIdx u j := by
    intro j
    unfold parentIdx
    rw [(hf j).2.2.1]
  exact {
    dim_pos := S.dim_pos
    len_pos := by rw [hlen]; exact S.len_pos
    nodes_lt := by rw [hlen]; exact S.nodes_lt
    ci_len := fun j hj => by
      rw [(hf j).2.1]
      exact S.ci_len j (by omega)
    depth_le := fun j hj => by
      rw [(hf j).2.2.2.2, hmax]
      exact S.depth_le j (by omega)
    no_children := fun j hj hc => by
      rw [(hf j).2.1]
      exact S.no_children j (by omega) (by rw [← (hf j).1]; exact hc)
    ci_zero := fun j hj hc => by
      rw [(hf j).2.1]
      exact S.ci_zero j (by omega) (by rw [← (hf j).1]; exact hc)
    ci_step := fun j hj hc k hk => by
      rw [(hf j).2.1, hcp, hsent]
      exact S.ci_step j (by omega) (by rw [← (hf j).1]; exact hc) k hk
    ci_lt := fun j hj hc k hk => by
      rw [(hf j).2.1]
      exact S.ci_lt j (by omega) (by rw [← (hf j).1]; exact hc) k hk
    sub_le := fun j hj hc => by
      rw [hsent, hlen]
      exact S.sub_le j (by omega) (by rw [← (hf j).1]; exact hc)
    child_parentIndex := fun j hj hc k hk => by
      rw [hcp, (hf (childPtr u j k)).2.2.1, (hf j).2.1]
      exact S.child_parentIndex j (by omega)
        (by rw [← (hf j).1]; exact hc) k hk
    child_sibling := fun j hj hc k hk => by
      rw [hcp, (hf (childPtr u j k)).2.2.2.1]
      exact S.child_sibling j (by omega)
        (by rw [← (hf j).1]; exact hc) k hk
    child_depth := fun j hj hc k hk => by
      rw [hcp, (hf (childPtr u j k)).2.2.2.2, (hf j).2.2.2.2]
      exact S.child_depth j (by omega)
        (by rw [← (hf j).1]; exact hc) k hk
    parent_ex := fun j hj hj0 => by
      obtain ⟨p, hp, k, hk, hpc, hje⟩ := S.parent_ex j (by omega) hj0
      exact ⟨p, by omega, k, hk, by rw [(hf p).1]; exact hpc,
        by rw [hcp]; exact hje⟩ }

/-- The child-box relation holds in the post-creation state. -/
theorem csU_child_box {Dim : Nat} {t : Orthtree α}
    (S : SkeletonValid Dim t) (V : Valid Dim t) {i : Nat}
    (hi : i < t.nodes.length)
    {U : Orthtree α}
    (hULen : U.nodes.length = t.nodes.length + 2 ^ Dim)
    (hus : ∀ j', getNode U j' = csNodeF Dim t i 0 j') :
    ∀ j', j' < U.nodes.length → (getNode U j').hasChildren = true →
    ∀ k, k < 2 ^ Dim →
    (getNode U (childPtr U j' k)).position =
      childPos Dim (getNode U j') k ∧
    (getNode U (childPtr U j' k)).dimensions =
      childDims Dim (getNode U j') := by
  have h2p : 0 < 2 ^ Dim := Nat.pos_pow_of_pos Dim (by omega)
  intro j' hj' hch k hk
  rw [hULen] at hj'
  rcases Nat.lt_or_ge j' i with hlt | hge
  · have hjlen : j' < t.nodes.length := by omega
    have hcht : (getNode t j').hasChildren = true := by
      rw [hus, (csF_lt_fields hlt).1] at hch
      exact hch
    have hPc : childPos Dim (getNode U j') k =
        childPos Dim (getNode t j') k :=
      childPos_fields_congr Dim
        (by rw [hus]; exact (csF_lt_leafbox hlt).2.2.1)
        (by rw [hus]; exact (csF_lt_leafbox hlt).2.2.2) k
    have hDc : childDims Dim (getNode U j') =
        childDims Dim (getNode t j') :=
      childDims_fields_congr Dim
        (by rw [hus]; exact (csF_lt_leafbox hlt).2.2.2)
    rw [hPc, hDc]
    have hcpE : childPtr t j' k =
        j' + (getNode t j').childIndices.getD k 0 := rfl
    have hck := sk_childPtr_lt S hjlen hcht k hk
    have hbox := V.child_box j' hjlen hcht k hk
    have hgU : (getNode U j').childIndices.getD k 0 =
        (if i < j' + (getNode t j').childIndices.getD k 0 then
          (getNode t j').childIndices.getD k 0 + 2 ^ Dim
        else (getNode t j').childIndices.getD k 0) := by
      rw [hus, cs0_lt_getD hlt (by omega)]
    by_cases hBk : i < j' + (getNode t j').childIndices.getD k 0
    · have hidx : childPtr U j' k = childPtr t j' k + 2 ^ Dim := by
        show j' + (getNode U j').childIndices.getD k 0 = _
        rw [hgU, if_pos hBk, hcpE]
        omega
      rw [hidx, hus (childPtr t j' k + 2 ^ Dim)]
      constructor
      · rw [(cs0_suffix_leafbox (show i + 1 + 2 ^ Dim ≤
          childPtr t j' k + 2 ^ Dim from by omega)).2.2.1,
          show childPtr t j' k + 2 ^ Dim - 2 ^ Dim = childPtr t j' k
            from by omega]
        exact hbox.1
      · rw [(cs0_suffix_leafbox (show i + 1 + 2 ^ Dim ≤
          childPtr t j' k + 2 ^ Dim from by omega)).2.2.2,
          show childPtr t j' k + 2 ^ Dim - 2 ^ Dim = childPtr t j' k
            from by omega]
        exact hbox.2
    · have hidx : childPtr U j' k = childPtr t j' k := by
        show j' + (getNode U j').childIndices.getD k 0 = _
        rw [hgU, if_neg hBk, hcpE]
      rw [hidx]
      rcases eq_or_ne (childPtr t j' k) i with hceq | hcne
      · rw [hceq, hus i]
        rw [hceq] at hbox
        exact ⟨(csF_eq_leafbox).2.2.1.trans hbox.1,
          (csF_eq_leafbox).2.2.2.trans hbox.2⟩
      · have hclt : childPtr t j' k < i := by omega
        rw [hus (childPtr t j' k)]
        exact ⟨(csF_lt_leafbox hclt).2.2.1.trans hbox.1,
          (csF_lt_leafbox hclt).2.2.2.trans hbox.2⟩
  · rcases eq_or_ne j' i with he | hne
    · subst he
      have hPc : childPos Dim (getNode U j') k =
          childPos Dim (getNode t j') k :=
        childPos_fields_congr Dim
          (by rw [hus]; exact (csF_eq_leafbox).2.2.1)
          (by rw [hus]; exact (csF_eq_leafbox).2.2.2) k
      have hDc : childDims Dim (getNode U j') =
          childDims Dim (getNode t j') :=
        childDims_fields_congr Dim
          (by rw [hus]; exact (csF_eq_leafbox).2.2.2)
      have hgU : (getNode U j').childIndices.getD k 0 = k + 1 := by
        rw [hus]
        exact csF_eq_getD (by omega)
      have hidx : childPtr U j' k = j' + (k + 1) := by
        show j' + (getNode U j').childIndices.getD k 0 = _
        rw [hgU]
      rw [hPc, hDc, hidx, hus (j' + (k + 1)),
        csNodeF_at_child (by omega) (by omega),
        show j' + (k + 1) - (j' + 1) = k from by omega]
      exact ⟨rfl, rfl⟩
    · rcases Nat.lt_or_ge j' (i + 1 + 2 ^ Dim) with hch2 | hsu
      · rw [hus, (csF_child_node (by omega) hch2).1] at hch
        simp at hch
      · have hj : j' - 2 ^ Dim < t.nodes.length := by omega
        have hcht : (getNode t (j' - 2 ^ Dim)).hasChildren = true := by
          rw [hus, (cs0_suffix_node hsu).1] at hch
          exact hch
        have hPc : childPos Dim (getNode U j') k =
            childPos Dim (getNode t (j' - 2 ^ Dim)) k :=
          childPos_fields_congr Dim
            (by rw [hus]; exact (cs0_suffix_leafbox hsu).2.2.1)
            (by rw [hus]; exact (cs0_suffix_leafbox hsu).2.2.2) k
        have hDc : childDims Dim (getNode U j') =
            childDims Dim (getNode t (j' - 2 ^ Dim)) :=
          childDims_fields_congr Dim
            (by rw [hus]; exact (cs0_suffix_leafbox hsu).2.2.2)
        rw [hPc, hDc]
        have hgU : (getNode U j').childIndices.getD k 0 =
            (getNode t (j' - 2 ^ Dim)).childIndices.getD k 0 := by
          rw [hus, (cs0_suffix_node hsu).2.1]
        have hjc := sk_lt_childPtr S hj hcht k (le_of_lt hk)
        have hcpE2 : childPtr t (j' - 2 ^ Dim) k =
            (j' - 2 ^ Dim) + (getNode t (j' - 2 ^ Dim)).childIndices.getD
              k 0 := rfl
        have hidx : childPtr U j' k =
            childPtr t (j' - 2 ^ Dim) k + 2 ^ Dim := by
          show j' + (getNode U j').childIndices.getD k 0 = _
          rw [hgU, hcpE2]
          omega
        have hbox := V.child_box _ hj hcht k hk
        rw [hidx, hus (childPtr t (j' - 2 ^ Dim) k + 2 ^ Dim)]
        constructor
        · rw [(cs0_suffix_leafbox (show i + 1 + 2 ^ Dim ≤
            childPtr t (j' - 2 ^ Dim) k + 2 ^ Dim from by omega)).2.2.1,
            show childPtr t (j' - 2 ^ Dim) k + 2 ^ Dim - 2 ^ Dim =
              childPtr t (j' - 2 ^ Dim) k from by omega]
          exact hbox.1
        · rw [(cs0_suffix_leafbox (show i + 1 + 2 ^ Dim ≤
            childPtr t (j' - 2 ^ Dim) k + 2 ^ Dim from by omega)).2.2.2,
            show childPtr t (j' - 2 ^ Dim) k + 2 ^ Dim - 2 ^ Dim =
              childPtr t (j' - 2 ^ Dim) k from by omega]
          exact hbox.2

end Glade
